import Mathlib

/-! Mini_Os: the in-memory file system of `src/van/main.c`.

A shallow embedding of the storage engine of `src/van/main.c` (the variant
`src/Paola/main_with_filename.c` has the same engine and addresses files by
name instead of by index), followed by theorems about it.

Modelling conventions.

* The global `FileSystem fs` is passed explicitly; every operation returns
  its result together with the state it leaves.
* A C array is a total map from `Int` indices. The source reads and writes
  `files[0 .. MAX_FILES-1]`, `blocks[0 .. MAX_BLOCKS-1]` and
  `free_blocks[0 .. MAX_BLOCKS-1]`; an index outside these bounds is
  undefined behaviour in C, and counts, sums and invariants below only look
  at the cells inside the bounds.
* A C string is the list of its characters before the terminating NUL.
  `char filename[MAX_FILENAME]` is the string it holds; a slot is empty
  (`filename[0] == '\0'`) iff that list is empty.
* `int` and `size_t` values are unbounded integers: the contents the program
  handles are far shorter than `INT_MAX` bytes and no computation of the
  source overflows on them.
* `time(NULL)` is an input: each call of `time` is a parameter of the
  operation that makes it.
* `printf` is not modelled, except that the message printed before a
  `return -1` / `return NULL` decides the error kind of the failure.
* `malloc` in `read_file` is taken to succeed.
-/

namespace MiniOs

/-! ## Constants and data model (main.c lines 6-31) -/

def BLOCK_SIZE : Nat := 1024
def MAX_BLOCKS : Nat := 1000
def MAX_FILES : Nat := 100
def MAX_FILENAME : Nat := 32
def MAX_PATH : Nat := 256

/-- The NUL character, which ends a C string and fills zeroed memory. -/
def NUL : Char := Char.ofNat 0

/-- One slot of the entry table (`FileMetadata`). -/
structure FileMetadata where
  filename : List Char
  size : Nat
  created : Int
  modified : Int
  start_block : Int
  num_blocks : Int
  is_directory : Int
  parent_dir : Int
deriving DecidableEq

/-- The whole engine state (the global `fs`). -/
structure FileSystem where
  files : Int → FileMetadata
  blocks : Int → Nat → Char
  free_blocks : Int → Int
  num_files : Int
  current_dir : Int

/-- Error kinds. The source signals every failure by `-1` or `NULL` after
printing a message; the kind names the message:
`NotFound` "Index de fichier invalide" / "Répertoire non trouvé",
`DuplicateName` "Un fichier ou répertoire avec ce nom existe déjà",
`TableFull` "Nombre maximum de fichiers atteint" and "Pas d'emplacement libre",
`OutOfSpace` "Espace insuffisant",
`NotAFile` "Impossible d'écrire dans / de lire un répertoire",
`NotADirectory` "Ce n'est pas un répertoire",
`IsADirectory` "Utilisez delete_directory_recursive pour les répertoires",
`EmptyFile` "Fichier vide",
`CannotDeleteRoot` "Impossible de supprimer le répertoire racine".
`NameTooLong` is the remaining error kind of the specification; the source
has no message for it and no operation below returns it. -/
inductive Err
  | NotFound
  | DuplicateName
  | NameTooLong
  | TableFull
  | OutOfSpace
  | NotAFile
  | NotADirectory
  | IsADirectory
  | EmptyFile
  | CannotDeleteRoot
deriving DecidableEq

/-- What an operation returns: `ok v` is the C return value `v` of a
successful call, `fail e` is `-1` / `NULL` with the message of kind `e`. -/
inductive Outcome (α : Type)
  | ok (v : α)
  | fail (e : Err)
deriving DecidableEq

/-- A `FileMetadata` after `memset(.., 0, sizeof(FileMetadata))`. -/
def zero_entry : FileMetadata :=
  { filename := [], size := 0, created := 0, modified := 0,
    start_block := 0, num_blocks := 0, is_directory := 0, parent_dir := 0 }

/-- Array assignment `a[i] = v`. -/
def set_at {α : Type} (a : Int → α) (i : Int) (v : α) : Int → α :=
  fun j => if j = i then v else a j

/-! ## init_filesystem (lines 34-48) -/

/-- Function `init_filesystem`; `t_created`, `t_modified` are the two `time(NULL)`
readings. -/
def init_filesystem (t_created t_modified : Int) : FileSystem :=
  { files := set_at (fun _ => zero_entry) 0
      { zero_entry with
        filename := ['/'], is_directory := 1,
        created := t_created, modified := t_modified, parent_dir := 0 }
    blocks := fun _ _ => NUL
    free_blocks := fun i => if 0 ≤ i ∧ i < (MAX_BLOCKS : Int) then 1 else 0
    num_files := 1
    current_dir := 0 }

/-! ## get_full_path (lines 51-70) -/

/-- The `while (current != 0)` loop of `get_full_path`: `fuel` bounds the
number of iterations, `none` means that more are needed.
`snprintf(temp, sizeof(temp), "/%s%s", filename, temp_path)` keeps the first
`MAX_PATH - 1` characters of what it formats. -/
def get_full_path_loop (fs : FileSystem) : Nat → Int → List Char → Option (List Char)
  | 0, current, temp_path => if current = 0 then some temp_path else none
  | fuel + 1, current, temp_path =>
    if current = 0 then some temp_path
    else
      get_full_path_loop fs fuel (fs.files current).parent_dir
        (('/' :: ((fs.files current).filename ++ temp_path)).take (MAX_PATH - 1))

/-- Function `get_full_path`: the string left in `path`. -/
def get_full_path (fuel : Nat) (file_index : Int) (fs : FileSystem) : Option (List Char) :=
  if file_index = 0 then some ['/'] else get_full_path_loop fs fuel file_index []

/-! ## find_file_in_dir, is_directory_empty (lines 73-93) -/

/-- The `for` loop of `find_file_in_dir`: `k` iterations are left, `i` is
the loop variable. -/
def find_file_in_dir_loop (fs : FileSystem) (filename : List Char) (dir_index : Int) :
    Nat → Int → Int
  | 0, _ => -1
  | k + 1, i =>
    if (fs.files i).filename ≠ [] ∧ (fs.files i).parent_dir = dir_index ∧
        (fs.files i).filename = filename then i
    else find_file_in_dir_loop fs filename dir_index k (i + 1)

def find_file_in_dir (fs : FileSystem) (filename : List Char) (dir_index : Int) : Int :=
  find_file_in_dir_loop fs filename dir_index MAX_FILES 0

/-- The loop `for (j = 0; j < num_blocks; j++) free_blocks[start_block + j] = 1`
with `k` iterations left and loop variable `j`. -/
def free_range (start_block : Int) : Nat → Int → (Int → Int) → (Int → Int)
  | 0, _, free_blocks => free_blocks
  | k + 1, j, free_blocks =>
    free_range start_block k (j + 1) (set_at free_blocks (start_block + j) 1)

/-- Frees the blocks of entry `i` (lines 110-112, 272-274). -/
def free_file_blocks (fs : FileSystem) (i : Int) : FileSystem :=
  { fs with
    free_blocks :=
      free_range (fs.files i).start_block (fs.files i).num_blocks.toNat 0 fs.free_blocks }

/-- The pair `memset(&fs.files[i], 0, ..); fs.num_files--;`. -/
def erase_entry (fs : FileSystem) (i : Int) : FileSystem :=
  { fs with files := set_at fs.files i zero_entry, num_files := fs.num_files - 1 }

/-- The `for` loop of `delete_directory_recursive` (lines 103-117), `k`
iterations left, loop variable `i`; `recurse` is the recursive call, whose
return value the source ignores. `none` when a recursive call does not
return. -/
def delete_children (recurse : Int → FileSystem → Option (Outcome Int × FileSystem))
    (dir_index : Int) : Nat → Int → FileSystem → Option FileSystem
  | 0, _, fs => some fs
  | k + 1, i, fs =>
    if (fs.files i).filename ≠ [] ∧ (fs.files i).parent_dir = dir_index then
      if (fs.files i).is_directory ≠ 0 then
        match recurse i fs with
        | none => none
        | some (_, fs1) => delete_children recurse dir_index k (i + 1) fs1
      else
        delete_children recurse dir_index k (i + 1) (erase_entry (free_file_blocks fs i) i)
    else delete_children recurse dir_index k (i + 1) fs

/-- Function `delete_directory_recursive`. The C recursion has no bound of its own;
`fuel` bounds the nesting depth of the calls and `none` means that the call
needs a deeper nesting than `fuel`. -/
def delete_directory_recursive : Nat → Int → FileSystem → Option (Outcome Int × FileSystem)
  | 0, _, _ => none
  | fuel + 1, dir_index, fs =>
    if (fs.files dir_index).is_directory = 0 then some (Outcome.fail Err.NotADirectory, fs)
    else
      match delete_children (delete_directory_recursive fuel) dir_index MAX_FILES 0 fs with
      | none => none
      | some fs1 => some (Outcome.ok 0, erase_entry fs1 dir_index)

/-! ## create_file (lines 126-164) -/

/-- The slot search of `create_file` (lines 139-145). -/
def find_free_slot_loop (fs : FileSystem) : Nat → Int → Int
  | 0, _ => -1
  | k + 1, i =>
    if (fs.files i).filename = [] then i else find_free_slot_loop fs k (i + 1)

/-- The call `strncpy(file->filename, filename, MAX_FILENAME - 1)` into a slot whose
last byte is NUL: the first `MAX_FILENAME - 1` characters are kept. -/
def strncpy_name (filename : List Char) : List Char :=
  filename.take (MAX_FILENAME - 1)

/-- Function `create_file`; `t_created`, `t_modified` are the two `time(NULL)`
readings of lines 155-156. -/
def create_file (filename : List Char) (is_directory : Int) (t_created t_modified : Int)
    (fs : FileSystem) : Outcome Int × FileSystem :=
  if fs.num_files ≥ (MAX_FILES : Int) then (Outcome.fail Err.TableFull, fs)
  else if find_file_in_dir fs filename fs.current_dir ≠ -1 then
    (Outcome.fail Err.DuplicateName, fs)
  else
    let file_slot := find_free_slot_loop fs MAX_FILES 0
    if file_slot = -1 then (Outcome.fail Err.TableFull, fs)
    else
      (Outcome.ok file_slot,
        { fs with
          files := set_at fs.files file_slot
            { (fs.files file_slot) with
              filename := strncpy_name filename
              size := 0
              created := t_created
              modified := t_modified
              start_block := -1
              num_blocks := 0
              is_directory := is_directory
              parent_dir := fs.current_dir }
          num_files := fs.num_files + 1 })

/-! ## write_file (lines 168-221) -/

/-- The scan for contiguous free blocks (lines 190-200): `k` iterations
left, loop variable `i`; returns `(start_block, consecutive_blocks)` as they
are when the loop ends or breaks. -/
def find_contiguous (free_blocks : Int → Int) (blocks_needed : Int) :
    Nat → Int → Int → Int → Int × Int
  | 0, _, start_block, consecutive_blocks => (start_block, consecutive_blocks)
  | k + 1, i, start_block, consecutive_blocks =>
    if free_blocks i ≠ 0 then
      let start_block1 := if consecutive_blocks = 0 then i else start_block
      let consecutive_blocks1 := consecutive_blocks + 1
      if consecutive_blocks1 = blocks_needed then (start_block1, consecutive_blocks1)
      else find_contiguous free_blocks blocks_needed k (i + 1) start_block1 consecutive_blocks1
    else find_contiguous free_blocks blocks_needed k (i + 1) start_block 0

/-- The bytes `content[0 .. strlen(content)]` of a C string, terminator
included. -/
def c_bytes (content : List Char) : List Char := content ++ [NUL]

/-- The call `memcpy(dst, src + off, n)` on one block. -/
def memcpy_block (dst : Nat → Char) (src : List Char) (off n : Nat) : Nat → Char :=
  fun o => if o < n then src.getD (off + o) NUL else dst o

/-- The allocation and copy loop (lines 208-213): `k` iterations left, loop
variable `i`. -/
def write_blocks (content : List Char) (content_length : Nat) (start_block blocks_needed : Int) :
    Nat → Nat → FileSystem → FileSystem
  | 0, _, fs => fs
  | k + 1, i, fs =>
    let to_write :=
      if (i : Int) = blocks_needed - 1 then content_length - i * BLOCK_SIZE else BLOCK_SIZE
    write_blocks content content_length start_block blocks_needed k (i + 1)
      { fs with
        free_blocks := set_at fs.free_blocks (start_block + i) 0
        blocks := set_at fs.blocks (start_block + i)
          (memcpy_block (fs.blocks (start_block + i)) (c_bytes content) (i * BLOCK_SIZE) to_write) }

/-- The number of blocks `write_file` asks for (lines 179-180):
`content_length = strlen(content) + 1`,
`blocks_needed = (content_length + BLOCK_SIZE - 1) / BLOCK_SIZE`. -/
def blocks_needed (content : List Char) : Int :=
  (((content.length + 1) + BLOCK_SIZE - 1) / BLOCK_SIZE : Nat)

/-- Lines 183-187: the old blocks of the file are freed when
`start_block != -1`. -/
def release_old_blocks (fs : FileSystem) (file_index : Int) : FileSystem :=
  if (fs.files file_index).start_block ≠ -1 then free_file_blocks fs file_index else fs

/-- Function `write_file`; `now` is the `time(NULL)` reading of line 218. -/
def write_file (file_index : Int) (content : List Char) (now : Int) (fs : FileSystem) :
    Outcome Int × FileSystem :=
  if file_index < 0 ∨ file_index ≥ (MAX_FILES : Int) ∨ (fs.files file_index).filename = [] then
    (Outcome.fail Err.NotFound, fs)
  else if (fs.files file_index).is_directory ≠ 0 then (Outcome.fail Err.NotAFile, fs)
  else
    let content_length : Nat := content.length + 1
    let fs1 := release_old_blocks fs file_index
    let found := find_contiguous fs1.free_blocks (blocks_needed content) MAX_BLOCKS 0 (-1) 0
    if found.2 < blocks_needed content then (Outcome.fail Err.OutOfSpace, fs1)
    else
      let fs2 := write_blocks content content_length found.1 (blocks_needed content)
        (blocks_needed content).toNat 0 fs1
      (Outcome.ok 0,
        { fs2 with
          files := set_at fs2.files file_index
            { (fs2.files file_index) with
              start_block := found.1
              num_blocks := blocks_needed content
              size := content_length
              modified := now } })

/-! ## read_file (lines 224-257) -/

/-- The copy loop of `read_file` (lines 246-254): `k` iterations left, loop
variable `i`, `buf` the bytes copied so far (`total_read = buf.length`). -/
def read_blocks (fs : FileSystem) (f : FileMetadata) : Nat → Nat → List Char → List Char
  | 0, _, buf => buf
  | k + 1, i, buf =>
    let to_read := if (i : Int) = f.num_blocks - 1 then f.size - i * BLOCK_SIZE else BLOCK_SIZE
    read_blocks fs f k (i + 1)
      (buf ++ (List.range to_read).map (fun o => fs.blocks (f.start_block + i) o))

/-- Function `read_file`: the bytes copied into the returned buffer. -/
def read_file (file_index : Int) (fs : FileSystem) : Outcome (List Char) :=
  if file_index < 0 ∨ file_index ≥ (MAX_FILES : Int) ∨ (fs.files file_index).filename = [] then
    Outcome.fail Err.NotFound
  else if (fs.files file_index).is_directory ≠ 0 then Outcome.fail Err.NotAFile
  else if (fs.files file_index).start_block = -1 then Outcome.fail Err.EmptyFile
  else
    Outcome.ok (read_blocks fs (fs.files file_index) (fs.files file_index).num_blocks.toNat 0 [])

/-! ## delete_file (lines 260-281) -/

def delete_file (file_index : Int) (fs : FileSystem) : Outcome Int × FileSystem :=
  if file_index < 0 ∨ file_index ≥ (MAX_FILES : Int) ∨ (fs.files file_index).filename = [] then
    (Outcome.fail Err.NotFound, fs)
  else if (fs.files file_index).is_directory ≠ 0 then (Outcome.fail Err.IsADirectory, fs)
  else (Outcome.ok 0, erase_entry (free_file_blocks fs file_index) file_index)

/-! ## The `cd` and `delete` commands of `main` (lines 372-392, 425-445) -/

/-- The `cd` command with argument `arg1` (the loop prints a usage line
and does nothing when `arg1` is empty; an empty `arg1` matches no live entry
and leaves the state unchanged here too). -/
def cd_command (arg1 : List Char) (fs : FileSystem) : Outcome Int × FileSystem :=
  if arg1 = ['.', '.'] then
    if fs.current_dir ≠ 0 then
      (Outcome.ok 0, { fs with current_dir := (fs.files fs.current_dir).parent_dir })
    else (Outcome.ok 0, fs)
  else
    let dir_index := find_file_in_dir fs arg1 fs.current_dir
    if dir_index = -1 then (Outcome.fail Err.NotFound, fs)
    else if (fs.files dir_index).is_directory = 0 then (Outcome.fail Err.NotADirectory, fs)
    else (Outcome.ok 0, { fs with current_dir := dir_index })

/-- The `delete` command with `index = atoi(arg1)`, for an index inside the
table (line 436 reads `fs.files[index]` before any bounds check). -/
def delete_command (fuel : Nat) (index : Int) (fs : FileSystem) :
    Option (Outcome Int × FileSystem) :=
  if index = 0 then some (Outcome.fail Err.CannotDeleteRoot, fs)
  else if (fs.files index).is_directory ≠ 0 then delete_directory_recursive fuel index fs
  else some (delete_file index fs)

/-! ## Specification vocabulary -/

/-- Slot `i` holds a live entry (`filename[0] != '\0'`). -/
def live (fs : FileSystem) (i : Int) : Prop := (fs.files i).filename ≠ []

instance (fs : FileSystem) (i : Int) : Decidable (live fs i) := by
  unfold live; infer_instance

/-- Slot `i` is inside the entry table. -/
def in_table (i : Int) : Prop := 0 ≤ i ∧ i < (MAX_FILES : Int)

instance (i : Int) : Decidable (in_table i) := by
  unfold in_table; infer_instance

/-- Blocks `s .. s+n-1` are all marked free. -/
def free_run (free_blocks : Int → Int) (s n : Int) : Prop :=
  ∀ j, s ≤ j → j < s + n → free_blocks j ≠ 0

/-- Number of blocks marked free among `0 .. k-1`. -/
def count_free_upto (free_blocks : Int → Int) : Nat → Nat
  | 0 => 0
  | k + 1 => count_free_upto free_blocks k + (if free_blocks k ≠ 0 then 1 else 0)

/-- Number of blocks of the store marked free. -/
def count_free (free_blocks : Int → Int) : Nat := count_free_upto free_blocks MAX_BLOCKS

/-- A free map with every second block used: 500 free blocks, no two of
them adjacent. -/
def fragmented_map : Int → Int := fun b => if b % 2 = 0 then 1 else 0

/-- The states the program can be in: `init_filesystem` followed by any
calls of the operations. A call of `create_file` has a non-empty name, a
call of `delete_directory_recursive` an index inside the table and counts
once it has returned. `read_file` leaves the state as it is. -/
inductive Reachable : FileSystem → Prop
  | init (t_created t_modified : Int) : Reachable (init_filesystem t_created t_modified)
  | create (fs : FileSystem) (filename : List Char) (is_directory t_created t_modified : Int) :
      Reachable fs → filename ≠ [] →
      Reachable (create_file filename is_directory t_created t_modified fs).2
  | write (fs : FileSystem) (file_index : Int) (content : List Char) (now : Int) :
      Reachable fs → Reachable (write_file file_index content now fs).2
  | delete (fs : FileSystem) (file_index : Int) :
      Reachable fs → Reachable (delete_file file_index fs).2
  | delete_dir (fs fs1 : FileSystem) (fuel : Nat) (dir_index : Int) (r : Outcome Int) :
      Reachable fs → in_table dir_index →
      delete_directory_recursive fuel dir_index fs = some (r, fs1) → Reachable fs1
  | cd (fs : FileSystem) (arg1 : List Char) :
      Reachable fs → Reachable (cd_command arg1 fs).2

/-- Block `b` lies in the range entry `f` owns (`start_block != -1`). -/
def in_old_range (fs : FileSystem) (f b : Int) : Prop :=
  (fs.files f).start_block ≠ -1 ∧ (fs.files f).start_block ≤ b ∧
    b < (fs.files f).start_block + (fs.files f).num_blocks

instance (fs : FileSystem) (f b : Int) : Decidable (in_old_range fs f b) := by
  unfold in_old_range; infer_instance

/-- Number of blocks of the range entry `f` owns. -/
def old_range_size (fs : FileSystem) (f : Int) : Nat :=
  if (fs.files f).start_block = -1 then 0 else (fs.files f).num_blocks.toNat

/-! ## Concrete states used as witnesses and counterexamples -/

/-- The state after `init_filesystem`. -/
def fresh_fs : FileSystem := init_filesystem 0 0

/-- Command `create f` in the fresh state: the file gets slot 1. -/
def one_file_fs : FileSystem := (create_file ['f'] 0 0 0 fresh_fs).2

/-- Command `write 1 x` after that: file 1 owns block 0. -/
def written_fs : FileSystem := (write_file 1 ['x'] 0 one_file_fs).2

/-- A content of `MAX_BLOCKS * BLOCK_SIZE` characters. -/
def big_content : List Char := List.replicate (MAX_BLOCKS * BLOCK_SIZE) 'a'

/-- The state the failed `write 1 big_content` leaves (`stale_fs_eq` below):
the block of file 1 is freed, its entry still names it. -/
def stale_fs : FileSystem := release_old_blocks written_fs 1

/-- Sum of `num_blocks` over the live file entries among slots `0 .. k-1`. -/
def sum_blocks_upto (fs : FileSystem) : Nat → Int
  | 0 => 0
  | k + 1 =>
    sum_blocks_upto fs k +
      (if live fs k ∧ (fs.files k).is_directory = 0 then (fs.files k).num_blocks else 0)

/-- Sum of `num_blocks` over all live file entries. -/
def sum_blocks (fs : FileSystem) : Int := sum_blocks_upto fs MAX_FILES

/-- Number of live entries among slots `0 .. k-1`. -/
def count_live_upto (fs : FileSystem) : Nat → Nat
  | 0 => 0
  | k + 1 => count_live_upto fs k + (if live fs k then 1 else 0)

/-- Number of live entries of the table. -/
def count_live (fs : FileSystem) : Nat := count_live_upto fs MAX_FILES

/-- A sequence of `create_file` calls, each given as (name, is_directory,
first clock reading, second clock reading); returns the state it leaves. -/
def run_creates : List (List Char × Int × Int × Int) → FileSystem → FileSystem
  | [], fs => fs
  | (filename, is_directory, t_created, t_modified) :: rest, fs =>
    run_creates rest (create_file filename is_directory t_created t_modified fs).2

/-- Number of calls of the sequence that succeed. -/
def count_created : List (List Char × Int × Int × Int) → FileSystem → Nat
  | [], _ => 0
  | (filename, is_directory, t_created, t_modified) :: rest, fs =>
    (match (create_file filename is_directory t_created t_modified fs).1 with
      | Outcome.ok _ => 1
      | Outcome.fail _ => 0) +
    count_created rest (create_file filename is_directory t_created t_modified fs).2

/-- A name of 32 characters, one more than an entry can hold. -/
def long_name : List Char := List.replicate 32 'a'

/-- Command `mkdir` of `long_name` twice in the fresh state. -/
def dup_fs : FileSystem :=
  (create_file long_name 1 0 0 (create_file long_name 1 0 0 fresh_fs).2).2

/-- A state with no empty slot: 100 entries named `x` under the root. -/
def full_fs : FileSystem :=
  { fresh_fs with
    files := fun _ => { zero_entry with filename := ['x'], is_directory := 1 }
    num_files := 100 }

/-- The state after 99 calls `create_file("", 0)` in the fresh state: an
empty name leaves its slot empty and still counts in `num_files`, which is
now `MAX_FILES`. -/
def miscounted_fs : FileSystem := run_creates (List.replicate 99 ([], 0, 0, 0)) fresh_fs

/-- Entry `j` is a live entry of directory `dir_index` named `filename`. -/
def name_match (fs : FileSystem) (filename : List Char) (dir_index j : Int) : Prop :=
  (fs.files j).filename ≠ [] ∧ (fs.files j).parent_dir = dir_index ∧
    (fs.files j).filename = filename

instance (fs : FileSystem) (filename : List Char) (dir_index j : Int) :
    Decidable (name_match fs filename dir_index j) := by
  unfold name_match; infer_instance

/-- The root entry is in place: slot 0 is a live directory and its own
parent. -/
def root_ok (fs : FileSystem) : Prop :=
  live fs 0 ∧ (fs.files 0).is_directory ≠ 0 ∧ (fs.files 0).parent_dir = 0

instance (fs : FileSystem) : Decidable (root_ok fs) := by
  unfold root_ok; infer_instance

/-- Command `mkdir docs` in the fresh state: the directory gets slot 1. -/
def docs_fs : FileSystem := (create_file ['d', 'o', 'c', 's'] 1 0 0 fresh_fs).2

/-- Command `cd docs` after that: the active directory is slot 1, whose parent is
the root. -/
def in_docs_fs : FileSystem := (cd_command ['d', 'o', 'c', 's'] docs_fs).2

/-- The parent link of slot `i`. -/
def parent_of (fs : FileSystem) (i : Int) : Int := (fs.files i).parent_dir

/-- Entry `i` belongs to the subtree of `d`: it is a live entry of the
table and following parent links from it reaches `d` (after zero steps for
`d` itself). -/
def in_subtree (fs : FileSystem) (d i : Int) : Prop :=
  in_table i ∧ live fs i ∧ ∃ k : Nat, (parent_of fs)^[k] i = d

/-- Following parent links from `i` reaches index 0 within `k` steps, and
every entry passed on the way is a live directory of the table. -/
def chain_to_root (fs : FileSystem) : Nat → Int → Bool
  | 0, i => decide (i = 0)
  | k + 1, i =>
    decide (i = 0) ||
      (decide (in_table i) && decide (live fs i) &&
        decide ((fs.files i).is_directory ≠ 0) && chain_to_root fs k (parent_of fs i))

/-- Tree-shaped parent links: slot 0 is the root, and the parent chain of
every other live entry runs through live directories to index 0 in at most
`MAX_FILES` steps, that is, without visiting an index twice. -/
def tree_shaped (fs : FileSystem) : Prop :=
  root_ok fs ∧
    ∀ i : Nat, i < MAX_FILES → live fs i → i ≠ 0 →
      chain_to_root fs MAX_FILES (parent_of fs i) = true

instance (fs : FileSystem) : Decidable (tree_shaped fs) := by
  unfold tree_shaped; infer_instance

/-- Number of parent links between `i` and index 0, counting at most `k`. -/
def depth_from_root (fs : FileSystem) : Nat → Int → Nat
  | 0, _ => 0
  | k + 1, i => if i = 0 then 0 else depth_from_root fs k (parent_of fs i) + 1

/-- Tree shape stated with a rank: the parent of a live non-root entry is a
live directory of the table with a smaller rank, and ranks are at most `B`. -/
def ranked_tree (rank : Int → Nat) (B : Nat) (fs : FileSystem) : Prop :=
  root_ok fs ∧ (∀ i, rank i ≤ B) ∧
    ∀ i, in_table i → live fs i → i ≠ 0 →
      in_table (parent_of fs i) ∧ live fs (parent_of fs i) ∧
        (fs.files (parent_of fs i)).is_directory ≠ 0 ∧ rank (parent_of fs i) < rank i

/-- What `delete_directory_recursive(d)` does to the entry table: every
entry is kept or zeroed, the entries that change are in the subtree of `d`,
and every entry of the subtree is zeroed. -/
def subtree_erased (fs : FileSystem) (d : Int) (fs1 : FileSystem) : Prop :=
  (∀ x, fs1.files x = fs.files x ∨ fs1.files x = zero_entry) ∧
    (∀ x, fs1.files x ≠ fs.files x → in_subtree fs d x) ∧
    (∀ x, in_subtree fs d x → fs1.files x = zero_entry)

/-- Every entry is kept or zeroed, every block marker is kept or set to 1,
and the block range of every zeroed file entry is marked free. -/
def erased_blocks_freed (fs fs1 : FileSystem) : Prop :=
  (∀ x, fs1.files x = fs.files x ∨ fs1.files x = zero_entry) ∧
    (∀ b, fs1.free_blocks b = fs.free_blocks b ∨ fs1.free_blocks b = 1) ∧
    (∀ x, fs1.files x ≠ fs.files x → (fs.files x).is_directory = 0 →
      ∀ j, 0 ≤ j → j < (fs.files x).num_blocks →
        fs1.free_blocks ((fs.files x).start_block + j) = 1)

/-- Commands `mkdir docs`, `cd docs`, `create a.txt`, `write 2 hello`, `cd ..`: the
root holds the directory 1, which holds the file 2 with one block. -/
def docs_tree_fs : FileSystem :=
  (cd_command ['.', '.']
    (write_file 2 ['h', 'e', 'l', 'l', 'o'] 0
      (create_file ['a', '.', 't', 'x', 't'] 0 0 0 in_docs_fs).2).2).2

/-- A content of exactly `BLOCK_SIZE` characters. -/
def block_content : List Char := List.replicate BLOCK_SIZE 'a'

/-- The spec scenario, step by step; `t k` is the `k`-th clock reading.
First `init()` and `create("docs", dir)`. -/
def scenario_docs (t : Nat → Int) : FileSystem :=
  (create_file ['d', 'o', 'c', 's'] 1 (t 2) (t 3) (init_filesystem (t 0) (t 1))).2

/-- Then `change_directory("docs")`. -/
def scenario_cd (t : Nat → Int) : FileSystem :=
  (cd_command ['d', 'o', 'c', 's'] (scenario_docs t)).2

/-- Then `create("a.txt", file)`. -/
def scenario_file (t : Nat → Int) : FileSystem :=
  (create_file ['a', '.', 't', 'x', 't'] 0 (t 4) (t 5) (scenario_cd t)).2

/-- Then `write(2, "hello")`. -/
def scenario_written (t : Nat → Int) : FileSystem :=
  (write_file 2 ['h', 'e', 'l', 'l', 'o'] (t 6) (scenario_file t)).2

/-- Then `change_directory("..")`. -/
def scenario_up (t : Nat → Int) : FileSystem :=
  (cd_command ['.', '.'] (scenario_written t)).2

/-- The state `delete_recursive(1)` leaves at the end of the scenario
(`spec_scenario` below). -/
def scenario_end (t : Nat → Int) : FileSystem :=
  erase_entry (erase_entry (free_file_blocks (scenario_up t) 2) 2) 1

/-- After the failed write of `stale_fs`: `create g` (slot 2) and `write 2
y`. -/
def overlap_fs : FileSystem :=
  (write_file 2 ['y'] 0 (create_file ['g'] 0 0 0 stale_fs).2).2

/-- The size of an entry fits its block count: `num_blocks` blocks hold
`size` bytes and `num_blocks - 1` blocks hold no more than `size`. This is
the condition under which the copies of `read_file` stay inside the blocks
of the file. -/
def entry_sized (e : FileMetadata) : Prop :=
  (e.num_blocks - 1) * (BLOCK_SIZE : Int) ≤ e.size ∧ (e.size : Int) ≤ e.num_blocks * BLOCK_SIZE

instance (e : FileMetadata) : Decidable (entry_sized e) := by
  unfold entry_sized; infer_instance

/-- What holds of the entry in slot `i` of every reachable state: its size
fits its block count, and a directory has size 0 and no blocks, with
`start_block` 0 in slot 0 (the root, as `init_filesystem` leaves it) and
`-1` in every other slot (as `create_file` sets it). -/
def entry_ok (i : Int) (e : FileMetadata) : Prop :=
  entry_sized e ∧
    (e.is_directory ≠ 0 →
      e.size = 0 ∧ e.num_blocks = 0 ∧ e.start_block = (if i = 0 then 0 else -1))

/-- The `BLOCK_SIZE` bytes of block `b`. -/
def block_bytes (fs : FileSystem) (b : Int) : List Char :=
  (List.range BLOCK_SIZE).map (fs.blocks b)

/-- The bytes of the `k` blocks `start + i, start + i + 1, ...` concatenated
in index order. -/
def blocks_bytes (fs : FileSystem) (start : Int) : Nat → Nat → List Char
  | 0, _ => []
  | k + 1, i => block_bytes fs (start + i) ++ blocks_bytes fs start k (i + 1)

/-- The blocks of a file concatenated in index order. -/
def file_bytes (fs : FileSystem) (e : FileMetadata) : List Char :=
  blocks_bytes fs e.start_block e.num_blocks.toNat 0

/-- The list `up` is the walk of `get_full_path` from `cur`: `cur`, its
parent, the parent of that, ..., each different from 0, and the parent of
the last one is 0. -/
def is_up_chain (fs : FileSystem) : Int → List Int → Prop
  | cur, [] => cur = 0
  | cur, c :: rest => c = cur ∧ cur ≠ 0 ∧ is_up_chain fs (parent_of fs cur) rest

instance (fs : FileSystem) : (cur : Int) → (up : List Int) → Decidable (is_up_chain fs cur up)
  | cur, [] => by unfold is_up_chain; infer_instance
  | cur, c :: rest => by
      unfold is_up_chain
      have := instDecidableIs_up_chain fs (parent_of fs cur) rest
      infer_instance

/-- The list `chain` is the parent chain of `e` below the root, in
root-to-leaf order: `e1, ..., ek` with `e1` a child of index 0, each next
entry a child of the one before, and `ek = e`. -/
def is_parent_chain (fs : FileSystem) (chain : List Int) (e : Int) : Prop :=
  is_up_chain fs e chain.reverse

instance (fs : FileSystem) (chain : List Int) (e : Int) :
    Decidable (is_parent_chain fs chain e) := by
  unfold is_parent_chain; infer_instance

/-- The path string of a chain: `"/" + name(e1) + "/" + name(e2) + ...`. -/
def path_string (fs : FileSystem) : List Int → List Char
  | [] => []
  | e :: rest => '/' :: ((fs.files e).filename ++ path_string fs rest)

/-- A name of 31 characters, the longest an entry holds. -/
def name31 : List Char := List.replicate 31 'a'

/-- Commands `mkdir` and `cd` of `name31`. -/
def mkdir_cd (fs : FileSystem) : FileSystem :=
  (cd_command name31 (create_file name31 1 0 0 fs).2).2

/-- Eight nested directories named `name31`, slots 1 to 8, made from the
fresh state by `mkdir` and `cd` eight times. -/
def deep_fs : FileSystem := mkdir_cd^[8] fresh_fs

/-- The states the program reaches when `delete_directory_recursive` is
never called on the active directory or on a directory above it: the
operations of `Reachable`, with a recursive delete of `dir_index` only when
`current_dir` is outside the subtree of `dir_index`. -/
inductive SafeReachable : FileSystem → Prop
  | init (t_created t_modified : Int) : SafeReachable (init_filesystem t_created t_modified)
  | create (fs : FileSystem) (filename : List Char) (is_directory t_created t_modified : Int) :
      SafeReachable fs → filename ≠ [] →
      SafeReachable (create_file filename is_directory t_created t_modified fs).2
  | write (fs : FileSystem) (file_index : Int) (content : List Char) (now : Int) :
      SafeReachable fs → SafeReachable (write_file file_index content now fs).2
  | delete (fs : FileSystem) (file_index : Int) :
      SafeReachable fs → SafeReachable (delete_file file_index fs).2
  | delete_dir (fs fs1 : FileSystem) (fuel : Nat) (dir_index : Int) (r : Outcome Int) :
      SafeReachable fs → in_table dir_index → ¬ in_subtree fs dir_index fs.current_dir →
      delete_directory_recursive fuel dir_index fs = some (r, fs1) → SafeReachable fs1
  | cd (fs : FileSystem) (arg1 : List Char) :
      SafeReachable fs → SafeReachable (cd_command arg1 fs).2

/-- Following parent links from `i` reaches index 0 after `k` steps, and no
index is visited twice on the way. -/
def simple_walk_to_root (fs : FileSystem) (i : Int) (k : Nat) : Prop :=
  (parent_of fs)^[k] i = 0 ∧
    ∀ a b : Nat, a < b → b ≤ k → (parent_of fs)^[a] i ≠ (parent_of fs)^[b] i

/-- What the operations keep when the active directory is never deleted:
the parent links are ranked, `current_dir` is a live directory of the
table, and an empty slot is not marked as a directory. -/
def tree_inv (fs : FileSystem) : Prop :=
  (∃ (rank : Int → Nat) (B : Nat), ranked_tree rank B fs) ∧
    in_table fs.current_dir ∧ live fs fs.current_dir ∧
    (fs.files fs.current_dir).is_directory ≠ 0 ∧
    ∀ i, ¬ live fs i → (fs.files i).is_directory = 0

/-- Commands `mkdir docs`, `cd docs`, `delete 1`, `create a`: the active
directory is still slot 1, the first empty slot is slot 1 too, and the new
file gets slot 1 with `parent_dir == 1`. -/
def orphan_fs : FileSystem := (create_file ['a'] 0 0 0 (erase_entry in_docs_fs 1)).2

/-! ## The by-name variant (src/Paola/main_with_filename.c, lines 167-283)

The two source files share `init_filesystem`, `get_full_path`,
`find_file_in_dir`, `is_directory_empty`, `delete_directory_recursive` and
`create_file`; `write_file`, `read_file` and `delete_file` of the second
file take a name and look it up in the active directory. -/

/-- Function `write_file(filename, content)` of the by-name variant (lines 167-221). -/
def Paola.write_file (filename content : List Char) (now : Int) (fs : FileSystem) :
    Outcome Int × FileSystem :=
  let file_index := find_file_in_dir fs filename fs.current_dir
  if file_index = -1 then (Outcome.fail Err.NotFound, fs)
  else if (fs.files file_index).is_directory ≠ 0 then (Outcome.fail Err.NotAFile, fs)
  else
    let content_length : Nat := content.length + 1
    let fs1 := release_old_blocks fs file_index
    let found := find_contiguous fs1.free_blocks (blocks_needed content) MAX_BLOCKS 0 (-1) 0
    if found.2 < blocks_needed content then (Outcome.fail Err.OutOfSpace, fs1)
    else
      let fs2 := write_blocks content content_length found.1 (blocks_needed content)
        (blocks_needed content).toNat 0 fs1
      (Outcome.ok 0,
        { fs2 with
          files := set_at fs2.files file_index
            { (fs2.files file_index) with
              start_block := found.1
              num_blocks := blocks_needed content
              size := content_length
              modified := now } })

/-- Function `read_file(filename)` of the by-name variant (lines 224-258). -/
def Paola.read_file (filename : List Char) (fs : FileSystem) : Outcome (List Char) :=
  let file_index := find_file_in_dir fs filename fs.current_dir
  if file_index = -1 then Outcome.fail Err.NotFound
  else if (fs.files file_index).is_directory ≠ 0 then Outcome.fail Err.NotAFile
  else if (fs.files file_index).start_block = -1 then Outcome.fail Err.EmptyFile
  else
    Outcome.ok (read_blocks fs (fs.files file_index) (fs.files file_index).num_blocks.toNat 0 [])

/-- Function `delete_file(filename)` of the by-name variant (lines 261-283). -/
def Paola.delete_file (filename : List Char) (fs : FileSystem) : Outcome Int × FileSystem :=
  let file_index := find_file_in_dir fs filename fs.current_dir
  if file_index = -1 then (Outcome.fail Err.NotFound, fs)
  else if (fs.files file_index).is_directory ≠ 0 then (Outcome.fail Err.IsADirectory, fs)
  else (Outcome.ok 0, erase_entry (free_file_blocks fs file_index) file_index)

/-! ## Vocabulary for termination and for block indices -/

/-- The parent links form a tree: slot 0 is the root, and the parent chain
of every live entry of the table other than the root reaches index 0
without visiting an index twice. -/
def links_form_tree (fs : FileSystem) : Prop :=
  root_ok fs ∧ ∀ i, in_table i → live fs i → i ≠ 0 → ∃ k, simple_walk_to_root fs i k

/-- The parent links go down a rank: the parent of a live entry of the
table other than the root has a smaller rank, and ranks are at most `B`. -/
def ranked_links (rank : Int → Nat) (B : Nat) (fs : FileSystem) : Prop :=
  root_ok fs ∧ (∀ i, rank i ≤ B) ∧
    ∀ i, in_table i → live fs i → i ≠ 0 → rank (parent_of fs i) < rank i

/-- The block range of an entry is inside the store: either the entry has
no range (`start_block == -1`, with `num_blocks == 0`), or `0 <= start_block`
and `start_block + num_blocks <= MAX_BLOCKS`. -/
def entry_in_bounds (e : FileMetadata) : Prop :=
  (e.start_block = -1 ∧ e.num_blocks = 0) ∨
    (0 ≤ e.start_block ∧ 0 ≤ e.num_blocks ∧ e.start_block + e.num_blocks ≤ (MAX_BLOCKS : Int))

instance (e : FileMetadata) : Decidable (entry_in_bounds e) := by
  unfold entry_in_bounds; infer_instance

/-- Index `b` is inside the block store. -/
def in_store (b : Int) : Prop := 0 ≤ b ∧ b < (MAX_BLOCKS : Int)

instance (b : Int) : Decidable (in_store b) := by
  unfold in_store; infer_instance

/-- The block indices `start_block + j`, `0 <= j < num_blocks`, that a loop
over the range of entry `e` computes (lines 110-112, 184-186, 246-254,
272-274). -/
def range_indices (e : FileMetadata) : List Int :=
  (List.range e.num_blocks.toNat).map (fun (j : Nat) => e.start_block + (j : Int))

/-- The block indices `write_file` computes: those of the loop that frees
the old range (lines 183-187), the values of the scan variable `i` (lines
190-200; all of `0 .. MAX_BLOCKS-1` are listed, the scan may stop before),
and `start_block + i` for the blocks written (lines 208-213). -/
def write_file_indices (file_index : Int) (content : List Char) (fs : FileSystem) : List Int :=
  if file_index < 0 ∨ file_index ≥ (MAX_FILES : Int) ∨ (fs.files file_index).filename = [] then []
  else if (fs.files file_index).is_directory ≠ 0 then []
  else
    let fs1 := release_old_blocks fs file_index
    let found := find_contiguous fs1.free_blocks (blocks_needed content) MAX_BLOCKS 0 (-1) 0
    (if (fs.files file_index).start_block ≠ -1 then range_indices (fs.files file_index) else []) ++
      (List.range MAX_BLOCKS).map (fun (i : Nat) => (i : Int)) ++
      (if found.2 < blocks_needed content then []
       else (List.range (blocks_needed content).toNat).map (fun (i : Nat) => found.1 + (i : Int)))

/-- The block indices `read_file` computes (lines 246-254). -/
def read_file_indices (file_index : Int) (fs : FileSystem) : List Int :=
  if file_index < 0 ∨ file_index ≥ (MAX_FILES : Int) ∨ (fs.files file_index).filename = [] then []
  else if (fs.files file_index).is_directory ≠ 0 then []
  else if (fs.files file_index).start_block = -1 then []
  else range_indices (fs.files file_index)

/-- The block indices `delete_file` computes (lines 271-274). -/
def delete_file_indices (file_index : Int) (fs : FileSystem) : List Int :=
  if file_index < 0 ∨ file_index ≥ (MAX_FILES : Int) ∨ (fs.files file_index).filename = [] then []
  else if (fs.files file_index).is_directory ≠ 0 then []
  else range_indices (fs.files file_index)

/-- The loop of `delete_directory_recursive` as in `delete_children`, with
the block indices computed on the way (lines 110-112) in front of the
state. -/
def delete_children_indices (recurse : Int → FileSystem → Option (List Int × FileSystem))
    (dir_index : Int) : Nat → Int → FileSystem → Option (List Int × FileSystem)
  | 0, _, fs => some ([], fs)
  | k + 1, i, fs =>
    if (fs.files i).filename ≠ [] ∧ (fs.files i).parent_dir = dir_index then
      if (fs.files i).is_directory ≠ 0 then
        match recurse i fs with
        | none => none
        | some (l1, fs1) =>
          match delete_children_indices recurse dir_index k (i + 1) fs1 with
          | none => none
          | some (l2, fs2) => some (l1 ++ l2, fs2)
      else
        match delete_children_indices recurse dir_index k (i + 1)
            (erase_entry (free_file_blocks fs i) i) with
        | none => none
        | some (l2, fs2) => some (range_indices (fs.files i) ++ l2, fs2)
    else delete_children_indices recurse dir_index k (i + 1) fs

/-- Function `delete_directory_recursive` with the block indices it computes: the
state is that of `delete_directory_recursive` (`delete_directory_recursive_indices_state`
below). -/
def delete_directory_recursive_indices :
    Nat → Int → FileSystem → Option (List Int × FileSystem)
  | 0, _, _ => none
  | fuel + 1, dir_index, fs =>
    if (fs.files dir_index).is_directory = 0 then some ([], fs)
    else
      match delete_children_indices (delete_directory_recursive_indices fuel) dir_index
          MAX_FILES 0 fs with
      | none => none
      | some (l, fs1) => some (l, erase_entry fs1 dir_index)

/-- After the failed write of `stale_fs`, `create g`: file 1 still reads `x`
from block 0, which is marked free; file 2 has no content yet. -/
def shared_fs : FileSystem := (create_file ['g'] 0 0 0 stale_fs).2

/-! # Theorems -/

/-! ## Basic facts about the array model -/

theorem set_at_same {α : Type} (a : Int → α) (i : Int) (v : α) : set_at a i v i = v := by
  simp [set_at]

theorem set_at_other {α : Type} (a : Int → α) (i j : Int) (v : α) (h : j ≠ i) :
    set_at a i v j = a j := by
  simp [set_at, h]

/-- Closed form of the freeing loop. -/
theorem free_range_apply (s : Int) :
    ∀ (k : Nat) (j : Int) (fb : Int → Int) (b : Int),
      free_range s k j fb b = if s + j ≤ b ∧ b < s + j + k then 1 else fb b := by
  intro k
  induction k with
  | zero =>
    intro j fb b
    have : ¬ (s + j ≤ b ∧ b < s + j) := by omega
    simp [free_range, this]
  | succ k ih =>
    intro j fb b
    rw [free_range, ih]
    by_cases hb : b = s + j
    · subst hb
      have h1 : ¬ (s + (j + 1) ≤ s + j ∧ s + j < s + (j + 1) + (k : Int)) := by omega
      have h2 : (s + j ≤ s + j ∧ s + j < s + j + ((k + 1 : Nat) : Int)) := by
        push_cast; omega
      simp [h1, h2, set_at]
    · have h3 : (s + (j + 1) ≤ b ∧ b < s + (j + 1) + (k : Int)) ↔
          (s + j ≤ b ∧ b < s + j + ((k + 1 : Nat) : Int)) := by
        push_cast; omega
      simp only [h3, set_at, hb, if_false]

/-! ## The allocation scan of write_file -/

/-- Loop invariant of the scan: before iteration `i` the last
`cons` blocks `i-cons .. i-1` are free, `start` is the first of them, and no
run of `n` free blocks starts below `i - cons`. -/
theorem find_contiguous_loop (fb : Int → Int) (n : Int) :
    ∀ (k : Nat) (i start cons : Int), 0 ≤ cons → cons < n → cons ≤ i →
      (0 < cons → start = i - cons) →
      (∀ j, i - cons ≤ j → j < i → fb j ≠ 0) →
      (∀ s, 0 ≤ s → s < i - cons → ¬ free_run fb s n) →
      ((find_contiguous fb n k i start cons).2 = n ∧
        0 ≤ (find_contiguous fb n k i start cons).1 ∧
        (find_contiguous fb n k i start cons).1 + n ≤ i + k ∧
        free_run fb (find_contiguous fb n k i start cons).1 n ∧
        ∀ s, 0 ≤ s → s < (find_contiguous fb n k i start cons).1 → ¬ free_run fb s n) ∨
      ((find_contiguous fb n k i start cons).2 < n ∧
        ∀ s, 0 ≤ s → s + n ≤ i + k → ¬ free_run fb s n) := by
  intro k
  induction k with
  | zero =>
    intro i start cons h0 hlt hle _ _ hno
    right
    refine ⟨by simpa [find_contiguous] using hlt, ?_⟩
    intro s hs hsn
    exact hno s hs (by simp at hsn; omega)
  | succ k ih =>
    intro i start cons h0 hlt hle hst hfree hno
    have e : (i + 1 + (k : Int)) = i + ((k + 1 : Nat) : Int) := by push_cast; omega
    by_cases hi : fb i ≠ 0
    · have hs1 : (if cons = 0 then i else start) = i - cons := by
        split_ifs with hz
        · omega
        · exact hst (by omega)
      have hrun : ∀ j, i - cons ≤ j → j < i + 1 → fb j ≠ 0 := by
        intro j hj1 hj2
        by_cases hji : j = i
        · subst hji; exact hi
        · exact hfree j hj1 (by omega)
      by_cases hc : cons + 1 = n
      · left
        simp only [find_contiguous, hi, hc, if_true, ne_eq, not_false_eq_true, hs1]
        refine ⟨trivial, by omega, by push_cast; omega, ?_, ?_⟩
        · intro j hj1 hj2
          exact hrun j hj1 (by omega)
        · intro s hs hlt2
          exact hno s hs hlt2
      · have := ih (i + 1) (i - cons) (cons + 1) (by omega) (by omega) (by omega)
          (by intro _; omega)
          (by intro j hj1 hj2; exact hrun j (by omega) hj2)
          (by intro s hs hlt2; exact hno s hs (by omega))
        simp only [find_contiguous, hi, hc, if_true, if_false, ne_eq, not_false_eq_true, hs1]
        rw [e] at this
        exact this
    · have hi0 : fb i = 0 := by simpa using hi
      have := ih (i + 1) start 0 (by omega) (by omega) (by omega)
          (by intro h; omega)
          (by intro j hj1 hj2; omega)
          (by
            intro s hs hlt2 hrun
            by_cases hsm : s < i - cons
            · exact hno s hs hsm hrun
            · exact hrun i (by omega) (by omega) hi0)
      simp only [find_contiguous, hi0, ne_eq, not_true_eq_false, if_false]
      rw [e] at this
      exact this

/-- The scan as `write_file` starts it: it ends with `consecutive_blocks =
n` at the lowest run of `n` free blocks, or with `consecutive_blocks < n`
when the store has no such run. -/
theorem find_contiguous_spec (fb : Int → Int) (n : Int) (hn : 1 ≤ n) :
    ((find_contiguous fb n MAX_BLOCKS 0 (-1) 0).2 = n ∧
      0 ≤ (find_contiguous fb n MAX_BLOCKS 0 (-1) 0).1 ∧
      (find_contiguous fb n MAX_BLOCKS 0 (-1) 0).1 + n ≤ (MAX_BLOCKS : Int) ∧
      free_run fb (find_contiguous fb n MAX_BLOCKS 0 (-1) 0).1 n ∧
      ∀ s, 0 ≤ s → s < (find_contiguous fb n MAX_BLOCKS 0 (-1) 0).1 → ¬ free_run fb s n) ∨
    ((find_contiguous fb n MAX_BLOCKS 0 (-1) 0).2 < n ∧
      ∀ s, 0 ≤ s → s + n ≤ (MAX_BLOCKS : Int) → ¬ free_run fb s n) := by
  have := find_contiguous_loop fb n MAX_BLOCKS 0 (-1) 0 (le_refl 0) (by omega) (le_refl 0)
    (by intro h; omega) (by intro j h1 h2; omega) (by intro s h1 h2; omega)
  simpa using this

set_option maxRecDepth 20000 in
/-- The fragmented map has 500 free blocks. -/
theorem count_free_fragmented_map : count_free fragmented_map = 500 := by decide

/-! ## write_file: the failure path -/

theorem release_old_blocks_files (fs : FileSystem) (f : Int) :
    (release_old_blocks fs f).files = fs.files := by
  unfold release_old_blocks free_file_blocks; split_ifs <;> rfl

theorem release_old_blocks_blocks (fs : FileSystem) (f : Int) :
    (release_old_blocks fs f).blocks = fs.blocks := by
  unfold release_old_blocks free_file_blocks; split_ifs <;> rfl

theorem release_old_blocks_free (fs : FileSystem) (f b : Int) :
    (release_old_blocks fs f).free_blocks b = if in_old_range fs f b then 1 else fs.free_blocks b := by
  unfold release_old_blocks free_file_blocks in_old_range
  by_cases h : (fs.files f).start_block = -1
  · simp [h]
  · simp only [ne_eq, h, not_false_eq_true, if_true, free_range_apply, true_and]
    have : ((fs.files f).start_block + 0 ≤ b ∧
        b < (fs.files f).start_block + 0 + ((fs.files f).num_blocks.toNat : Int)) ↔
        ((fs.files f).start_block ≤ b ∧ b < (fs.files f).start_block + (fs.files f).num_blocks) := by
      omega
    simp only [this]

/-- What a write that fails with `OutOfSpace` has done. -/
theorem write_file_out_of_space (fs : FileSystem) (f : Int) (c : List Char) (now : Int)
    (h : (write_file f c now fs).1 = Outcome.fail Err.OutOfSpace) :
    in_table f ∧ live fs f ∧ (fs.files f).is_directory = 0 ∧
      (write_file f c now fs).2 = release_old_blocks fs f := by
  simp only [write_file] at h ⊢
  unfold in_table live
  split_ifs at h ⊢ with h1 h2 h3
  · simp at h
  · simp at h
  · refine ⟨by omega, by tauto, by simpa using h2, rfl⟩

/-- Freeing a range of used blocks inside the first `k` adds them to the count. -/
theorem count_free_upto_range (fb : Int → Int) (s n : Int) (hs : 0 ≤ s)
    (hused : ∀ b, s ≤ b → b < s + n → fb b = 0) :
    ∀ k : Nat, ((count_free_upto (fun b => if s ≤ b ∧ b < s + n then 1 else fb b) k : Nat) : Int) =
      count_free_upto fb k + max 0 (min (k : Int) (s + n) - s) := by
  intro k
  induction k with
  | zero => simp [count_free_upto]; omega
  | succ k ih =>
    simp only [count_free_upto]
    push_cast
    rw [ih]
    by_cases hk : s ≤ (k : Int) ∧ (k : Int) < s + n
    · have := hused k hk.1 hk.2
      simp only [hk, this]
      simp
      omega
    · simp only [hk]
      by_cases hf : fb k = 0 <;> simp [hf] <;> omega

/-- A content that needs more blocks than the store has cannot be written. -/
theorem write_file_too_large (fs : FileSystem) (f : Int) (c : List Char) (now : Int)
    (hf : in_table f) (hl : live fs f) (hd : (fs.files f).is_directory = 0)
    (hc : MAX_BLOCKS * BLOCK_SIZE ≤ c.length) :
    write_file f c now fs = (Outcome.fail Err.OutOfSpace, release_old_blocks fs f) := by
  have hn : (MAX_BLOCKS : Int) < blocks_needed c := by
    unfold blocks_needed
    have : MAX_BLOCKS < (c.length + 1 + BLOCK_SIZE - 1) / BLOCK_SIZE := by
      unfold MAX_BLOCKS BLOCK_SIZE at *
      omega
    exact_mod_cast this
  have hlt : (find_contiguous (release_old_blocks fs f).free_blocks (blocks_needed c)
      MAX_BLOCKS 0 (-1) 0).2 < blocks_needed c := by
    rcases find_contiguous_spec (release_old_blocks fs f).free_blocks (blocks_needed c)
      (by unfold MAX_BLOCKS at hn; omega) with ⟨_, h0, hle, _⟩ | ⟨hlt, _⟩
    · omega
    · exact hlt
  unfold in_table live at *
  simp only [write_file]
  have h1 : ¬ (f < 0 ∨ f ≥ (MAX_FILES : Int) ∨ (fs.files f).filename = []) := by
    rintro (h | h | h)
    · omega
    · omega
    · exact hl h
  simp [h1, hd, hlt]

/-- Freeing the range of entry `f`, when it lies inside the store and its
blocks are marked used, raises the free count by the size of the range. -/
theorem count_free_release_old_blocks (fs : FileSystem) (f : Int)
    (hused : ∀ b, in_old_range fs f b → 0 ≤ b ∧ b < (MAX_BLOCKS : Int) ∧ fs.free_blocks b = 0) :
    count_free (release_old_blocks fs f).free_blocks =
      count_free fs.free_blocks + old_range_size fs f := by
  unfold old_range_size count_free
  by_cases hs : (fs.files f).start_block = -1
  · have : (release_old_blocks fs f).free_blocks = fs.free_blocks := by
      funext b
      rw [release_old_blocks_free, if_neg]
      unfold in_old_range
      tauto
    simp [this, hs]
  · have hfun : (release_old_blocks fs f).free_blocks =
        fun b => if (fs.files f).start_block ≤ b ∧
          b < (fs.files f).start_block + (fs.files f).num_blocks then 1 else fs.free_blocks b := by
      funext b
      rw [release_old_blocks_free]
      unfold in_old_range
      simp [hs]
    rw [hfun, if_neg hs]
    by_cases hn : (fs.files f).num_blocks ≤ 0
    · have hres : (fun b => if (fs.files f).start_block ≤ b ∧
          b < (fs.files f).start_block + (fs.files f).num_blocks then 1 else fs.free_blocks b)
          = fs.free_blocks := by
        funext b
        rw [if_neg]
        omega
      rw [hres]
      omega
    · have hs0 := hused (fs.files f).start_block ⟨hs, le_refl _, by omega⟩
      have hend := hused ((fs.files f).start_block + (fs.files f).num_blocks - 1)
        ⟨hs, by omega, by omega⟩
      have := count_free_upto_range fs.free_blocks (fs.files f).start_block
        (fs.files f).num_blocks hs0.1
        (fun b h1 h2 => (hused b ⟨hs, h1, h2⟩).2.2) MAX_BLOCKS
      omega

/-- What the code does when `write_file(f, c)` fails with `OutOfSpace`: the
blocks of the range of `f` are marked free and nothing else is assigned.
The marker of every block outside that range and the block contents are as
before; the entry of `f` is as before too, so it keeps the range it no
longer owns (the defect of the failing write). When the range lay inside
the store and all its blocks were marked used before the call, the free
count after the failure is the free count before plus the size of the
range. -/
theorem failed_write_markers (fs : FileSystem) (f : Int) (c : List Char) (now : Int)
    (h : (write_file f c now fs).1 = Outcome.fail Err.OutOfSpace) :
    (write_file f c now fs).2.files = fs.files ∧
    (write_file f c now fs).2.blocks = fs.blocks ∧
    (∀ b, ¬ in_old_range fs f b →
      (write_file f c now fs).2.free_blocks b = fs.free_blocks b) ∧
    (∀ b, in_old_range fs f b → (write_file f c now fs).2.free_blocks b = 1) ∧
    ((∀ b, in_old_range fs f b → 0 ≤ b ∧ b < (MAX_BLOCKS : Int) ∧ fs.free_blocks b = 0) →
      count_free (write_file f c now fs).2.free_blocks =
        count_free fs.free_blocks + old_range_size fs f) := by
  obtain ⟨_, _, _, hst⟩ := write_file_out_of_space fs f c now h
  rw [hst]
  refine ⟨release_old_blocks_files fs f, release_old_blocks_blocks fs f, ?_, ?_,
    count_free_release_old_blocks fs f⟩
  · intro b hb
    rw [release_old_blocks_free, if_neg hb]
  · intro b hb
    rw [release_old_blocks_free, if_pos hb]

/-! ## Facts about the concrete states -/

theorem big_content_length : big_content.length = MAX_BLOCKS * BLOCK_SIZE := by
  simp [big_content]

theorem reachable_one_file_fs : Reachable one_file_fs :=
  Reachable.create _ _ _ _ _ (Reachable.init 0 0) (by decide)

theorem reachable_written_fs : Reachable written_fs :=
  Reachable.write _ _ _ _ reachable_one_file_fs


theorem written_fs_entry :
    in_table 1 ∧ live written_fs 1 ∧ (written_fs.files 1).is_directory = 0 ∧
      (written_fs.files 1).start_block = 0 ∧ (written_fs.files 1).num_blocks = 1 :=
  ⟨by decide, by decide, by decide, by decide, by decide⟩

theorem written_fs_free_blocks : written_fs.free_blocks = set_at fresh_fs.free_blocks 0 0 := by
  rfl

theorem stale_fs_eq :
    write_file 1 big_content 0 written_fs = (Outcome.fail Err.OutOfSpace, stale_fs) :=
  write_file_too_large written_fs 1 big_content 0 written_fs_entry.1 written_fs_entry.2.1
    written_fs_entry.2.2.1 (le_of_eq big_content_length.symm)

theorem reachable_stale_fs : Reachable stale_fs := by
  have h := Reachable.write written_fs 1 big_content 0 reachable_written_fs
  rw [stale_fs_eq] at h
  exact h

theorem stale_fs_entry :
    live stale_fs 1 ∧ (stale_fs.files 1).is_directory = 0 ∧
      (stale_fs.files 1).start_block = 0 ∧ (stale_fs.files 1).num_blocks = 1 := by
  unfold live stale_fs
  rw [release_old_blocks_files]
  exact written_fs_entry.2

theorem stale_fs_free_blocks : stale_fs.free_blocks = fresh_fs.free_blocks := by
  funext b
  unfold stale_fs
  rw [release_old_blocks_free, written_fs_free_blocks]
  have hr : in_old_range written_fs 1 b ↔ b = 0 := by
    unfold in_old_range
    rw [written_fs_entry.2.2.2.1, written_fs_entry.2.2.2.2]
    omega
  by_cases hb : b = 0
  · rw [if_pos (hr.2 hb)]
    subst hb
    simp [fresh_fs, init_filesystem, MAX_BLOCKS]
  · rw [if_neg (fun h => hb (hr.1 h)), set_at_other _ _ _ _ hb]

theorem count_free_upto_fresh (k : Nat) (hk : k ≤ MAX_BLOCKS) :
    count_free_upto fresh_fs.free_blocks k = k := by
  induction k with
  | zero => rfl
  | succ k ih =>
    have : (0 : Int) ≤ k ∧ (k : Int) < (MAX_BLOCKS : Int) := by
      constructor
      · omega
      · exact_mod_cast hk
    have hk1 : fresh_fs.free_blocks (k : Int) = 1 := by
      simp [fresh_fs, init_filesystem, this]
    simp [count_free_upto, ih (by omega), hk1]

theorem count_free_fresh : count_free fresh_fs.free_blocks = MAX_BLOCKS :=
  count_free_upto_fresh MAX_BLOCKS (le_refl _)

theorem written_fs_range_used (b : Int) (hb : in_old_range written_fs 1 b) :
    0 ≤ b ∧ b < (MAX_BLOCKS : Int) ∧ written_fs.free_blocks b = 0 := by
  unfold in_old_range at hb
  rw [written_fs_entry.2.2.2.1, written_fs_entry.2.2.2.2] at hb
  have hb0 : b = 0 := by omega
  subst hb0
  exact ⟨le_refl 0, by decide, by decide⟩

theorem count_free_written_fs : count_free written_fs.free_blocks + 1 = MAX_BLOCKS := by
  have h := count_free_release_old_blocks written_fs 1 written_fs_range_used
  have h3 : old_range_size written_fs 1 = 1 := by decide
  have h4 : count_free stale_fs.free_blocks = MAX_BLOCKS := by
    rw [stale_fs_free_blocks, count_free_fresh]
  unfold stale_fs at h4
  omega

/-- C8 on the code (failed write effect, failing input): `create f`, `write
1 x`, then the write of `big_content` to file 1, which fails with
`OutOfSpace`, frees block 0 and leaves the entry of file 1 with its range `0
.. 0` (the state `stale_fs`). A second write of `big_content` to file 1
fails with `OutOfSpace` again: the previous range of file 1 has one block,
and the free count after the failure is the free count before, not one
more. -/
theorem failed_write_free_count_after_stale_range :
    write_file 1 big_content 0 written_fs = (Outcome.fail Err.OutOfSpace, stale_fs) ∧
    Reachable stale_fs ∧ in_table 1 ∧ live stale_fs 1 ∧ (stale_fs.files 1).is_directory = 0 ∧
    (write_file 1 big_content 0 stale_fs).1 = Outcome.fail Err.OutOfSpace ∧
    old_range_size stale_fs 1 = 1 ∧
    count_free (write_file 1 big_content 0 stale_fs).2.free_blocks =
      count_free stale_fs.free_blocks ∧
    count_free (write_file 1 big_content 0 stale_fs).2.free_blocks ≠
      count_free stale_fs.free_blocks + old_range_size stale_fs 1 := by
  have hw := write_file_too_large stale_fs 1 big_content 0 written_fs_entry.1 stale_fs_entry.1
    stale_fs_entry.2.1 (le_of_eq big_content_length.symm)
  have hsize : old_range_size stale_fs 1 = 1 := by
    unfold old_range_size
    rw [stale_fs_entry.2.2.1, stale_fs_entry.2.2.2]
    rfl
  have hmap : (release_old_blocks stale_fs 1).free_blocks = stale_fs.free_blocks := by
    funext b
    rw [release_old_blocks_free]
    split_ifs with hb
    · unfold in_old_range at hb
      rw [stale_fs_entry.2.2.1, stale_fs_entry.2.2.2] at hb
      have hb0 : b = 0 := by omega
      subst hb0
      rw [stale_fs_free_blocks]
      simp [fresh_fs, init_filesystem, MAX_BLOCKS]
    · rfl
  refine ⟨stale_fs_eq, reachable_stale_fs, written_fs_entry.1, stale_fs_entry.1,
    stale_fs_entry.2.1, ?_, hsize, ?_, ?_⟩
  · rw [hw]
  · rw [hw, hmap]
  · rw [hw, hmap, hsize]
    omega

/-- Example of `failed_write_markers`: the failing write of `big_content` to
file 1 of `written_fs`, whose range `0 .. 0` is marked used. -/
theorem failed_write_markers_example :
    (write_file 1 big_content 0 written_fs).1 = Outcome.fail Err.OutOfSpace ∧
    count_free (write_file 1 big_content 0 written_fs).2.free_blocks =
      count_free written_fs.free_blocks + old_range_size written_fs 1 := by
  have hw : (write_file 1 big_content 0 written_fs).1 = Outcome.fail Err.OutOfSpace := by
    rw [write_file_too_large written_fs 1 big_content 0 written_fs_entry.1 written_fs_entry.2.1
      written_fs_entry.2.2.1 (le_of_eq big_content_length.symm)]
  exact ⟨hw, (failed_write_markers written_fs 1 big_content 0 hw).2.2.2.2 written_fs_range_used⟩

/-! ## write_file then read_file -/

theorem write_blocks_files (c : List Char) (L : Nat) (s n : Int) :
    ∀ (k i : Nat) (fs : FileSystem),
      (write_blocks c L s n k i fs).files = fs.files ∧
      (write_blocks c L s n k i fs).num_files = fs.num_files ∧
      (write_blocks c L s n k i fs).current_dir = fs.current_dir := by
  intro k
  induction k with
  | zero => intro i fs; exact ⟨rfl, rfl, rfl⟩
  | succ k ih =>
    intro i fs
    simp only [write_blocks]
    exact ih _ _

theorem write_blocks_blocks_other (c : List Char) (L : Nat) (s n : Int) :
    ∀ (k i : Nat) (fs : FileSystem) (b : Int),
      (∀ j : Nat, i ≤ j → j < i + k → b ≠ s + j) →
      (write_blocks c L s n k i fs).blocks b = fs.blocks b := by
  intro k
  induction k with
  | zero => intro i fs b _; rfl
  | succ k ih =>
    intro i fs b hb
    simp only [write_blocks]
    rw [ih (i + 1) _ b (fun j h1 h2 => hb j (by omega) (by omega))]
    exact set_at_other _ _ _ _ (hb i (le_refl i) (by omega))

theorem write_blocks_blocks (c : List Char) (L : Nat) (s n : Int) :
    ∀ (k i : Nat) (fs : FileSystem) (j o : Nat), i ≤ j → j < i + k →
      o < (if (j : Int) = n - 1 then L - j * BLOCK_SIZE else BLOCK_SIZE) →
      (write_blocks c L s n k i fs).blocks (s + j) o =
        (c_bytes c).getD (j * BLOCK_SIZE + o) NUL := by
  intro k
  induction k with
  | zero => intro i fs j o h1 h2; omega
  | succ k ih =>
    intro i fs j o h1 h2 ho
    simp only [write_blocks]
    by_cases hji : j = i
    · subst hji
      rw [write_blocks_blocks_other c L s n k (j + 1) _ (s + j)
        (fun j2 h3 _ => by omega)]
      simp only [set_at_same, memcpy_block, ho, if_true]
    · exact ih (i + 1) _ j o (by omega) (by omega) ho

theorem write_blocks_free_blocks (c : List Char) (L : Nat) (s n : Int) :
    ∀ (k i : Nat) (fs : FileSystem) (b : Int),
      (write_blocks c L s n k i fs).free_blocks b =
        if s + i ≤ b ∧ b < s + i + k then 0 else fs.free_blocks b := by
  intro k
  induction k with
  | zero =>
    intro i fs b
    have : ¬ (s + i ≤ b ∧ b < s + i + ((0 : Nat) : Int)) := by omega
    simp only [write_blocks, this, if_false]
  | succ k ih =>
    intro i fs b
    simp only [write_blocks]
    rw [ih]
    by_cases hb : b = s + i
    · subst hb
      have h1 : ¬ (s + ((i + 1 : Nat) : Int) ≤ s + i ∧ s + (i : Int) < s + ((i + 1 : Nat) : Int) + k) := by
        omega
      have h2 : (s + (i : Int) ≤ s + i ∧ s + (i : Int) < s + i + ((k + 1 : Nat) : Int)) := by omega
      rw [if_neg h1, if_pos h2]
      exact set_at_same _ _ _
    · have h3 : (s + ((i + 1 : Nat) : Int) ≤ b ∧ b < s + ((i + 1 : Nat) : Int) + k) ↔
          (s + (i : Int) ≤ b ∧ b < s + i + ((k + 1 : Nat) : Int)) := by
        omega
      simp only [h3]
      split_ifs
      · rfl
      · exact set_at_other _ _ _ _ hb

/-- The bytes of a block range read back as a slice of the list they were
copied from. -/
theorem map_range_getD (l : List Char) (a m : Nat) (h : a + m ≤ l.length) :
    (List.range m).map (fun o => l.getD (a + o) NUL) = (l.drop a).take m := by
  apply List.ext_getElem
  · simp; omega
  · intro o h1 h2
    simp at h1
    simp [List.getD_eq_getElem?_getD, List.getElem?_eq_getElem (show a + o < l.length by omega)]

theorem read_blocks_eq (fs : FileSystem) (f : FileMetadata) (c : List Char) (nN : Nat)
    (hn : f.num_blocks = (nN : Int)) (hsz : f.size = c.length + 1)
    (hlo : (nN - 1) * BLOCK_SIZE < c.length + 1) (hhi : c.length + 1 ≤ nN * BLOCK_SIZE)
    (hblk : ∀ j o : Nat, j < nN →
      o < (if (j : Int) = f.num_blocks - 1 then f.size - j * BLOCK_SIZE else BLOCK_SIZE) →
      fs.blocks (f.start_block + j) o = (c_bytes c).getD (j * BLOCK_SIZE + o) NUL) :
    ∀ (k i : Nat) (buf : List Char), i + k = nN →
      read_blocks fs f k i buf = buf ++ (c_bytes c).drop (i * BLOCK_SIZE) := by
  have hlen : (c_bytes c).length = c.length + 1 := by simp [c_bytes]
  intro k
  induction k with
  | zero =>
    intro i buf hik
    have : (c_bytes c).length ≤ i * BLOCK_SIZE := by rw [hlen]; simpa [← hik] using hhi
    simp [read_blocks, List.drop_eq_nil_of_le this]
  | succ k ih =>
    intro i buf hik
    simp only [read_blocks]
    rw [ih (i + 1) _ (by omega)]
    have hchunk : (List.range (if (i : Int) = f.num_blocks - 1 then f.size - i * BLOCK_SIZE
          else BLOCK_SIZE)).map (fun o => fs.blocks (f.start_block + i) o) =
        (List.range (if (i : Int) = f.num_blocks - 1 then f.size - i * BLOCK_SIZE
          else BLOCK_SIZE)).map (fun o => (c_bytes c).getD (i * BLOCK_SIZE + o) NUL) := by
      apply List.map_congr_left
      intro o ho
      exact hblk i o (by omega) (by simpa using ho)
    rw [hchunk, List.append_assoc]
    congr 1
    by_cases hlast : (i : Int) = f.num_blocks - 1
    · have hi : i = nN - 1 := by omega
      subst hi
      simp only [hlast, if_true]
      have hfit : (nN - 1) * BLOCK_SIZE + (f.size - (nN - 1) * BLOCK_SIZE) ≤ (c_bytes c).length := by
        rw [hlen, hsz]; omega
      rw [map_range_getD _ _ _ hfit]
      have hd : (c_bytes c).drop ((nN - 1 + 1) * BLOCK_SIZE) = [] := by
        apply List.drop_eq_nil_of_le
        rw [hlen]
        have : (nN - 1 + 1) = nN := by omega
        rw [this]; exact hhi
      rw [hd, List.append_nil]
      apply List.take_of_length_le
      simp only [List.length_drop, hlen, hsz]
      omega
    · simp only [hlast, if_false]
      have hi : i + 1 ≤ nN - 1 := by omega
      have hle : (i + 1) * BLOCK_SIZE ≤ (nN - 1) * BLOCK_SIZE :=
        Nat.mul_le_mul_right _ hi
      have hfit : i * BLOCK_SIZE + BLOCK_SIZE ≤ (c_bytes c).length := by
        rw [hlen]
        have : (i + 1) * BLOCK_SIZE = i * BLOCK_SIZE + BLOCK_SIZE := by ring
        omega
      rw [map_range_getD _ _ _ hfit]
      have : (i + 1) * BLOCK_SIZE = i * BLOCK_SIZE + BLOCK_SIZE := by ring
      rw [this, ← List.drop_drop, List.take_append_drop]

theorem blocks_needed_bounds (c : List Char) :
    1 ≤ blocks_needed c ∧
    ((blocks_needed c).toNat - 1) * BLOCK_SIZE < c.length + 1 ∧
    c.length + 1 ≤ (blocks_needed c).toNat * BLOCK_SIZE ∧
    blocks_needed c = ((blocks_needed c).toNat : Int) := by
  have hN : (blocks_needed c).toNat = (c.length + 1 + BLOCK_SIZE - 1) / BLOCK_SIZE := by
    unfold blocks_needed; exact Int.toNat_ofNat _
  have h0 : 0 ≤ blocks_needed c := by unfold blocks_needed; positivity
  have hc : blocks_needed c = ((blocks_needed c).toNat : Int) := (Int.toNat_of_nonneg h0).symm
  refine ⟨?_, ?_, ?_, hc⟩
  · rw [hc, hN]; unfold BLOCK_SIZE; omega
  · rw [hN]; unfold BLOCK_SIZE; omega
  · rw [hN]; unfold BLOCK_SIZE; omega

/-- The state and result of a write that finds its blocks. -/
theorem write_file_success (fs : FileSystem) (f : Int) (c : List Char) (now : Int)
    (hf : in_table f) (hl : live fs f) (hd : (fs.files f).is_directory = 0)
    (hfound : ¬ (find_contiguous (release_old_blocks fs f).free_blocks (blocks_needed c)
      MAX_BLOCKS 0 (-1) 0).2 < blocks_needed c) :
    write_file f c now fs =
      (Outcome.ok 0,
        { (write_blocks c (c.length + 1)
            (find_contiguous (release_old_blocks fs f).free_blocks (blocks_needed c)
              MAX_BLOCKS 0 (-1) 0).1
            (blocks_needed c) (blocks_needed c).toNat 0 (release_old_blocks fs f)) with
          files := set_at fs.files f
            { (fs.files f) with
              start_block := (find_contiguous (release_old_blocks fs f).free_blocks
                (blocks_needed c) MAX_BLOCKS 0 (-1) 0).1
              num_blocks := blocks_needed c
              size := c.length + 1
              modified := now } }) := by
  unfold in_table live at *
  have h1 : ¬ (f < 0 ∨ f ≥ (MAX_FILES : Int) ∨ (fs.files f).filename = []) := by
    rintro (h | h | h)
    · omega
    · omega
    · exact hl h
  simp only [write_file, h1, hd, hfound, if_false, ne_eq, not_true_eq_false,
    (write_blocks_files _ _ _ _ _ _ _).1, release_old_blocks_files]

/-- The result of a write that finds no run of free blocks. -/
theorem write_file_no_space (fs : FileSystem) (f : Int) (c : List Char) (now : Int)
    (hf : in_table f) (hl : live fs f) (hd : (fs.files f).is_directory = 0)
    (hfound : (find_contiguous (release_old_blocks fs f).free_blocks (blocks_needed c)
      MAX_BLOCKS 0 (-1) 0).2 < blocks_needed c) :
    write_file f c now fs = (Outcome.fail Err.OutOfSpace, release_old_blocks fs f) := by
  unfold in_table live at *
  have h1 : ¬ (f < 0 ∨ f ≥ (MAX_FILES : Int) ∨ (fs.files f).filename = []) := by
    rintro (h | h | h)
    · omega
    · omega
    · exact hl h
  simp only [write_file, h1, hd, hfound, if_false, if_true, ne_eq, not_true_eq_false]

/-- C1 as amended (round trip): for every state, every live file `f` and
every content `c`, `write_file(f, c)` succeeds iff, once the old range of
`f` is freed, the store has a run of `blocks_needed = ceil((len(c) + 1) /
BLOCK_SIZE)` contiguous free blocks; and after a successful write
`read_file(f)` returns the C string `c`: the bytes of `c` followed by the
terminating NUL. -/
theorem write_read_round_trip (fs : FileSystem) (f : Int) (c : List Char) (now : Int)
    (hf : in_table f) (hl : live fs f) (hd : (fs.files f).is_directory = 0) :
    ((write_file f c now fs).1 = Outcome.ok 0 ↔
      ∃ s, 0 ≤ s ∧ s + blocks_needed c ≤ (MAX_BLOCKS : Int) ∧
        free_run (release_old_blocks fs f).free_blocks s (blocks_needed c)) ∧
    ((write_file f c now fs).1 = Outcome.ok 0 →
      read_file f (write_file f c now fs).2 = Outcome.ok (c_bytes c)) := by
  obtain ⟨hn1, hlo, hhi, hcast⟩ := blocks_needed_bounds c
  rcases find_contiguous_spec (release_old_blocks fs f).free_blocks (blocks_needed c) hn1 with
    ⟨heq, h0, hle, hrun, _⟩ | ⟨hlt, hno⟩
  · have hfound : ¬ (find_contiguous (release_old_blocks fs f).free_blocks (blocks_needed c)
        MAX_BLOCKS 0 (-1) 0).2 < blocks_needed c := by omega
    have hw := write_file_success fs f c now hf hl hd hfound
    refine ⟨⟨fun _ => ⟨_, h0, hle, hrun⟩, fun _ => by rw [hw]⟩, fun _ => ?_⟩
    rw [hw]
    unfold in_table live at *
    have h1 : ¬ (f < 0 ∨ f ≥ (MAX_FILES : Int) ∨ (fs.files f).filename = []) := by
      rintro (h | h | h)
      · omega
      · omega
      · exact hl h
    have hs : ¬ (find_contiguous (release_old_blocks fs f).free_blocks (blocks_needed c)
        MAX_BLOCKS 0 (-1) 0).1 = -1 := by omega
    simp only [read_file, set_at_same, h1, hd, hs, if_false, ne_eq, not_true_eq_false]
    congr 1
    have := read_blocks_eq
      { (write_blocks c (c.length + 1)
            (find_contiguous (release_old_blocks fs f).free_blocks (blocks_needed c)
              MAX_BLOCKS 0 (-1) 0).1
            (blocks_needed c) (blocks_needed c).toNat 0 (release_old_blocks fs f)) with
          files := set_at fs.files f
            { (fs.files f) with
              start_block := (find_contiguous (release_old_blocks fs f).free_blocks
                (blocks_needed c) MAX_BLOCKS 0 (-1) 0).1
              num_blocks := blocks_needed c
              size := c.length + 1
              modified := now } }
      { (fs.files f) with
              start_block := (find_contiguous (release_old_blocks fs f).free_blocks
                (blocks_needed c) MAX_BLOCKS 0 (-1) 0).1
              num_blocks := blocks_needed c
              size := c.length + 1
              modified := now }
      c (blocks_needed c).toNat hcast rfl hlo hhi
      (fun j o hj ho => write_blocks_blocks c (c.length + 1) _ (blocks_needed c)
        (blocks_needed c).toNat 0 (release_old_blocks fs f) j o (Nat.zero_le j) (by omega) ho)
      (blocks_needed c).toNat 0 [] (by omega)
    simpa [hd] using this
  · have hw := write_file_no_space fs f c now hf hl hd hlt
    refine ⟨⟨fun h => ?_, fun ⟨s, hs0, hsn, hrun⟩ => absurd hrun (hno s hs0 hsn)⟩, fun h => ?_⟩
    · rw [hw] at h; simp at h
    · rw [hw] at h; simp at h

/-- Counterexample to C1 as stated: file 1 of the reachable state
`one_file_fs` is live, all 1000 blocks are free, `big_content` has `1000 *
BLOCK_SIZE` characters, no more than `blocks_available * BLOCK_SIZE`, and
`write_file` fails with `OutOfSpace`: with its terminating NUL the content
needs 1001 blocks. -/
theorem round_trip_counterexample :
    Reachable one_file_fs ∧ in_table 1 ∧ live one_file_fs 1 ∧
    (one_file_fs.files 1).is_directory = 0 ∧
    count_free (release_old_blocks one_file_fs 1).free_blocks = 1000 ∧
    big_content.length ≤
      count_free (release_old_blocks one_file_fs 1).free_blocks * BLOCK_SIZE ∧
    (write_file 1 big_content 0 one_file_fs).1 = Outcome.fail Err.OutOfSpace := by
  have hcount : count_free (release_old_blocks one_file_fs 1).free_blocks = 1000 := by
    have : (release_old_blocks one_file_fs 1).free_blocks = fresh_fs.free_blocks := rfl
    rw [this, count_free_fresh]; rfl
  refine ⟨reachable_one_file_fs, by decide, by decide, by decide, hcount, ?_, ?_⟩
  · rw [hcount, big_content_length]; decide
  · rw [write_file_too_large one_file_fs 1 big_content 0 (by decide) (by decide) (by decide)
      (le_of_eq big_content_length.symm)]

/-- Witness of `write_read_round_trip`: writing `hi` to file 1 of
`one_file_fs` and reading it back. -/
theorem write_read_round_trip_witness :
    in_table 1 ∧ live one_file_fs 1 ∧ (one_file_fs.files 1).is_directory = 0 ∧
    read_file 1 (write_file 1 ['h', 'i'] 0 one_file_fs).2 = Outcome.ok ['h', 'i', NUL] :=
  ⟨by decide, by decide, by decide,
    (write_read_round_trip one_file_fs 1 ['h', 'i'] 0 (by decide) (by decide) (by decide)).2
      (by decide)⟩

set_option maxRecDepth 100000 in
/-- The blocks the entries of `written_fs` claim. -/
theorem sum_blocks_written_fs : sum_blocks written_fs = 1 := by decide

set_option maxRecDepth 100000 in
/-- The blocks the entries of `stale_fs` claim. -/
theorem sum_blocks_stale_fs : sum_blocks stale_fs = 1 := by decide

/-- C2 on the code (block conservation, failing input): `create f`, `write
1 x`, then a write of `big_content` to file 1, which fails with
`OutOfSpace`. The failed write has freed block 0 and returned before
touching the entry, so the reachable state `stale_fs` has all `MAX_BLOCKS`
blocks free and file 1 still holding `num_blocks = 1`: the sum of
`num_blocks` plus the free count is `MAX_BLOCKS + 1`. -/
theorem block_conservation_broken_by_failed_write :
    write_file 1 big_content 0 written_fs = (Outcome.fail Err.OutOfSpace, stale_fs) ∧
    Reachable stale_fs ∧
    sum_blocks written_fs + count_free written_fs.free_blocks = MAX_BLOCKS ∧
    sum_blocks stale_fs + count_free stale_fs.free_blocks = MAX_BLOCKS + 1 := by
  refine ⟨stale_fs_eq, reachable_stale_fs, ?_, ?_⟩
  · have h2 := count_free_written_fs
    rw [sum_blocks_written_fs]
    omega
  · rw [sum_blocks_stale_fs, stale_fs_free_blocks, count_free_fresh]
    omega

/-- C3 on the code (no duplicate siblings, failing input): `mkdir` of the
32-character `long_name` twice in the fresh state. `create_file` compares
the full name with the stored names and then stores the first 31
characters, so both calls succeed and the live entries 1 and 2 have the same
parent and the same stored filename. -/
theorem duplicate_siblings_after_truncation :
    Reachable dup_fs ∧
    (create_file long_name 1 0 0 fresh_fs).1 = Outcome.ok 1 ∧
    (create_file long_name 1 0 0 (create_file long_name 1 0 0 fresh_fs).2).1 = Outcome.ok 2 ∧
    live dup_fs 1 ∧ live dup_fs 2 ∧
    (dup_fs.files 1).parent_dir = (dup_fs.files 2).parent_dir ∧
    (dup_fs.files 1).filename = (dup_fs.files 2).filename :=
  ⟨Reachable.create _ _ _ _ _ (Reachable.create _ _ _ _ _ (Reachable.init 0 0) (by decide))
      (by decide),
    by decide, by decide, by decide, by decide, by decide, by decide⟩

/-! ## create_file -/

/-- The slot search returns the lowest empty slot of its range, or `-1`. -/
theorem find_free_slot_loop_spec (fs : FileSystem) :
    ∀ (k : Nat) (i : Int), 0 ≤ i →
      (find_free_slot_loop fs k i = -1 ∧ ∀ j, i ≤ j → j < i + k → (fs.files j).filename ≠ []) ∨
      (i ≤ find_free_slot_loop fs k i ∧ find_free_slot_loop fs k i < i + k ∧
        (fs.files (find_free_slot_loop fs k i)).filename = [] ∧
        ∀ j, i ≤ j → j < find_free_slot_loop fs k i → (fs.files j).filename ≠ []) := by
  intro k
  induction k with
  | zero =>
    intro i _
    left
    exact ⟨rfl, fun j h1 h2 => by simp at h2; omega⟩
  | succ k ih =>
    intro i hi
    by_cases he : (fs.files i).filename = []
    · have e : find_free_slot_loop fs (k + 1) i = i := by
        rw [find_free_slot_loop]; exact if_pos he
      right
      rw [e]
      exact ⟨le_refl i, by push_cast; omega, he, fun j h1 h2 => by omega⟩
    · have e : find_free_slot_loop fs (k + 1) i = find_free_slot_loop fs k (i + 1) := by
        rw [find_free_slot_loop]; exact if_neg he
      rw [e]
      rcases ih (i + 1) (by omega) with ⟨h1, h2⟩ | ⟨h1, h2, h3, h4⟩
      · left
        refine ⟨h1, fun j hj1 hj2 => ?_⟩
        by_cases hji : j = i
        · subst hji; exact he
        · exact h2 j (by omega) (by push_cast at hj2; omega)
      · right
        refine ⟨by omega, by push_cast; omega, h3, fun j hj1 hj2 => ?_⟩
        by_cases hji : j = i
        · subst hji; exact he
        · exact h4 j (by omega) hj2

/-- The name lookup returns the lowest matching slot of its range, or `-1`. -/
theorem find_file_in_dir_loop_spec (fs : FileSystem) (filename : List Char) (dir_index : Int) :
    ∀ (k : Nat) (i : Int), 0 ≤ i →
      (find_file_in_dir_loop fs filename dir_index k i = -1 ∧
        ∀ j, i ≤ j → j < i + k → ¬ name_match fs filename dir_index j) ∨
      (i ≤ find_file_in_dir_loop fs filename dir_index k i ∧
        find_file_in_dir_loop fs filename dir_index k i < i + k ∧
        name_match fs filename dir_index (find_file_in_dir_loop fs filename dir_index k i) ∧
        ∀ j, i ≤ j → j < find_file_in_dir_loop fs filename dir_index k i →
          ¬ name_match fs filename dir_index j) := by
  intro k
  induction k with
  | zero =>
    intro i _
    left
    exact ⟨rfl, fun j h1 h2 => by simp at h2; omega⟩
  | succ k ih =>
    intro i hi
    by_cases he : name_match fs filename dir_index i
    · have e : find_file_in_dir_loop fs filename dir_index (k + 1) i = i := by
        rw [find_file_in_dir_loop]; exact if_pos he
      right
      rw [e]
      exact ⟨le_refl i, by push_cast; omega, he, fun j h1 h2 => by omega⟩
    · have e : find_file_in_dir_loop fs filename dir_index (k + 1) i =
          find_file_in_dir_loop fs filename dir_index k (i + 1) := by
        rw [find_file_in_dir_loop]; exact if_neg he
      rw [e]
      rcases ih (i + 1) (by omega) with ⟨h1, h2⟩ | ⟨h1, h2, h3, h4⟩
      · left
        refine ⟨h1, fun j hj1 hj2 => ?_⟩
        by_cases hji : j = i
        · subst hji; exact he
        · exact h2 j (by omega) (by push_cast at hj2; omega)
      · right
        refine ⟨by omega, by push_cast; omega, h3, fun j hj1 hj2 => ?_⟩
        by_cases hji : j = i
        · subst hji; exact he
        · exact h4 j (by omega) hj2

/-- A failing `create_file` leaves the state as it is. -/
theorem create_file_fail_state (filename : List Char) (kind t1 t2 : Int) (fs : FileSystem)
    (e : Err) (h : (create_file filename kind t1 t2 fs).1 = Outcome.fail e) :
    (create_file filename kind t1 t2 fs).2 = fs := by
  simp only [create_file] at h ⊢
  split_ifs at h ⊢ <;> rfl

/-- A successful `create_file` found `num_files` below `MAX_FILES` and has
raised it by one. -/
theorem create_file_ok_num_files (filename : List Char) (kind t1 t2 : Int) (fs : FileSystem)
    (v : Int) (h : (create_file filename kind t1 t2 fs).1 = Outcome.ok v) :
    fs.num_files < (MAX_FILES : Int) ∧
    (create_file filename kind t1 t2 fs).2.num_files = fs.num_files + 1 := by
  simp only [create_file] at h ⊢
  split_ifs at h ⊢ with h1 h2 h3
  exact ⟨by omega, rfl⟩

/-- With `num_files` at `MAX_FILES` or above every `create_file` fails with
`TableFull`. -/
theorem create_file_table_full (filename : List Char) (kind t1 t2 : Int) (fs : FileSystem)
    (h : (MAX_FILES : Int) ≤ fs.num_files) :
    create_file filename kind t1 t2 fs = (Outcome.fail Err.TableFull, fs) := by
  simp only [create_file]
  rw [if_pos (by omega)]

theorem count_live_upto_le (fs : FileSystem) (k : Nat) : count_live_upto fs k ≤ k := by
  induction k with
  | zero => exact le_refl 0
  | succ k ih =>
    simp only [count_live_upto]
    split_ifs <;> omega

theorem count_live_upto_full (fs : FileSystem) (k : Nat)
    (h : ∀ i, 0 ≤ i → i < (k : Int) → live fs i) : count_live_upto fs k = k := by
  induction k with
  | zero => rfl
  | succ k ih =>
    simp only [count_live_upto]
    rw [ih (fun i h0 h1 => h i h0 (by push_cast; omega)),
      if_pos (h k (by omega) (by push_cast; omega))]

/-- A sequence of creations raises `num_files` by the number of its
successes and never beyond `MAX_FILES`. -/
theorem run_creates_num_files :
    ∀ (calls : List (List Char × Int × Int × Int)) (fs : FileSystem),
      fs.num_files ≤ (MAX_FILES : Int) →
      (run_creates calls fs).num_files = fs.num_files + count_created calls fs ∧
      (run_creates calls fs).num_files ≤ (MAX_FILES : Int) := by
  intro calls
  induction calls with
  | nil => intro fs h; exact ⟨by simp [run_creates, count_created], h⟩
  | cons call rest ih =>
    intro fs h
    obtain ⟨filename, kind, t1, t2⟩ := call
    simp only [run_creates, count_created]
    cases hres : (create_file filename kind t1 t2 fs).1 with
    | ok v =>
      obtain ⟨hlt, hnum⟩ := create_file_ok_num_files filename kind t1 t2 fs v hres
      obtain ⟨h1, h2⟩ := ih (create_file filename kind t1 t2 fs).2 (by omega)
      refine ⟨?_, h2⟩
      rw [h1, hnum]
      push_cast
      omega
    | fail e =>
      rw [create_file_fail_state filename kind t1 t2 fs e hres]
      obtain ⟨h1, h2⟩ := ih fs h
      refine ⟨?_, h2⟩
      rw [h1]
      push_cast
      omega

/-- C9 as amended (table capacity): (1) in every state with no empty slot
`create_file` fails and changes nothing; the failure is `TableFull`, except
that a state whose `num_files` is below `MAX_FILES` answers a name already
present in the current directory with `DuplicateName`; it is `TableFull`
whenever `num_files` is the number of live entries. (2) In any sequence of
`create_file` calls issued after `init_filesystem` at most `MAX_FILES - 1`
calls succeed (the root holds slot 0), and once `MAX_FILES - 1` have
succeeded every further attempt fails with `TableFull` and changes nothing. -/
theorem table_capacity :
    (∀ (fs : FileSystem) (filename : List Char) (kind t1 t2 : Int),
      (∀ i, in_table i → live fs i) →
      (create_file filename kind t1 t2 fs).2 = fs ∧
      ((create_file filename kind t1 t2 fs).1 = Outcome.fail Err.TableFull ∨
        (fs.num_files < (MAX_FILES : Int) ∧
          find_file_in_dir fs filename fs.current_dir ≠ -1 ∧
          (create_file filename kind t1 t2 fs).1 = Outcome.fail Err.DuplicateName)) ∧
      (fs.num_files = count_live fs →
        (create_file filename kind t1 t2 fs).1 = Outcome.fail Err.TableFull)) ∧
    (∀ (calls : List (List Char × Int × Int × Int)) (t_created t_modified : Int),
      count_created calls (init_filesystem t_created t_modified) ≤ MAX_FILES - 1 ∧
      (count_created calls (init_filesystem t_created t_modified) = MAX_FILES - 1 →
        ∀ (filename : List Char) (kind t1 t2 : Int),
          create_file filename kind t1 t2
              (run_creates calls (init_filesystem t_created t_modified)) =
            (Outcome.fail Err.TableFull,
              run_creates calls (init_filesystem t_created t_modified)))) := by
  constructor
  · intro fs filename kind t1 t2 hfull
    have hslot : find_free_slot_loop fs MAX_FILES 0 = -1 := by
      rcases find_free_slot_loop_spec fs MAX_FILES 0 (le_refl 0) with ⟨h1, _⟩ | ⟨h1, h2, h3, _⟩
      · exact h1
      · exact absurd h3 (hfull _ ⟨h1, by simpa using h2⟩)
    refine ⟨?_, ?_, ?_⟩
    · simp only [create_file, hslot]
      split_ifs <;> rfl
    · simp only [create_file, hslot]
      by_cases h1 : fs.num_files ≥ (MAX_FILES : Int)
      · left; rw [if_pos h1]
      · by_cases h2 : find_file_in_dir fs filename fs.current_dir ≠ -1
        · right; rw [if_neg h1, if_pos h2]; exact ⟨by omega, h2, rfl⟩
        · left; rw [if_neg h1, if_neg h2]; rfl
    · intro hcount
      have : count_live fs = MAX_FILES :=
        count_live_upto_full fs MAX_FILES (fun i h0 h1 => hfull i ⟨h0, h1⟩)
      rw [create_file_table_full filename kind t1 t2 fs (by rw [hcount, this])]
  · intro calls t_created t_modified
    obtain ⟨h1, h2⟩ := run_creates_num_files calls (init_filesystem t_created t_modified)
      (by simp [init_filesystem, MAX_FILES])
    have h0 : (init_filesystem t_created t_modified).num_files = 1 := rfl
    rw [h0] at h1
    have hM : MAX_FILES = 100 := rfl
    refine ⟨by rw [hM] at h2 ⊢; omega, ?_⟩
    intro hc filename kind t1 t2
    exact create_file_table_full filename kind t1 t2 _ (by rw [h1, hc, hM]; norm_num)

/-- Witness of `table_capacity`: every slot of `full_fs` is live and its
`num_files` is the number of live entries. -/
theorem table_capacity_witness :
    (∀ i, in_table i → live full_fs i) ∧ full_fs.num_files = count_live full_fs ∧
    create_file ['n'] 0 0 0 full_fs = (Outcome.fail Err.TableFull, full_fs) := by
  have hfull : ∀ i, in_table i → live full_fs i := fun i _ => by
    simp [live, full_fs]
  have hcount : full_fs.num_files = count_live full_fs := by
    have : count_live full_fs = MAX_FILES :=
      count_live_upto_full full_fs MAX_FILES (fun i h0 h1 => hfull i ⟨h0, h1⟩)
    rw [this]; rfl
  have h := table_capacity.1 full_fs ['n'] 0 0 0 hfull
  exact ⟨hfull, hcount, Prod.ext (h.2.2 hcount) h.1⟩

set_option maxRecDepth 100000 in
/-- Counterexample to C9 as stated: after `init_filesystem`, one hundred
attempts to create `a` (the first succeeds, the others fail with
`DuplicateName`) followed by an attempt to create `b`: this 101st attempt,
the `(MAX_FILES + 1)`-th, succeeds and returns slot 2. -/
theorem table_capacity_counterexample :
    (List.replicate 100 ((['a'], 0, 0, 0) : List Char × Int × Int × Int)).length = MAX_FILES ∧
    count_created (List.replicate 100 (['a'], 0, 0, 0)) fresh_fs = 1 ∧
    (create_file ['b'] 0 0 0 (run_creates (List.replicate 100 (['a'], 0, 0, 0)) fresh_fs)).1 =
      Outcome.ok 2 :=
  ⟨by decide, by decide, by decide⟩

/-- C10 as amended (create postcondition): for every state with `num_files
< MAX_FILES` and at least one empty slot, and every name not already present
among the children of `current_dir`, `create_file(name, kind)` returns the
lowest-index empty slot `i`; afterwards entry `i` holds the first
`MAX_FILENAME - 1 = 31` characters of the name (the name itself when it has
at most 31), size 0, `created` and `modified` equal to the first and the
second clock reading of the call, `start_block == -1`, `num_blocks == 0`,
`is_directory == kind` and `parent_dir == current_dir`; every other entry,
the block store and `current_dir` are unchanged and `num_files` is one more. -/
theorem create_postcondition (fs : FileSystem) (filename : List Char) (kind t1 t2 : Int)
    (hnum : fs.num_files < (MAX_FILES : Int))
    (hslot : ∃ i, in_table i ∧ ¬ live fs i)
    (hnew : ∀ i, in_table i → ¬ name_match fs filename fs.current_dir i) :
    ∃ slot, (create_file filename kind t1 t2 fs).1 = Outcome.ok slot ∧
      in_table slot ∧ ¬ live fs slot ∧ (∀ j, in_table j → j < slot → live fs j) ∧
      (create_file filename kind t1 t2 fs).2.files slot =
        { filename := filename.take (MAX_FILENAME - 1), size := 0, created := t1,
          modified := t2, start_block := -1, num_blocks := 0, is_directory := kind,
          parent_dir := fs.current_dir } ∧
      (filename.length ≤ MAX_FILENAME - 1 →
        ((create_file filename kind t1 t2 fs).2.files slot).filename = filename) ∧
      (∀ j, j ≠ slot → (create_file filename kind t1 t2 fs).2.files j = fs.files j) ∧
      (create_file filename kind t1 t2 fs).2.blocks = fs.blocks ∧
      (create_file filename kind t1 t2 fs).2.free_blocks = fs.free_blocks ∧
      (create_file filename kind t1 t2 fs).2.current_dir = fs.current_dir ∧
      (create_file filename kind t1 t2 fs).2.num_files = fs.num_files + 1 := by
  have hfind : find_file_in_dir fs filename fs.current_dir = -1 := by
    unfold find_file_in_dir
    rcases find_file_in_dir_loop_spec fs filename fs.current_dir MAX_FILES 0 (le_refl 0) with
      ⟨h1, _⟩ | ⟨h1, h2, h3, _⟩
    · exact h1
    · exact absurd h3 (hnew _ ⟨h1, by simpa using h2⟩)
  obtain ⟨i0, hi0, hempty⟩ := hslot
  unfold live in_table at *
  rcases find_free_slot_loop_spec fs MAX_FILES 0 (le_refl 0) with ⟨_, h2⟩ | ⟨h1, h2, h3, h4⟩
  · exact absurd (h2 i0 hi0.1 (by simpa using hi0.2)) hempty
  · refine ⟨find_free_slot_loop fs MAX_FILES 0, ?_, ⟨h1, by simpa using h2⟩, by simpa using h3,
      fun j hj hlt => h4 j hj.1 hlt, ?_, ?_, ?_, ?_, ?_, ?_, ?_⟩
    all_goals
      simp only [create_file, hfind, ne_eq, not_true_eq_false, if_false]
      rw [if_neg (by omega), if_neg (by omega)]
    · simp only [set_at_same, strncpy_name]
    · intro hlen
      simp only [set_at_same, strncpy_name]
      exact List.take_of_length_le hlen
    · intro j hj
      exact set_at_other _ _ _ _ hj

/-- Witness of `create_postcondition`: `create f` in the fresh state. -/
theorem create_postcondition_witness :
    fresh_fs.num_files < (MAX_FILES : Int) ∧ (∃ i, in_table i ∧ ¬ live fresh_fs i) ∧
    (∀ i, in_table i → ¬ name_match fresh_fs ['f'] fresh_fs.current_dir i) ∧
    ∃ slot, (create_file ['f'] 0 3 4 fresh_fs).1 = Outcome.ok slot ∧
      in_table slot ∧ ¬ live fresh_fs slot := by
  have hnew : ∀ i, in_table i → ¬ name_match fresh_fs ['f'] fresh_fs.current_dir i := by
    intro i _
    unfold name_match fresh_fs init_filesystem set_at zero_entry
    by_cases hi : i = 0 <;> simp [hi]
  have hnum : fresh_fs.num_files < (MAX_FILES : Int) := by decide
  have hslot : ∃ i, in_table i ∧ ¬ live fresh_fs i := ⟨1, by decide, by decide⟩
  obtain ⟨slot, h1, h2, h3, _⟩ := create_postcondition fresh_fs ['f'] 0 3 4 hnum hslot hnew
  exact ⟨hnum, hslot, hnew, slot, h1, h2, h3⟩

set_option maxRecDepth 100000 in
/-- Counterexample to C10 as stated, at three inputs. (1) `create_file` of
the 32-character `long_name` in the fresh state returns slot 1 and stores a
filename other than the name. (2) With clock readings 0 and 1 for the two
`time(NULL)` calls the new entry has `created ≠ modified`. (3)
`miscounted_fs` has `num_files = MAX_FILES`, the empty slot 1 and no entry
named `f`, and `create_file` fails with `TableFull`. -/
theorem create_postcondition_counterexample :
    ((create_file long_name 1 0 0 fresh_fs).1 = Outcome.ok 1 ∧
      ((create_file long_name 1 0 0 fresh_fs).2.files 1).filename ≠ long_name) ∧
    ((create_file ['f'] 0 0 1 fresh_fs).1 = Outcome.ok 1 ∧
      ((create_file ['f'] 0 0 1 fresh_fs).2.files 1).created ≠
        ((create_file ['f'] 0 0 1 fresh_fs).2.files 1).modified) ∧
    (miscounted_fs.num_files = MAX_FILES ∧ in_table 1 ∧ ¬ live miscounted_fs 1 ∧
      find_file_in_dir miscounted_fs ['f'] miscounted_fs.current_dir = -1 ∧
      (create_file ['f'] 0 0 0 miscounted_fs).1 = Outcome.fail Err.TableFull) :=
  ⟨⟨by decide, by decide⟩, ⟨by decide, by decide⟩,
    by decide, by decide, by decide, by decide, by decide⟩

/-! ## delete_directory_recursive: what every returning call preserves -/

/-- Proof rule for `delete_directory_recursive`. `Pre d fs` is what a call
on `d` may assume, `Q fs fs1` relates the state before to the state after;
`Q` must hold of the two elementary steps (a child file is freed and erased,
the directory itself is erased) and compose. -/
theorem delete_directory_recursive_rule (Pre : Int → FileSystem → Prop)
    (Q : FileSystem → FileSystem → Prop)
    (q_refl : ∀ fs, Q fs fs)
    (q_trans : ∀ a b c, Q a b → Q b c → Q a c)
    (pre_stable : ∀ d fs fs1, Pre d fs → Q fs fs1 → Pre d fs1)
    (pre_child : ∀ d fs i, Pre d fs → live fs i → (fs.files i).parent_dir = d →
      (fs.files i).is_directory ≠ 0 → Pre i fs)
    (step_file : ∀ d fs i, Pre d fs → live fs i → (fs.files i).parent_dir = d →
      (fs.files i).is_directory = 0 → Q fs (erase_entry (free_file_blocks fs i) i))
    (step_dir : ∀ d fs, Pre d fs → Q fs (erase_entry fs d)) :
    ∀ (fuel : Nat) (d : Int) (fs fs1 : FileSystem) (r : Outcome Int), Pre d fs →
      delete_directory_recursive fuel d fs = some (r, fs1) → Q fs fs1 := by
  intro fuel
  induction fuel with
  | zero => intro d fs fs1 r _ h; simp [delete_directory_recursive] at h
  | succ fuel ih =>
    have hloop : ∀ (d : Int) (k : Nat) (i : Int) (fs fs1 : FileSystem), Pre d fs →
        delete_children (delete_directory_recursive fuel) d k i fs = some fs1 → Q fs fs1 := by
      intro d k
      induction k with
      | zero =>
        intro i fs fs1 _ h
        simp only [delete_children, Option.some.injEq] at h
        rw [← h]; exact q_refl fs
      | succ k ihk =>
        intro i fs fs1 hpre h
        rw [delete_children] at h
        split_ifs at h with hc hdir
        · cases hrec : delete_directory_recursive fuel i fs with
          | none => rw [hrec] at h; simp at h
          | some res =>
            obtain ⟨r2, fs2⟩ := res
            rw [hrec] at h
            have hq := ih i fs fs2 r2 (pre_child d fs i hpre hc.1 hc.2 hdir) hrec
            exact q_trans _ _ _ hq (ihk (i + 1) fs2 fs1 (pre_stable d fs fs2 hpre hq) h)
        · have hq := step_file d fs i hpre hc.1 hc.2 (by simpa using hdir)
          exact q_trans _ _ _ hq (ihk (i + 1) _ fs1 (pre_stable d fs _ hpre hq) h)
        · exact ihk (i + 1) fs fs1 hpre h
    intro d fs fs1 r hpre h
    rw [delete_directory_recursive] at h
    split_ifs at h with hd
    · simp only [Option.some.injEq, Prod.mk.injEq] at h
      rw [← h.2]; exact q_refl fs
    · cases hch : delete_children (delete_directory_recursive fuel) d MAX_FILES 0 fs with
      | none => rw [hch] at h; simp at h
      | some fs2 =>
        rw [hch] at h
        simp only [Option.some.injEq, Prod.mk.injEq] at h
        have hq := hloop d MAX_FILES 0 fs fs2 hpre hch
        rw [← h.2]
        exact q_trans _ _ _ hq (step_dir d fs2 (pre_stable d fs fs2 hpre hq))

/-- A returning `delete_directory_recursive` leaves `current_dir` and the
block contents as they were. -/
theorem delete_directory_recursive_frame (fuel : Nat) (d : Int) (fs fs1 : FileSystem)
    (r : Outcome Int) (h : delete_directory_recursive fuel d fs = some (r, fs1)) :
    fs1.current_dir = fs.current_dir ∧ fs1.blocks = fs.blocks :=
  delete_directory_recursive_rule (fun _ _ => True)
    (fun a b => b.current_dir = a.current_dir ∧ b.blocks = a.blocks)
    (fun _ => ⟨rfl, rfl⟩)
    (fun _ _ _ h1 h2 => ⟨h2.1.trans h1.1, h2.2.trans h1.2⟩)
    (fun _ _ _ _ _ => trivial) (fun _ _ _ _ _ _ _ => trivial)
    (fun _ _ _ _ _ _ _ => ⟨rfl, rfl⟩) (fun _ _ _ => ⟨rfl, rfl⟩)
    fuel d fs fs1 r trivial h

/-- A successful `delete_directory_recursive(d)` ends by zeroing slot `d`. -/
theorem delete_directory_recursive_erases (fuel : Nat) (d : Int) (fs fs1 : FileSystem) (v : Int)
    (h : delete_directory_recursive fuel d fs = some (Outcome.ok v, fs1)) :
    v = 0 ∧ fs1.files d = zero_entry := by
  cases fuel with
  | zero => simp [delete_directory_recursive] at h
  | succ fuel =>
    rw [delete_directory_recursive] at h
    split_ifs at h with hd
    · simp at h
    · cases hch : delete_children (delete_directory_recursive fuel) d MAX_FILES 0 fs with
      | none => rw [hch] at h; simp at h
      | some fs2 =>
        rw [hch] at h
        simp only [Option.some.injEq, Prod.mk.injEq, Outcome.ok.injEq] at h
        refine ⟨h.1.symm, ?_⟩
        rw [← h.2]
        exact set_at_same _ _ _

/-- With the root in place `delete_directory_recursive(0)` finds the root
among the children of the root and recurses on it: no nesting depth is
enough. -/
theorem delete_directory_recursive_root_diverges (fs : FileSystem) (hroot : root_ok fs) :
    ∀ fuel, delete_directory_recursive fuel 0 fs = none := by
  intro fuel
  induction fuel with
  | zero => rfl
  | succ fuel ih =>
    obtain ⟨h1, h2, h3⟩ := hroot
    unfold live at h1
    rw [delete_directory_recursive, if_neg h2]
    have : delete_children (delete_directory_recursive fuel) 0 MAX_FILES 0 fs = none := by
      show delete_children (delete_directory_recursive fuel) 0 (99 + 1) 0 fs = none
      rw [delete_children, if_pos ⟨h1, h3⟩, if_pos h2, ih]
    rw [this]

/-- A returning `delete_directory_recursive` leaves the root entry alone. -/
theorem delete_directory_recursive_root (fuel : Nat) (d : Int) (fs fs1 : FileSystem)
    (r : Outcome Int) (hroot : root_ok fs)
    (h : delete_directory_recursive fuel d fs = some (r, fs1)) :
    fs1.files 0 = fs.files 0 := by
  have hd : d ≠ 0 := by
    rintro rfl
    rw [delete_directory_recursive_root_diverges fs hroot fuel] at h
    simp at h
  refine delete_directory_recursive_rule (fun d fs => root_ok fs ∧ d ≠ 0)
    (fun a b => b.files 0 = a.files 0)
    (fun _ => rfl) (fun _ _ _ h1 h2 => h2.trans h1)
    (fun d a b hp hq => ⟨?_, hp.2⟩) ?_ ?_ ?_ fuel d fs fs1 r ⟨hroot, hd⟩ h
  · unfold root_ok live at *
    rw [hq]; exact hp.1
  · rintro d a i ⟨hr, hd⟩ _ hpar _
    refine ⟨hr, ?_⟩
    rintro rfl
    exact hd (hpar.symm.trans hr.2.2)
  · rintro d a i ⟨hr, hd⟩ _ hpar _
    have hi : (0 : Int) ≠ i := by
      rintro rfl
      exact hd (hpar.symm.trans hr.2.2)
    exact set_at_other _ _ _ _ hi
  · rintro d a ⟨_, hd⟩
    exact set_at_other _ _ _ _ (Ne.symm hd)

/-! ## The root entry in reachable states -/

theorem create_file_root (filename : List Char) (kind t1 t2 : Int) (fs : FileSystem)
    (hroot : root_ok fs) : (create_file filename kind t1 t2 fs).2.files 0 = fs.files 0 := by
  simp only [create_file]
  split_ifs with h1 h2 h3
  · rfl
  · rfl
  · rfl
  · refine set_at_other _ _ _ _ ?_
    intro h0
    rcases find_free_slot_loop_spec fs MAX_FILES 0 (le_refl 0) with ⟨h4, _⟩ | ⟨_, _, h5, _⟩
    · exact h3 h4
    · rw [← h0] at h5
      exact hroot.1 h5

/-- Function `write_file` changes no entry but the one written. -/
theorem write_file_files_other (f : Int) (c : List Char) (now : Int) (fs : FileSystem) (j : Int)
    (hj : j ≠ f) : (write_file f c now fs).2.files j = fs.files j := by
  simp only [write_file]
  split_ifs
  · rfl
  · rfl
  · rw [release_old_blocks_files]
  · simp only [(write_blocks_files _ _ _ _ _ _ _).1, release_old_blocks_files]
    exact set_at_other _ _ _ _ hj

/-- Function `write_file` keeps the name, the kind and the parent of every entry. -/
theorem write_file_files_kind (f : Int) (c : List Char) (now : Int) (fs : FileSystem) (j : Int) :
    ((write_file f c now fs).2.files j).filename = (fs.files j).filename ∧
    ((write_file f c now fs).2.files j).is_directory = (fs.files j).is_directory ∧
    ((write_file f c now fs).2.files j).parent_dir = (fs.files j).parent_dir := by
  by_cases hj : j = f
  · subst hj
    simp only [write_file]
    split_ifs
    · exact ⟨rfl, rfl, rfl⟩
    · exact ⟨rfl, rfl, rfl⟩
    · rw [release_old_blocks_files]; exact ⟨rfl, rfl, rfl⟩
    · simp only [(write_blocks_files _ _ _ _ _ _ _).1, release_old_blocks_files, set_at_same]
      exact ⟨trivial, trivial, trivial⟩
  · rw [write_file_files_other f c now fs j hj]
    exact ⟨rfl, rfl, rfl⟩

theorem delete_file_root (f : Int) (fs : FileSystem) (hroot : root_ok fs) :
    (delete_file f fs).2.files 0 = fs.files 0 := by
  simp only [delete_file]
  split_ifs with h1 h2
  · rfl
  · rfl
  · refine set_at_other _ _ _ _ ?_
    rintro rfl
    exact hroot.2.1 (by simpa using h2)

theorem cd_command_files (arg1 : List Char) (fs : FileSystem) :
    (cd_command arg1 fs).2.files = fs.files := by
  simp only [cd_command]
  split_ifs <;> rfl

theorem root_ok_of_entry (fs fs1 : FileSystem) (h : fs1.files 0 = fs.files 0)
    (hroot : root_ok fs) : root_ok fs1 := by
  unfold root_ok live at *
  rw [h]; exact hroot

/-- In every reachable state slot 0 is the root: a live directory that is
its own parent. -/
theorem reachable_root_ok (fs : FileSystem) (h : Reachable fs) : root_ok fs := by
  induction h with
  | init t1 t2 => simp [root_ok, live, init_filesystem, set_at]
  | create fs filename kind t1 t2 _ _ ih =>
    exact root_ok_of_entry _ _ (create_file_root filename kind t1 t2 fs ih) ih
  | write fs f c now _ ih =>
    obtain ⟨h1, h2, h3⟩ := write_file_files_kind f c now fs 0
    unfold root_ok live at *
    rw [h1, h2, h3]; exact ih
  | delete fs f _ ih => exact root_ok_of_entry _ _ (delete_file_root f fs ih) ih
  | delete_dir fs fs1 fuel d r _ _ hdel ih =>
    exact root_ok_of_entry _ _ (delete_directory_recursive_root fuel d fs fs1 r ih hdel) ih
  | cd fs arg1 _ ih =>
    exact root_ok_of_entry _ _ (by rw [cd_command_files]) ih

/-- C6 as amended (deleting the root): in every reachable state the `delete`
command of `main` on index 0 fails with `CannotDeleteRoot` and changes
nothing; `delete_file(0)` fails too and changes nothing, its failure is
`IsADirectory`; `delete_directory_recursive(0)` has no root guard and does
not return: the root is found among its own children and the call recurses
on it at every nesting depth. -/
theorem root_delete_guard (fs : FileSystem) (h : Reachable fs) :
    (∀ fuel, delete_command fuel 0 fs = some (Outcome.fail Err.CannotDeleteRoot, fs)) ∧
    delete_file 0 fs = (Outcome.fail Err.IsADirectory, fs) ∧
    (∀ fuel, delete_directory_recursive fuel 0 fs = none) := by
  have hroot := reachable_root_ok fs h
  refine ⟨fun fuel => by simp [delete_command], ?_,
    delete_directory_recursive_root_diverges fs hroot⟩
  obtain ⟨h1, h2, _⟩ := hroot
  unfold live at h1
  simp only [delete_file]
  rw [if_neg, if_pos h2]
  rintro (h | h | h)
  · omega
  · simp [MAX_FILES] at h
  · exact h1 h

/-- Witness of `root_delete_guard`: the fresh state. -/
theorem root_delete_guard_witness :
    Reachable fresh_fs ∧ delete_file 0 fresh_fs = (Outcome.fail Err.IsADirectory, fresh_fs) :=
  ⟨Reachable.init 0 0, (root_delete_guard fresh_fs (Reachable.init 0 0)).2.1⟩

/-- Counterexample to C6 as stated: in the fresh state `delete_file(0)`
fails with `IsADirectory`, not `CannotDeleteRoot`, and
`delete_directory_recursive(0)` returns at no nesting depth. -/
theorem root_delete_counterexample :
    Reachable fresh_fs ∧
    (delete_file 0 fresh_fs).1 = Outcome.fail Err.IsADirectory ∧
    (delete_file 0 fresh_fs).1 ≠ Outcome.fail Err.CannotDeleteRoot ∧
    ∀ fuel, delete_directory_recursive fuel 0 fresh_fs = none :=
  ⟨Reachable.init 0 0, by decide, by decide,
    delete_directory_recursive_root_diverges fresh_fs (by decide)⟩

/-! ## The active directory -/

/-- A returning `delete` command leaves `current_dir` as it was. -/
theorem delete_command_current_dir (fuel : Nat) (index : Int) (fs fs1 : FileSystem)
    (r : Outcome Int) (h : delete_command fuel index fs = some (r, fs1)) :
    fs1.current_dir = fs.current_dir := by
  simp only [delete_command] at h
  split_ifs at h with h0 hd
  · simp only [Option.some.injEq, Prod.mk.injEq] at h
    rw [← h.2]
  · exact (delete_directory_recursive_frame fuel index fs fs1 r h).1
  · simp only [Option.some.injEq] at h
    have : fs1 = (delete_file index fs).2 := by rw [h]
    rw [this]
    simp only [delete_file]
    split_ifs <;> rfl

/-- What the code does on a `delete` of the active directory: the command
tests `index == 0` only and never assigns `current_dir`. In every state
whose `current_dir` is a non-root directory, a `delete` on index
`current_dir` that succeeds leaves `current_dir` equal to that index, and
the slot it names is then empty. -/
theorem delete_command_on_current_dir (fuel : Nat) (fs fs1 : FileSystem) (v : Int)
    (hcur : fs.current_dir ≠ 0) (hdir : (fs.files fs.current_dir).is_directory ≠ 0)
    (h : delete_command fuel fs.current_dir fs = some (Outcome.ok v, fs1)) :
    fs1.current_dir = fs.current_dir ∧ fs1.files fs1.current_dir = zero_entry ∧
    ¬ live fs1 fs1.current_dir := by
  have hc := delete_command_current_dir fuel fs.current_dir fs fs1 _ h
  simp only [delete_command, if_neg hcur, if_pos hdir] at h
  have he := (delete_directory_recursive_erases fuel fs.current_dir fs fs1 v h).2
  refine ⟨hc, by rw [hc]; exact he, ?_⟩
  unfold live
  rw [hc, he]
  simp [zero_entry]

/-- The `delete 1` command in `in_docs_fs`. -/
theorem delete_docs_eq :
    delete_command 1 in_docs_fs.current_dir in_docs_fs =
      some (Outcome.ok 0, erase_entry in_docs_fs 1) := by
  rfl

/-- Example of `delete_command_on_current_dir`: `delete 1` after `cd docs`. -/
theorem delete_command_on_current_dir_example :
    in_docs_fs.current_dir ≠ 0 ∧ (in_docs_fs.files in_docs_fs.current_dir).is_directory ≠ 0 ∧
    (erase_entry in_docs_fs 1).current_dir = in_docs_fs.current_dir :=
  ⟨by decide, by decide,
    (delete_command_on_current_dir 1 in_docs_fs (erase_entry in_docs_fs 1) 0 (by decide) (by decide)
      delete_docs_eq).1⟩

/-! ## Tree-shaped states -/

theorem live_zero_entry (fs : FileSystem) (x : Int) (h : fs.files x = zero_entry) :
    ¬ live fs x := by
  unfold live; rw [h]; simp [zero_entry]

theorem parent_iterate_root (fs : FileSystem) (hroot : root_ok fs) (k : Nat) :
    (parent_of fs)^[k] 0 = 0 := by
  induction k with
  | zero => rfl
  | succ k ih => rw [Function.iterate_succ_apply]; unfold parent_of; rw [hroot.2.2]; exact ih

theorem in_subtree_self (fs : FileSystem) (d : Int) (h1 : in_table d) (h2 : live fs d) :
    in_subtree fs d d := ⟨h1, h2, 0, rfl⟩

theorem in_subtree_child (fs : FileSystem) (d i : Int) (h1 : in_table i) (h2 : live fs i)
    (h3 : in_subtree fs d (parent_of fs i)) : in_subtree fs d i := by
  obtain ⟨_, _, k, hk⟩ := h3
  exact ⟨h1, h2, k + 1, by rw [Function.iterate_succ_apply]; exact hk⟩

theorem in_subtree_up (fs : FileSystem) (c d x : Int) (h : in_subtree fs c x)
    (hp : parent_of fs c = d) : in_subtree fs d x := by
  obtain ⟨h1, h2, k, hk⟩ := h
  exact ⟨h1, h2, k + 1, by rw [Function.iterate_succ_apply', hk]; exact hp⟩

theorem not_in_subtree_root (fs : FileSystem) (hroot : root_ok fs) (d : Int) (hd : d ≠ 0) :
    ¬ in_subtree fs d 0 := by
  rintro ⟨_, _, k, hk⟩
  rw [parent_iterate_root fs hroot k] at hk
  exact hd hk.symm

theorem rank_le_of_iterate (rank : Int → Nat) (B : Nat) (fs : FileSystem)
    (ht : ranked_tree rank B fs) (d : Int) (hd : d ≠ 0) :
    ∀ (k : Nat) (x : Int), in_table x → live fs x → (parent_of fs)^[k] x = d →
      rank d ≤ rank x := by
  intro k
  induction k with
  | zero => intro x _ _ h; simp at h; rw [h]
  | succ k ih =>
    intro x h1 h2 h
    rw [Function.iterate_succ_apply] at h
    have hx0 : x ≠ 0 := by
      rintro rfl
      have : parent_of fs 0 = 0 := ht.1.2.2
      rw [this, parent_iterate_root fs ht.1 k] at h
      exact hd h.symm
    obtain ⟨h3, h4, _, h6⟩ := ht.2.2 x h1 h2 hx0
    have := ih _ h3 h4 h
    omega

theorem rank_le_of_in_subtree (rank : Int → Nat) (B : Nat) (fs : FileSystem)
    (ht : ranked_tree rank B fs) (d x : Int) (hd : d ≠ 0) (h : in_subtree fs d x) :
    rank d ≤ rank x := by
  obtain ⟨h1, h2, k, hk⟩ := h
  exact rank_le_of_iterate rank B fs ht d hd k x h1 h2 hk

theorem chain_to_root_succ (fs : FileSystem) (k : Nat) (i : Int)
    (h : chain_to_root fs (k + 1) i = true) (hi : i ≠ 0) :
    in_table i ∧ live fs i ∧ (fs.files i).is_directory ≠ 0 ∧
      chain_to_root fs k (parent_of fs i) = true := by
  rw [chain_to_root] at h
  simp only [hi, decide_False, Bool.false_or, Bool.and_eq_true, decide_eq_true_eq] at h
  exact ⟨h.1.1.1, h.1.1.2, h.1.2, h.2⟩

theorem depth_from_root_stable (fs : FileSystem) :
    ∀ (k : Nat) (i : Int), chain_to_root fs k i = true →
      ∀ k1, k ≤ k1 → depth_from_root fs k1 i = depth_from_root fs k i := by
  intro k
  induction k with
  | zero =>
    intro i h k1 _
    simp only [chain_to_root, decide_eq_true_eq] at h
    subst h
    cases k1 <;> simp [depth_from_root]
  | succ k ih =>
    intro i h k1 hk
    obtain ⟨k2, rfl⟩ : ∃ k2, k1 = k2 + 1 := ⟨k1 - 1, by omega⟩
    by_cases hi : i = 0
    · subst hi; simp [depth_from_root]
    · have h2 := (chain_to_root_succ fs k i h hi).2.2.2
      rw [depth_from_root, depth_from_root, if_neg hi, if_neg hi, ih _ h2 k2 (by omega)]

theorem depth_from_root_le (fs : FileSystem) :
    ∀ (k : Nat) (i : Int), depth_from_root fs k i ≤ k := by
  intro k
  induction k with
  | zero => intro i; simp [depth_from_root]
  | succ k ih =>
    intro i
    simp only [depth_from_root]
    split_ifs
    · omega
    · have := ih (parent_of fs i); omega

/-- A tree-shaped state is ranked by the depth of its entries. -/
theorem ranked_tree_of_tree_shaped (fs : FileSystem) (h : tree_shaped fs) :
    ranked_tree (fun i => depth_from_root fs (MAX_FILES + 1) i) (MAX_FILES + 1) fs := by
  obtain ⟨hroot, hchain⟩ := h
  refine ⟨hroot, fun i => depth_from_root_le fs _ i, ?_⟩
  intro i hi hl hi0
  obtain ⟨n, rfl⟩ : ∃ n : Nat, i = (n : Int) := ⟨i.toNat, by unfold in_table at hi; omega⟩
  have hc := hchain n (by unfold in_table at hi; omega) hl (by omega)
  have hstab := depth_from_root_stable fs MAX_FILES _ hc (MAX_FILES + 1) (by omega)
  have hrank : depth_from_root fs (MAX_FILES + 1) (n : Int) =
      depth_from_root fs MAX_FILES (parent_of fs n) + 1 := by
    rw [depth_from_root, if_neg hi0]
  have hlt : depth_from_root fs (MAX_FILES + 1) (parent_of fs n) <
      depth_from_root fs (MAX_FILES + 1) (n : Int) := by
    rw [hrank, hstab]; omega
  by_cases hp : parent_of fs n = 0
  · rw [hp] at hlt ⊢
    exact ⟨by decide, hroot.1, hroot.2.1, hlt⟩
  · have hc2 := chain_to_root_succ fs 99 (parent_of fs n) hc hp
    exact ⟨hc2.1, hc2.2.1, hc2.2.2.1, hlt⟩

theorem ranked_tree_after_erase (rank : Int → Nat) (B : Nat) (fs fs1 : FileSystem) (c : Int)
    (ht : ranked_tree rank B fs) (hc : c ≠ 0) (he : subtree_erased fs c fs1) :
    ranked_tree rank B fs1 := by
  obtain ⟨hroot, hB, htree⟩ := ht
  obtain ⟨p1, p2, p3⟩ := he
  have hsame : ∀ x, ¬ in_subtree fs c x → fs1.files x = fs.files x := by
    intro x hx
    by_contra hne
    exact hx (p2 x hne)
  have hlive : ∀ x, live fs1 x → fs1.files x = fs.files x ∧ ¬ in_subtree fs c x := by
    intro x hx
    have hnot : ¬ in_subtree fs c x := fun hin => live_zero_entry fs1 x (p3 x hin) hx
    exact ⟨hsame x hnot, hnot⟩
  refine ⟨root_ok_of_entry fs fs1 (hsame 0 (not_in_subtree_root fs hroot c hc)) hroot, hB, ?_⟩
  intro x hx hl hx0
  obtain ⟨hxe, hxn⟩ := hlive x hl
  have hlx : live fs x := by unfold live at hl ⊢; rw [← hxe]; exact hl
  obtain ⟨h1, h2, h3, h4⟩ := htree x hx hlx hx0
  have hpar : parent_of fs1 x = parent_of fs x := by unfold parent_of; rw [hxe]
  have hpe : fs1.files (parent_of fs x) = fs.files (parent_of fs x) :=
    hsame _ (fun hin => hxn (in_subtree_child fs c x hx hlx hin))
  rw [hpar]
  unfold live at h2 ⊢
  rw [hpe]
  exact ⟨h1, h2, h3, h4⟩

theorem ranked_tree_after_file (rank : Int → Nat) (B : Nat) (fs : FileSystem) (i : Int)
    (ht : ranked_tree rank B fs) (hf : (fs.files i).is_directory = 0) :
    ranked_tree rank B (erase_entry (free_file_blocks fs i) i) := by
  obtain ⟨hroot, hB, htree⟩ := ht
  have hfiles : (erase_entry (free_file_blocks fs i) i).files = set_at fs.files i zero_entry := rfl
  have hi0 : (0 : Int) ≠ i := by
    rintro rfl
    exact hroot.2.1 hf
  refine ⟨root_ok_of_entry fs _ (by rw [hfiles]; exact set_at_other _ _ _ _ hi0) hroot, hB, ?_⟩
  intro x hx hl hx0
  have hxi : x ≠ i := by
    rintro rfl
    exact live_zero_entry _ _ (by rw [hfiles]; exact set_at_same _ _ _) hl
  have hxe : (erase_entry (free_file_blocks fs i) i).files x = fs.files x := by
    rw [hfiles]; exact set_at_other _ _ _ _ hxi
  have hlx : live fs x := by unfold live at hl ⊢; rw [← hxe]; exact hl
  obtain ⟨h1, h2, h3, h4⟩ := htree x hx hlx hx0
  have hpi : parent_of fs x ≠ i := by
    intro h
    rw [h] at h3
    exact h3 hf
  have hpar : parent_of (erase_entry (free_file_blocks fs i) i) x = parent_of fs x := by
    unfold parent_of; rw [hxe]
  have hpe : (erase_entry (free_file_blocks fs i) i).files (parent_of fs x) =
      fs.files (parent_of fs x) := by
    rw [hfiles]; exact set_at_other _ _ _ _ hpi
  rw [hpar]
  unfold live at h2 ⊢
  rw [hpe]
  exact ⟨h1, h2, h3, h4⟩

/-- A parent chain of a state in which entries were only erased is a parent
chain of the state before. -/
theorem iterate_of_erased (rank : Int → Nat) (B : Nat) (fs fs1 : FileSystem) (c : Int)
    (ht : ranked_tree rank B fs1) (hc : c ≠ 0)
    (hkeep : ∀ x, fs1.files x = fs.files x ∨ fs1.files x = zero_entry) :
    ∀ (k : Nat) (x : Int), in_table x → live fs1 x → (parent_of fs1)^[k] x = c →
      (parent_of fs)^[k] x = c := by
  intro k
  induction k with
  | zero => intro x _ _ h; exact h
  | succ k ih =>
    intro x hx hl h
    rw [Function.iterate_succ_apply] at h ⊢
    have hx0 : x ≠ 0 := by
      rintro rfl
      have : parent_of fs1 0 = 0 := ht.1.2.2
      rw [this, parent_iterate_root fs1 ht.1 k] at h
      exact hc h.symm
    have hxe : fs1.files x = fs.files x := by
      rcases hkeep x with h1 | h1
      · exact h1
      · exact absurd hl (live_zero_entry fs1 x h1)
    have hpar : parent_of fs1 x = parent_of fs x := by unfold parent_of; rw [hxe]
    obtain ⟨h1, h2, _, _⟩ := ht.2.2 x hx hl hx0
    rw [← hpar]
    exact ih _ h1 h2 h

theorem in_subtree_of_erased (rank : Int → Nat) (B : Nat) (fs fs1 : FileSystem) (c x : Int)
    (ht : ranked_tree rank B fs1) (hc : c ≠ 0)
    (hkeep : ∀ x, fs1.files x = fs.files x ∨ fs1.files x = zero_entry)
    (h : in_subtree fs1 c x) : in_subtree fs c x := by
  obtain ⟨h1, h2, k, hk⟩ := h
  refine ⟨h1, ?_, k, iterate_of_erased rank B fs fs1 c ht hc hkeep k x h1 h2 hk⟩
  rcases hkeep x with h3 | h3
  · unfold live at h2 ⊢; rw [← h3]; exact h2
  · exact absurd h2 (live_zero_entry fs1 x h3)

/-- The loop of `delete_directory_recursive(d)` on a tree: given that the
recursive calls erase the subtrees of the children, the loop ends, and then
no live entry has parent `d`. `fs0` is the state at the start of the loop. -/
theorem delete_children_tree (rank : Int → Nat) (B fuel : Nat)
    (ih : ∀ (d : Int) (fs : FileSystem), ranked_tree rank B fs → in_table d → d ≠ 0 →
      live fs d → (fs.files d).is_directory ≠ 0 → B < rank d + fuel →
      ∃ fs1, delete_directory_recursive fuel d fs = some (Outcome.ok 0, fs1) ∧
        subtree_erased fs d fs1)
    (fs0 : FileSystem) (d : Int) (hd0 : d ≠ 0) (hB : B < rank d + (fuel + 1)) :
    ∀ (k : Nat) (i : Int) (fs : FileSystem), 0 ≤ i → i + k = (MAX_FILES : Int) →
      ranked_tree rank B fs →
      (∀ x, fs.files x = fs0.files x ∨ fs.files x = zero_entry) →
      (∀ x, fs.files x ≠ fs0.files x → in_subtree fs0 d x ∧ x ≠ d) →
      (∀ c, 0 ≤ c → c < i → ¬ (live fs c ∧ parent_of fs c = d)) →
      ∃ fs1, delete_children (delete_directory_recursive fuel) d k i fs = some fs1 ∧
        ranked_tree rank B fs1 ∧
        (∀ x, fs1.files x = fs0.files x ∨ fs1.files x = zero_entry) ∧
        (∀ x, fs1.files x ≠ fs0.files x → in_subtree fs0 d x ∧ x ≠ d) ∧
        (∀ c, 0 ≤ c → c < (MAX_FILES : Int) → ¬ (live fs1 c ∧ parent_of fs1 c = d)) := by
  intro k
  induction k with
  | zero =>
    intro i fs hi hik ht hkeep hchg hdone
    refine ⟨fs, rfl, ht, hkeep, hchg, ?_⟩
    intro c h1 h2
    exact hdone c h1 (by simp at hik; omega)
  | succ k ihk =>
    intro i fs hi hik ht hkeep hchg hdone
    have hit : in_table i := ⟨hi, by push_cast at hik; omega⟩
    rw [delete_children]
    by_cases hc : (fs.files i).filename ≠ [] ∧ (fs.files i).parent_dir = d
    · rw [if_pos hc]
      have hl : live fs i := hc.1
      have hpar : parent_of fs i = d := hc.2
      have hie : fs.files i = fs0.files i := by
        rcases hkeep i with h1 | h1
        · exact h1
        · exact absurd hl (live_zero_entry fs i h1)
      have hl0 : live fs0 i := by unfold live at hl ⊢; rw [← hie]; exact hl
      have hpar0 : parent_of fs0 i = d := by unfold parent_of at hpar ⊢; rw [← hie]; exact hpar
      have hi0 : i ≠ 0 := by
        rintro rfl
        exact hd0 (hpar.symm.trans ht.1.2.2)
      have hrank : rank d < rank i := by
        have := (ht.2.2 i hit hl hi0).2.2.2
        rw [hpar] at this; exact this
      have hsub0 : in_subtree fs0 d i := ⟨hit, hl0, 1, hpar0⟩
      have hid : i ≠ d := by rintro rfl; omega
      by_cases hdir : (fs.files i).is_directory ≠ 0
      · rw [if_pos hdir]
        obtain ⟨fs2, hrec, he⟩ := ih i fs ht hit hi0 hl hdir (by omega)
        rw [hrec]
        have ht2 := ranked_tree_after_erase rank B fs fs2 i ht hi0 he
        obtain ⟨p1, p2, p3⟩ := he
        refine ihk (i + 1) fs2 (by omega) (by push_cast at hik ⊢; omega) ht2 ?_ ?_ ?_
        · intro x
          rcases p1 x with h1 | h1
          · rw [h1]; exact hkeep x
          · exact Or.inr h1
        · intro x hx
          by_cases hx2 : fs.files x = fs0.files x
          · have hin := p2 x (by rw [hx2]; exact hx)
            have hin0 := in_subtree_of_erased rank B fs0 fs i x ht hi0 hkeep hin
            have hr := rank_le_of_in_subtree rank B fs ht i x hi0 hin
            exact ⟨in_subtree_up fs0 i d x hin0 hpar0, by rintro rfl; omega⟩
          · exact hchg x hx2
        · intro c h1 h2 hcon
          by_cases hci : c = i
          · subst hci
            exact live_zero_entry fs2 c (p3 c (in_subtree_self fs c hit hl)) hcon.1
          · rcases p1 c with h3 | h3
            · apply hdone c h1 (by omega)
              unfold live parent_of at hcon ⊢
              rw [← h3]; exact hcon
            · exact live_zero_entry fs2 c h3 hcon.1
      · rw [if_neg hdir]
        have hfile : (fs.files i).is_directory = 0 := by simpa using hdir
        have hfiles : (erase_entry (free_file_blocks fs i) i).files =
            set_at fs.files i zero_entry := rfl
        refine ihk (i + 1) _ (by omega) (by push_cast at hik ⊢; omega)
          (ranked_tree_after_file rank B fs i ht hfile) ?_ ?_ ?_
        · intro x
          rw [hfiles]
          by_cases hxi : x = i
          · subst hxi; exact Or.inr (set_at_same _ _ _)
          · rw [set_at_other _ _ _ _ hxi]; exact hkeep x
        · intro x hx
          rw [hfiles] at hx
          by_cases hxi : x = i
          · subst hxi; exact ⟨hsub0, hid⟩
          · rw [set_at_other _ _ _ _ hxi] at hx; exact hchg x hx
        · intro c h1 h2 hcon
          by_cases hci : c = i
          · subst hci
            exact live_zero_entry _ c (by rw [hfiles]; exact set_at_same _ _ _) hcon.1
          · apply hdone c h1 (by omega)
            unfold live parent_of at hcon ⊢
            rw [hfiles, set_at_other _ _ _ _ hci] at hcon
            exact hcon
    · rw [if_neg hc]
      refine ihk (i + 1) fs (by omega) (by push_cast at hik ⊢; omega) ht hkeep hchg ?_
      intro c h1 h2 hcon
      by_cases hci : c = i
      · subst hci; exact hc hcon
      · exact hdone c h1 (by omega) hcon

/-- On a tree, `delete_directory_recursive(d)` for a live non-root directory
`d` returns 0 once the nesting depth allowed covers the ranks above `d`,
and erases exactly the subtree of `d`. -/
theorem delete_directory_recursive_tree (rank : Int → Nat) (B : Nat) :
    ∀ (fuel : Nat) (d : Int) (fs : FileSystem), ranked_tree rank B fs → in_table d → d ≠ 0 →
      live fs d → (fs.files d).is_directory ≠ 0 → B < rank d + fuel →
      ∃ fs1, delete_directory_recursive fuel d fs = some (Outcome.ok 0, fs1) ∧
        subtree_erased fs d fs1 := by
  intro fuel
  induction fuel with
  | zero =>
    intro d fs ht _ _ _ _ hB
    have := ht.2.1 d
    omega
  | succ fuel ih =>
    intro d fs ht hd hd0 hl hdir hB
    obtain ⟨fs1, hloop, ht1, hkeep, hchg, hdone⟩ :=
      delete_children_tree rank B fuel ih fs d hd0 hB MAX_FILES 0 fs (le_refl 0) (by simp) ht
        (fun x => Or.inl rfl) (fun x hx => absurd rfl hx) (fun c h1 h2 => by omega)
    refine ⟨erase_entry fs1 d, ?_, ?_, ?_, ?_⟩
    · rw [delete_directory_recursive, if_neg hdir, hloop]
    · intro x
      show set_at fs1.files d zero_entry x = _ ∨ set_at fs1.files d zero_entry x = _
      by_cases hxd : x = d
      · subst hxd; exact Or.inr (set_at_same _ _ _)
      · rw [set_at_other _ _ _ _ hxd]; exact hkeep x
    · intro x hx
      by_cases hxd : x = d
      · subst hxd; exact in_subtree_self fs x hd hl
      · have : set_at fs1.files d zero_entry x ≠ fs.files x := hx
        rw [set_at_other _ _ _ _ hxd] at this
        exact (hchg x this).1
    · intro x hx
      show set_at fs1.files d zero_entry x = zero_entry
      by_cases hxd : x = d
      · subst hxd; exact set_at_same _ _ _
      · rw [set_at_other _ _ _ _ hxd]
        rcases hkeep x with h1 | h1
        · exfalso
          obtain ⟨hxt, hxl, k, hk⟩ := hx
          have hxl1 : live fs1 x := by unfold live at hxl ⊢; rw [h1]; exact hxl
          have key : ∀ (k : Nat) (y : Int), in_table y → live fs1 y →
              (parent_of fs)^[k + 1] y = d → False := by
            intro k
            induction k with
            | zero =>
              intro y hy hly h
              have hye : fs1.files y = fs.files y := by
                rcases hkeep y with h2 | h2
                · exact h2
                · exact absurd hly (live_zero_entry fs1 y h2)
              refine hdone y hy.1 hy.2 ⟨hly, ?_⟩
              simp only [Function.iterate_succ, Function.iterate_zero, Function.comp_apply,
                id_eq] at h
              unfold parent_of at h ⊢
              rw [hye]; exact h
            | succ k ihk =>
              intro y hy hly h
              rw [Function.iterate_succ_apply] at h
              have hye : fs1.files y = fs.files y := by
                rcases hkeep y with h2 | h2
                · exact h2
                · exact absurd hly (live_zero_entry fs1 y h2)
              have hpar : parent_of fs1 y = parent_of fs y := by unfold parent_of; rw [hye]
              have hy0 : y ≠ 0 := by
                rintro rfl
                have : parent_of fs 0 = 0 := ht.1.2.2
                rw [this, parent_iterate_root fs ht.1 (k + 1)] at h
                exact hd0 h.symm
              obtain ⟨h3, h4, _, _⟩ := ht1.2.2 y hy hly hy0
              rw [hpar] at h3 h4
              exact ihk _ h3 h4 h
          cases k with
          | zero => exact hxd hk
          | succ k => exact key k x hxt hxl1 hk
        · exact h1

/-- A call that returns with some nesting depth returns the same with a
deeper one. -/
theorem delete_directory_recursive_fuel_succ :
    ∀ (fuel : Nat) (d : Int) (fs : FileSystem) (res : Outcome Int × FileSystem),
      delete_directory_recursive fuel d fs = some res →
      delete_directory_recursive (fuel + 1) d fs = some res := by
  intro fuel
  induction fuel with
  | zero => intro d fs res h; simp [delete_directory_recursive] at h
  | succ fuel ih =>
    have hloop : ∀ (d : Int) (k : Nat) (i : Int) (fs fs1 : FileSystem),
        delete_children (delete_directory_recursive fuel) d k i fs = some fs1 →
        delete_children (delete_directory_recursive (fuel + 1)) d k i fs = some fs1 := by
      intro d k
      induction k with
      | zero => intro i fs fs1 h; exact h
      | succ k ihk =>
        intro i fs fs1 h
        rw [delete_children] at h ⊢
        split_ifs at h ⊢ with hc hdir
        · cases hrec : delete_directory_recursive fuel i fs with
          | none => rw [hrec] at h; simp at h
          | some res =>
            rw [hrec] at h
            rw [ih i fs res hrec]
            exact ihk _ _ _ h
        · exact ihk _ _ _ h
        · exact ihk _ _ _ h
    intro d fs res h
    rw [delete_directory_recursive] at h ⊢
    split_ifs at h ⊢ with hd
    · exact h
    · cases hch : delete_children (delete_directory_recursive fuel) d MAX_FILES 0 fs with
      | none => rw [hch] at h; simp at h
      | some fs2 =>
        rw [hch] at h
        rw [hloop d MAX_FILES 0 fs fs2 hch]
        exact h

theorem delete_directory_recursive_fuel_add (fuel : Nat) (d : Int) (fs : FileSystem)
    (res : Outcome Int × FileSystem) (h : delete_directory_recursive fuel d fs = some res) :
    ∀ n, delete_directory_recursive (fuel + n) d fs = some res := by
  intro n
  induction n with
  | zero => exact h
  | succ n ih => exact delete_directory_recursive_fuel_succ _ d fs res ih

/-- The result of a returning call does not depend on the nesting depth
allowed. -/
theorem delete_directory_recursive_fuel_unique (fuel1 fuel2 : Nat) (d : Int) (fs : FileSystem)
    (res1 res2 : Outcome Int × FileSystem)
    (h1 : delete_directory_recursive fuel1 d fs = some res1)
    (h2 : delete_directory_recursive fuel2 d fs = some res2) : res1 = res2 := by
  have e1 := delete_directory_recursive_fuel_add fuel1 d fs res1 h1 fuel2
  have e2 := delete_directory_recursive_fuel_add fuel2 d fs res2 h2 fuel1
  rw [Nat.add_comm] at e2
  rw [e1] at e2
  simpa using e2

/-- A returning `delete_directory_recursive` marks the blocks of every file
entry it zeroes free and sets no marker to used. -/
theorem delete_directory_recursive_blocks (fuel : Nat) (d : Int) (fs fs1 : FileSystem)
    (r : Outcome Int) (h : delete_directory_recursive fuel d fs = some (r, fs1)) :
    erased_blocks_freed fs fs1 := by
  have hrefl : ∀ a, erased_blocks_freed a a :=
    fun a => ⟨fun _ => Or.inl rfl, fun _ => Or.inl rfl, fun x hx => absurd rfl hx⟩
  by_cases hdir : (fs.files d).is_directory = 0
  · cases fuel with
    | zero => simp [delete_directory_recursive] at h
    | succ fuel =>
      rw [delete_directory_recursive, if_pos hdir] at h
      simp only [Option.some.injEq, Prod.mk.injEq] at h
      rw [← h.2]; exact hrefl fs
  · refine delete_directory_recursive_rule
      (fun d fs => fs.files d = zero_entry ∨ (fs.files d).is_directory ≠ 0)
      erased_blocks_freed hrefl ?_ ?_ ?_ ?_ ?_ fuel d fs fs1 r (Or.inr hdir) h
    · rintro a b c ⟨k1, m1, f1⟩ ⟨k2, m2, f2⟩
      refine ⟨?_, ?_, ?_⟩
      · intro x
        rcases k2 x with h2 | h2
        · rw [h2]; exact k1 x
        · exact Or.inr h2
      · intro x
        rcases m2 x with h2 | h2
        · rw [h2]; exact m1 x
        · exact Or.inr h2
      · intro x hx hfile j hj0 hj1
        by_cases hab : b.files x = a.files x
        · have := f2 x (by rw [hab]; exact hx) (by rw [hab]; exact hfile) j hj0
            (by rw [hab]; exact hj1)
          rw [hab] at this; exact this
        · have h3 := f1 x hab hfile j hj0 hj1
          rcases m2 ((a.files x).start_block + j) with h2 | h2
          · rw [h2]; exact h3
          · exact h2
    · rintro d a b hp ⟨k1, _, _⟩
      rcases k1 d with h1 | h1
      · rw [h1]; exact hp
      · exact Or.inl h1
    · intro d a i _ _ _ hdir2
      exact Or.inr hdir2
    · intro d a i _ _ _ hfile
      have hfiles : (erase_entry (free_file_blocks a i) i).files = set_at a.files i zero_entry :=
        rfl
      have hfree : ∀ b, (erase_entry (free_file_blocks a i) i).free_blocks b =
          if (a.files i).start_block + 0 ≤ b ∧
            b < (a.files i).start_block + 0 + ((a.files i).num_blocks.toNat : Int)
          then 1 else a.free_blocks b := fun b => free_range_apply _ _ _ _ b
      refine ⟨?_, ?_, ?_⟩
      · intro x
        rw [hfiles]
        by_cases hxi : x = i
        · subst hxi; exact Or.inr (set_at_same _ _ _)
        · exact Or.inl (set_at_other _ _ _ _ hxi)
      · intro b
        rw [hfree]
        split_ifs
        · exact Or.inr rfl
        · exact Or.inl rfl
      · intro x hx _ j hj0 hj1
        have hxi : x = i := by
          by_contra hxi
          rw [hfiles, set_at_other _ _ _ _ hxi] at hx
          exact hx rfl
        subst hxi
        rw [hfree, if_pos]
        omega
    · intro d a hp
      have hfiles : (erase_entry a d).files = set_at a.files d zero_entry := rfl
      refine ⟨?_, fun _ => Or.inl rfl, ?_⟩
      · intro x
        rw [hfiles]
        by_cases hxd : x = d
        · subst hxd; exact Or.inr (set_at_same _ _ _)
        · exact Or.inl (set_at_other _ _ _ _ hxd)
      · intro x hx hfile
        have hxd : x = d := by
          by_contra hxd
          rw [hfiles, set_at_other _ _ _ _ hxd] at hx
          exact hx rfl
        subst hxd
        rcases hp with h1 | h1
        · rw [hfiles, set_at_same] at hx
          exact absurd h1.symm hx
        · exact absurd hfile h1

/-- C4 (recursive delete completeness): in a state with tree-shaped parent
links, for a live directory `d` other than the root,
`delete_directory_recursive(d)` returns 0, and after it has returned: slot
`d` and the slot of every former descendant of `d` are empty; no live entry
has `d` or a former descendant of `d` on its parent chain; every block of
the range of a file of the subtree is marked free; every entry outside the
subtree is unchanged. -/
theorem recursive_delete_completeness (fs : FileSystem) (d : Int) (hwf : tree_shaped fs)
    (hd : in_table d) (hd0 : d ≠ 0) (hl : live fs d) (hdir : (fs.files d).is_directory ≠ 0) :
    (∃ fuel fs1, delete_directory_recursive fuel d fs = some (Outcome.ok 0, fs1)) ∧
    ∀ fuel r fs1, delete_directory_recursive fuel d fs = some (r, fs1) →
      r = Outcome.ok 0 ∧
      (∀ x, in_subtree fs d x → fs1.files x = zero_entry) ∧
      (∀ y, in_table y → live fs1 y → ∀ x, in_subtree fs d x →
        ∀ k : Nat, (parent_of fs1)^[k] y ≠ x) ∧
      (∀ x, in_subtree fs d x → (fs.files x).is_directory = 0 →
        ∀ j, 0 ≤ j → j < (fs.files x).num_blocks →
          fs1.free_blocks ((fs.files x).start_block + j) = 1) ∧
      (∀ x, ¬ in_subtree fs d x → fs1.files x = fs.files x) := by
  have ht := ranked_tree_of_tree_shaped fs hwf
  obtain ⟨fs2, hrun, herased⟩ := delete_directory_recursive_tree _ _ (MAX_FILES + 1 + 1) d fs ht
    hd hd0 hl hdir (by omega)
  refine ⟨⟨_, fs2, hrun⟩, ?_⟩
  intro fuel r fs1 h
  have heq := delete_directory_recursive_fuel_unique _ _ d fs _ _ h hrun
  simp only [Prod.mk.injEq] at heq
  obtain ⟨hr, hfs⟩ := heq
  subst hfs
  have ht1 := ranked_tree_after_erase _ _ fs fs1 d ht hd0 herased
  obtain ⟨p1, p2, p3⟩ := herased
  obtain ⟨_, _, hfreed⟩ := delete_directory_recursive_blocks fuel d fs fs1 r h
  refine ⟨hr, p3, ?_, ?_, ?_⟩
  · intro y hy hly x hx k
    induction k generalizing y with
    | zero =>
      intro hyx
      simp only [Function.iterate_zero, id_eq] at hyx
      subst hyx
      exact live_zero_entry fs1 y (p3 y hx) hly
    | succ k ihk =>
      rw [Function.iterate_succ_apply]
      by_cases hy0 : y = 0
      · subst hy0
        have : parent_of fs1 0 = 0 := ht1.1.2.2
        rw [this, parent_iterate_root fs1 ht1.1 k]
        rintro rfl
        exact not_in_subtree_root fs ht.1 d hd0 hx
      · obtain ⟨h3, h4, _, _⟩ := ht1.2.2 y hy hly hy0
        exact ihk _ h3 h4
  · intro x hx hfile j hj0 hj1
    refine hfreed x ?_ hfile j hj0 hj1
    rw [p3 x hx]
    intro hz
    exact live_zero_entry fs x hz.symm hx.2.1
  · intro x hx
    by_contra hne
    exact hx (p2 x hne)

set_option maxRecDepth 100000 in
theorem tree_shaped_docs_tree_fs : tree_shaped docs_tree_fs := by decide

/-- Witness of `recursive_delete_completeness`: `delete 1` in
`docs_tree_fs`, where directory 1 holds file 2. -/
theorem recursive_delete_completeness_witness :
    tree_shaped docs_tree_fs ∧ in_table 1 ∧ live docs_tree_fs 1 ∧
    (docs_tree_fs.files 1).is_directory ≠ 0 ∧
    ∃ fuel fs1, delete_directory_recursive fuel 1 docs_tree_fs = some (Outcome.ok 0, fs1) :=
  ⟨tree_shaped_docs_tree_fs, by decide, by decide, by decide,
    (recursive_delete_completeness docs_tree_fs 1 tree_shaped_docs_tree_fs (by decide)
      (by decide) (by decide) (by decide)).1⟩

/-! ## First-fit allocation -/

/-- C7 (first-fit allocation): for every free map and every `n ≥ 1`, the
scan of `write_file` succeeds (does not end with `consecutive_blocks < n`)
iff some `s` with `s + n ≤ MAX_BLOCKS` has blocks `s .. s+n-1` all free; on
success `start_block` is the smallest such `s`. Inside `write_file`, on a
live file and with the old range of the file freed first, the call fails
with `OutOfSpace` iff no such run exists for `n = blocks_needed`, and
otherwise the entry gets the `start_block` the scan chose. A map can hold
`n` or more free blocks and still make the scan fail: `fragmented_map` has
500 free blocks and no run of 2. -/
theorem first_fit_allocation (fb : Int → Int) (n : Int) (hn : 1 ≤ n) :
    ((¬ (find_contiguous fb n MAX_BLOCKS 0 (-1) 0).2 < n) ↔
      ∃ s, 0 ≤ s ∧ s + n ≤ (MAX_BLOCKS : Int) ∧ free_run fb s n) ∧
    ((¬ (find_contiguous fb n MAX_BLOCKS 0 (-1) 0).2 < n) →
      0 ≤ (find_contiguous fb n MAX_BLOCKS 0 (-1) 0).1 ∧
      (find_contiguous fb n MAX_BLOCKS 0 (-1) 0).1 + n ≤ (MAX_BLOCKS : Int) ∧
      free_run fb (find_contiguous fb n MAX_BLOCKS 0 (-1) 0).1 n ∧
      ∀ s, 0 ≤ s → s + n ≤ (MAX_BLOCKS : Int) → free_run fb s n →
        (find_contiguous fb n MAX_BLOCKS 0 (-1) 0).1 ≤ s) ∧
    (∀ (fs : FileSystem) (f : Int) (c : List Char) (now : Int),
      in_table f → live fs f → (fs.files f).is_directory = 0 →
      ((write_file f c now fs).1 = Outcome.fail Err.OutOfSpace ↔
        ¬ ∃ s, 0 ≤ s ∧ s + blocks_needed c ≤ (MAX_BLOCKS : Int) ∧
          free_run (release_old_blocks fs f).free_blocks s (blocks_needed c)) ∧
      ((write_file f c now fs).1 ≠ Outcome.fail Err.OutOfSpace →
        (write_file f c now fs).1 = Outcome.ok 0 ∧
        ((write_file f c now fs).2.files f).start_block =
          (find_contiguous (release_old_blocks fs f).free_blocks (blocks_needed c)
            MAX_BLOCKS 0 (-1) 0).1)) ∧
    (2 ≤ count_free fragmented_map ∧
      (find_contiguous fragmented_map 2 MAX_BLOCKS 0 (-1) 0).2 < 2) := by
  refine ⟨⟨?_, ?_⟩, ?_, ?_, ?_⟩
  · intro h
    rcases find_contiguous_spec fb n hn with ⟨_, h0, hle, hrun, _⟩ | ⟨hlt, _⟩
    · exact ⟨_, h0, hle, hrun⟩
    · exact absurd hlt h
  · rintro ⟨s, hs0, hsn, hrun⟩ hlt
    rcases find_contiguous_spec fb n hn with ⟨heq, _⟩ | ⟨_, hno⟩
    · omega
    · exact hno s hs0 hsn hrun
  · intro h
    rcases find_contiguous_spec fb n hn with ⟨_, h0, hle, hrun, hmin⟩ | ⟨hlt, _⟩
    · refine ⟨h0, hle, hrun, ?_⟩
      intro s hs0 _ hs
      by_contra hcon
      exact hmin s hs0 (by omega) hs
    · exact absurd hlt h
  · intro fs f c now hf hl hd
    rcases find_contiguous_spec (release_old_blocks fs f).free_blocks (blocks_needed c)
      (blocks_needed_bounds c).1 with ⟨heq, h0, hle, hrun, _⟩ | ⟨hlt, hno⟩
    · have hw := write_file_success fs f c now hf hl hd (by omega)
      rw [hw]
      refine ⟨⟨fun h => by simp at h, fun h => absurd ⟨_, h0, hle, hrun⟩ h⟩, fun _ => ⟨rfl, ?_⟩⟩
      simp only [set_at_same]
    · have hw := write_file_no_space fs f c now hf hl hd hlt
      rw [hw]
      exact ⟨⟨fun _ ⟨s, hs0, hsn, hrun⟩ => hno s hs0 hsn hrun, fun _ => rfl⟩,
        fun h => absurd rfl h⟩
  · refine ⟨by rw [count_free_fragmented_map]; omega, ?_⟩
    rcases find_contiguous_spec fragmented_map 2 (by omega) with ⟨_, h0, _, hrun, _⟩ | ⟨hlt, _⟩
    · exfalso
      have h1 := hrun _ (le_refl _) (by omega)
      have h2 := hrun ((find_contiguous fragmented_map 2 MAX_BLOCKS 0 (-1) 0).1 + 1)
        (by omega) (by omega)
      simp only [fragmented_map] at h1 h2
      split_ifs at h1 h2 <;> omega
    · exact hlt

/-- Witness of `first_fit_allocation`: the all-free map and `n = 1`. -/
theorem first_fit_allocation_witness :
    (1 : Int) ≤ 1 ∧
    ((¬ (find_contiguous (fun _ => 1) 1 MAX_BLOCKS 0 (-1) 0).2 < 1) ↔
      ∃ s, 0 ≤ s ∧ s + 1 ≤ (MAX_BLOCKS : Int) ∧ free_run (fun _ => 1) s 1) :=
  ⟨le_refl 1, (first_fit_allocation (fun _ => 1) 1 (le_refl 1)).1⟩

/-! ## Case analysis of the operations -/

/-- The entry `create_file` installs. -/
theorem create_file_ok_eq (filename : List Char) (kind t1 t2 : Int) (fs : FileSystem)
    (slot : Int) (h : (create_file filename kind t1 t2 fs).1 = Outcome.ok slot) :
    in_table slot ∧ (fs.files slot).filename = [] ∧
    (∀ j, 0 ≤ j → j < slot → (fs.files j).filename ≠ []) ∧
    fs.num_files < (MAX_FILES : Int) ∧ find_file_in_dir fs filename fs.current_dir = -1 ∧
    (create_file filename kind t1 t2 fs).2 =
      { fs with
        files := set_at fs.files slot
          { filename := strncpy_name filename, size := 0, created := t1, modified := t2,
            start_block := -1, num_blocks := 0, is_directory := kind,
            parent_dir := fs.current_dir }
        num_files := fs.num_files + 1 } := by
  simp only [create_file] at h ⊢
  split_ifs at h ⊢ with h1 h2 h3
  simp only [Outcome.ok.injEq] at h
  rcases find_free_slot_loop_spec fs MAX_FILES 0 (le_refl 0) with ⟨h4, _⟩ | ⟨h4, h5, h6, h7⟩
  · exact absurd h4 h3
  · rw [h] at h4 h5 h6 h7 ⊢
    exact ⟨⟨h4, by simpa using h5⟩, h6, fun j hj0 hj => h7 j hj0 hj, by omega,
      by simpa using h2, rfl⟩

/-- A `create_file` that does not return a slot fails with `TableFull` or
`DuplicateName` and leaves the state as it is. -/
theorem create_file_fail_kind (filename : List Char) (kind t1 t2 : Int) (fs : FileSystem)
    (e : Err) (h : (create_file filename kind t1 t2 fs).1 = Outcome.fail e) :
    (e = Err.TableFull ∨ e = Err.DuplicateName) ∧
    (create_file filename kind t1 t2 fs).2 = fs := by
  refine ⟨?_, create_file_fail_state filename kind t1 t2 fs e h⟩
  simp only [create_file] at h
  split_ifs at h with h1 h2 h3
  · simp only [Outcome.fail.injEq] at h; exact Or.inl h.symm
  · simp only [Outcome.fail.injEq] at h; exact Or.inr h.symm
  · simp only [Outcome.fail.injEq] at h; exact Or.inl h.symm

/-- A successful `create_file`, from its three tests. -/
theorem create_file_succeeds (filename : List Char) (kind t1 t2 : Int) (fs : FileSystem)
    (hnum : fs.num_files < (MAX_FILES : Int))
    (hnew : find_file_in_dir fs filename fs.current_dir = -1)
    (hslot : ∃ i, in_table i ∧ ¬ live fs i) :
    (create_file filename kind t1 t2 fs).1 = Outcome.ok (find_free_slot_loop fs MAX_FILES 0) := by
  obtain ⟨i0, hi0, hempty⟩ := hslot
  unfold live in_table at *
  rcases find_free_slot_loop_spec fs MAX_FILES 0 (le_refl 0) with ⟨_, h2⟩ | ⟨h1, _, _, _⟩
  · exact absurd (h2 i0 hi0.1 (by simpa using hi0.2)) hempty
  · simp only [create_file, hnew, ne_eq, not_true_eq_false, if_false]
    rw [if_neg (by omega), if_neg (by omega)]

/-- What a successful `write_file` was given, and the state it leaves. -/
theorem write_file_ok_eq (fs : FileSystem) (f : Int) (c : List Char) (now v : Int)
    (h : (write_file f c now fs).1 = Outcome.ok v) :
    v = 0 ∧ in_table f ∧ live fs f ∧ (fs.files f).is_directory = 0 ∧
    ¬ (find_contiguous (release_old_blocks fs f).free_blocks (blocks_needed c)
      MAX_BLOCKS 0 (-1) 0).2 < blocks_needed c := by
  simp only [write_file] at h
  unfold in_table live
  split_ifs at h with h1 h2 h3
  simp only [Outcome.ok.injEq] at h
  exact ⟨h.symm, by omega, by tauto, by simpa using h2, h3⟩

/-- A `write_file` that fails before looking for blocks leaves the state as
it is. -/
theorem write_file_fail_cases (fs : FileSystem) (f : Int) (c : List Char) (now : Int) (e : Err)
    (h : (write_file f c now fs).1 = Outcome.fail e) :
    (write_file f c now fs).2 = fs ∨
    (e = Err.OutOfSpace ∧ (write_file f c now fs).2 = release_old_blocks fs f) := by
  simp only [write_file] at h ⊢
  split_ifs at h ⊢ with h1 h2 h3
  · exact Or.inl rfl
  · exact Or.inl rfl
  · simp only [Outcome.fail.injEq] at h
    exact Or.inr ⟨h.symm, rfl⟩

/-- Function `delete_file` by cases on its target. -/
theorem delete_file_cases (fs : FileSystem) (target : Int) :
    ((¬ in_table target ∨ ¬ live fs target) ∧
      delete_file target fs = (Outcome.fail Err.NotFound, fs)) ∨
    (in_table target ∧ live fs target ∧ (fs.files target).is_directory ≠ 0 ∧
      delete_file target fs = (Outcome.fail Err.IsADirectory, fs)) ∨
    (in_table target ∧ live fs target ∧ (fs.files target).is_directory = 0 ∧
      delete_file target fs =
        (Outcome.ok 0, erase_entry (free_file_blocks fs target) target)) := by
  unfold in_table live
  simp only [delete_file]
  split_ifs with h1 h2
  · left
    refine ⟨?_, rfl⟩
    rcases h1 with h | h | h
    · left; omega
    · left; omega
    · right; simpa using h
  · right; left
    exact ⟨by omega, by tauto, h2, rfl⟩
  · right; right
    exact ⟨by omega, by tauto, by simpa using h2, rfl⟩

/-- C14 (file delete): for every state and target, `delete_file` fails with
`NotFound` and changes nothing when the target is out of range or its slot
is empty, fails with `IsADirectory` and changes nothing when the target is a
live directory, and otherwise returns 0, marks the blocks `start_block ..
start_block+num_blocks-1` of the file free, zeroes the slot of the entry and
decrements `num_files`, leaving every other block marker, every other
entry, the block contents and `current_dir` unchanged. -/
theorem delete_file_effect (fs : FileSystem) (target : Int) :
    ((¬ in_table target ∨ ¬ live fs target) →
      delete_file target fs = (Outcome.fail Err.NotFound, fs)) ∧
    (in_table target → live fs target → (fs.files target).is_directory ≠ 0 →
      delete_file target fs = (Outcome.fail Err.IsADirectory, fs)) ∧
    (in_table target → live fs target → (fs.files target).is_directory = 0 →
      (delete_file target fs).1 = Outcome.ok 0 ∧
      (∀ b, (fs.files target).start_block ≤ b →
        b < (fs.files target).start_block + (fs.files target).num_blocks →
        (delete_file target fs).2.free_blocks b = 1) ∧
      (∀ b, ¬ ((fs.files target).start_block ≤ b ∧
          b < (fs.files target).start_block + (fs.files target).num_blocks) →
        (delete_file target fs).2.free_blocks b = fs.free_blocks b) ∧
      (delete_file target fs).2.files target = zero_entry ∧
      (∀ j, j ≠ target → (delete_file target fs).2.files j = fs.files j) ∧
      (delete_file target fs).2.num_files = fs.num_files - 1 ∧
      (delete_file target fs).2.current_dir = fs.current_dir ∧
      (delete_file target fs).2.blocks = fs.blocks) := by
  refine ⟨?_, ?_, ?_⟩
  · intro h
    rcases delete_file_cases fs target with ⟨_, h2⟩ | ⟨h1, h2, _⟩ | ⟨h1, h2, _⟩
    · exact h2
    · rcases h with h | h
      · exact absurd h1 h
      · exact absurd h2 h
    · rcases h with h | h
      · exact absurd h1 h
      · exact absurd h2 h
  · intro h1 h2 h3
    rcases delete_file_cases fs target with ⟨h, _⟩ | ⟨_, _, _, h4⟩ | ⟨_, _, h5, _⟩
    · rcases h with h | h
      · exact absurd h1 h
      · exact absurd h2 h
    · exact h4
    · exact absurd h5 h3
  · intro h1 h2 h3
    rcases delete_file_cases fs target with ⟨h, _⟩ | ⟨_, _, h5, _⟩ | ⟨_, _, _, h4⟩
    · rcases h with h | h
      · exact absurd h1 h
      · exact absurd h2 h
    · exact absurd h3 h5
    · rw [h4]
      have hfree : ∀ b, (erase_entry (free_file_blocks fs target) target).free_blocks b =
          if (fs.files target).start_block + 0 ≤ b ∧
            b < (fs.files target).start_block + 0 + ((fs.files target).num_blocks.toNat : Int)
          then 1 else fs.free_blocks b := fun b => free_range_apply _ _ _ _ b
      refine ⟨rfl, ?_, ?_, set_at_same _ _ _, fun j hj => set_at_other _ _ _ _ hj, rfl, rfl, rfl⟩
      · intro b hb1 hb2
        rw [hfree, if_pos]
        omega
      · intro b hb
        rw [hfree, if_neg]
        omega

/-- Witness of `delete_file_effect`: `delete 1` in `written_fs`, where file
1 owns block 0. -/
theorem delete_file_effect_witness :
    in_table 1 ∧ live written_fs 1 ∧ (written_fs.files 1).is_directory = 0 ∧
    (delete_file 1 written_fs).1 = Outcome.ok 0 ∧
    (delete_file 1 written_fs).2.files 1 = zero_entry :=
  ⟨by decide, by decide, by decide,
    ((delete_file_effect written_fs 1).2.2 (by decide) (by decide) (by decide)).1,
    ((delete_file_effect written_fs 1).2.2 (by decide) (by decide) (by decide)).2.2.2.1⟩

/-! ## Metadata after create_file and write_file -/

/-- C12 as amended (write metadata): for every state, live file `f` and
content `c`, after a successful `write_file(f, c)` the entry has `size ==
len(c) + 1`, the bytes of `c` and the terminating NUL stored with them, and
`num_blocks == ceil((len(c) + 1) / BLOCK_SIZE)`: the least number of blocks
that hold `size` bytes. -/
theorem write_metadata (fs : FileSystem) (f : Int) (c : List Char) (now : Int)
    (h : (write_file f c now fs).1 = Outcome.ok 0) :
    ((write_file f c now fs).2.files f).size = c.length + 1 ∧
    ((write_file f c now fs).2.files f).num_blocks =
      ((c.length + 1 + BLOCK_SIZE - 1) / BLOCK_SIZE : Nat) ∧
    (((write_file f c now fs).2.files f).num_blocks - 1) * BLOCK_SIZE <
      ((write_file f c now fs).2.files f).size ∧
    (((write_file f c now fs).2.files f).size : Int) ≤
      ((write_file f c now fs).2.files f).num_blocks * BLOCK_SIZE := by
  obtain ⟨_, hf, hl, hd, hfound⟩ := write_file_ok_eq fs f c now 0 h
  rw [write_file_success fs f c now hf hl hd hfound]
  simp only [set_at_same]
  obtain ⟨h1, hlo, hhi, hcast⟩ := blocks_needed_bounds c
  refine ⟨trivial, rfl, ?_, ?_⟩
  · rw [hcast]
    have : (((blocks_needed c).toNat : Int) - 1) = (((blocks_needed c).toNat - 1 : Nat) : Int) := by
      omega
    rw [this]
    exact_mod_cast hlo
  · rw [hcast]
    exact_mod_cast hhi

/-- Witness of `write_metadata`: `write 1 hi` in `one_file_fs`. -/
theorem write_metadata_witness :
    (write_file 1 ['h', 'i'] 0 one_file_fs).1 = Outcome.ok 0 ∧
    ((write_file 1 ['h', 'i'] 0 one_file_fs).2.files 1).size = 3 :=
  ⟨by decide, (write_metadata one_file_fs 1 ['h', 'i'] 0 (by decide)).1⟩

set_option maxRecDepth 100000 in
/-- Counterexample to C12 as stated: in `one_file_fs` the write of `x` to
file 1 succeeds and leaves `size == 2` for a content of length 1; the write
of the 1024 characters of `block_content` succeeds and leaves `num_blocks ==
2`, while `ceil(1024 / BLOCK_SIZE)` is 1. -/
theorem write_metadata_counterexample :
    ((write_file 1 ['x'] 0 one_file_fs).1 = Outcome.ok 0 ∧
      ((write_file 1 ['x'] 0 one_file_fs).2.files 1).size = 2 ∧
      ((write_file 1 ['x'] 0 one_file_fs).2.files 1).size ≠ ['x'].length) ∧
    ((write_file 1 block_content 0 one_file_fs).1 = Outcome.ok 0 ∧
      ((write_file 1 block_content 0 one_file_fs).2.files 1).num_blocks = 2 ∧
      (block_content.length + BLOCK_SIZE - 1) / BLOCK_SIZE = 1) :=
  ⟨⟨by decide, by decide, by decide⟩, by decide, by decide, by decide⟩

/-- C11 as amended (name length): `create_file` has no `NameTooLong`
failure. For every state and every name of more than `MAX_FILENAME - 1 = 31`
characters the call is tested like any other: it fails only with
`TableFull` or `DuplicateName`, leaving the state unchanged, and it succeeds
whenever `num_files < MAX_FILES`, a slot is empty and no child of
`current_dir` has the full name; on success the entry table changes: the
slot returned was empty and now holds the first 31 characters of the name. -/
theorem long_name_truncated (fs : FileSystem) (filename : List Char) (kind t1 t2 : Int)
    (hlong : MAX_FILENAME - 1 < filename.length) :
    (create_file filename kind t1 t2 fs).1 ≠ Outcome.fail Err.NameTooLong ∧
    (∀ e, (create_file filename kind t1 t2 fs).1 = Outcome.fail e →
      (e = Err.TableFull ∨ e = Err.DuplicateName) ∧
      (create_file filename kind t1 t2 fs).2 = fs) ∧
    (fs.num_files < (MAX_FILES : Int) → find_file_in_dir fs filename fs.current_dir = -1 →
      (∃ i, in_table i ∧ ¬ live fs i) →
      ∃ slot, (create_file filename kind t1 t2 fs).1 = Outcome.ok slot) ∧
    (∀ slot, (create_file filename kind t1 t2 fs).1 = Outcome.ok slot →
      ¬ live fs slot ∧ live (create_file filename kind t1 t2 fs).2 slot ∧
      ((create_file filename kind t1 t2 fs).2.files slot).filename =
        filename.take (MAX_FILENAME - 1) ∧
      ((create_file filename kind t1 t2 fs).2.files slot).filename.length = MAX_FILENAME - 1 ∧
      ((create_file filename kind t1 t2 fs).2.files slot).filename ≠ filename) := by
  refine ⟨?_, fun e he => create_file_fail_kind filename kind t1 t2 fs e he, ?_, ?_⟩
  · intro h
    rcases (create_file_fail_kind filename kind t1 t2 fs _ h).1 with h1 | h1 <;> cases h1
  · intro hnum hnew hslot
    exact ⟨_, create_file_succeeds filename kind t1 t2 fs hnum hnew hslot⟩
  · intro slot h
    obtain ⟨_, hempty, _, _, _, hst⟩ := create_file_ok_eq filename kind t1 t2 fs slot h
    rw [hst]
    have hlen : (filename.take (MAX_FILENAME - 1)).length = MAX_FILENAME - 1 := by
      rw [List.length_take]; omega
    unfold live
    simp only [set_at_same, strncpy_name]
    refine ⟨by simpa using hempty, ?_, trivial, hlen, ?_⟩
    · intro h0
      rw [h0] at hlen
      simp [MAX_FILENAME] at hlen
    · intro h0
      rw [h0] at hlen
      omega

/-- Witness of `long_name_truncated`: the 32-character `long_name` in the
fresh state. -/
theorem long_name_truncated_witness :
    MAX_FILENAME - 1 < long_name.length ∧
    (create_file long_name 1 0 0 fresh_fs).1 ≠ Outcome.fail Err.NameTooLong :=
  ⟨by decide, (long_name_truncated fresh_fs long_name 1 0 0 (by decide)).1⟩

/-- Counterexample to C11 as stated: `create_file` of the 32-character
`long_name` in the fresh state does not fail: it returns slot 1, and the
entry table has changed, slot 1 now holds a live entry. -/
theorem long_name_counterexample :
    MAX_FILENAME - 1 < long_name.length ∧
    (create_file long_name 1 0 0 fresh_fs).1 = Outcome.ok 1 ∧
    ¬ live fresh_fs 1 ∧ live (create_file long_name 1 0 0 fresh_fs).2 1 :=
  ⟨by decide, by decide, by decide, by decide⟩

/-! ## The root as a child of itself -/

/-- C18 on the code (block ranges disjoint and exact, failing input):
`create f`, `write 1 x`, a write of `big_content` to file 1 that fails with
`OutOfSpace`, then `create g` and `write 2 y`. After the failed write
(`stale_fs`) block 0 is marked free and still lies in the range of the live
file 1; the next write hands block 0 to file 2, and in the reachable state
`overlap_fs` the live files 1 and 2 both own the range `0 .. 0`. -/
theorem block_ranges_overlap_after_failed_write :
    write_file 1 big_content 0 written_fs = (Outcome.fail Err.OutOfSpace, stale_fs) ∧
    (Reachable stale_fs ∧ live stale_fs 1 ∧ (stale_fs.files 1).is_directory = 0 ∧
      (stale_fs.files 1).start_block = 0 ∧ (stale_fs.files 1).num_blocks = 1 ∧
      stale_fs.free_blocks 0 = 1) ∧
    (create_file ['g'] 0 0 0 stale_fs).1 = Outcome.ok 2 ∧
    (write_file 2 ['y'] 0 (create_file ['g'] 0 0 0 stale_fs).2).1 = Outcome.ok 0 ∧
    (Reachable overlap_fs ∧ live overlap_fs 1 ∧ live overlap_fs 2 ∧
      (overlap_fs.files 1).is_directory = 0 ∧ (overlap_fs.files 2).is_directory = 0 ∧
      (overlap_fs.files 1).start_block = 0 ∧ (overlap_fs.files 1).num_blocks = 1 ∧
      (overlap_fs.files 2).start_block = 0 ∧ (overlap_fs.files 2).num_blocks = 1 ∧
      overlap_fs.free_blocks 0 = 0) :=
  ⟨stale_fs_eq,
    ⟨reachable_stale_fs, by decide, by decide, by decide, by decide, by decide⟩,
    by decide, by decide,
    ⟨Reachable.write _ _ _ _ (Reachable.create _ _ _ _ _ reachable_stale_fs (by decide)),
      by decide, by decide, by decide, by decide, by decide, by decide, by decide, by decide,
      by decide⟩⟩

/-! ## Sizes and block ranges of the entries of reachable states -/

theorem entry_ok_zero_entry (i : Int) : entry_ok i zero_entry := by
  unfold entry_ok entry_sized zero_entry BLOCK_SIZE
  simp

theorem entry_sized_written (e : FileMetadata) (c : List Char) (s now : Int) :
    entry_sized { e with start_block := s, num_blocks := blocks_needed c,
                         size := c.length + 1, modified := now } := by
  obtain ⟨h1, hlo, hhi, hcast⟩ := blocks_needed_bounds c
  unfold entry_sized
  simp only
  rw [hcast]
  constructor
  · have : (((blocks_needed c).toNat : Int) - 1) = (((blocks_needed c).toNat - 1 : Nat) : Int) := by
      omega
    rw [this]
    exact_mod_cast le_of_lt hlo
  · exact_mod_cast hhi

/-- In every reachable state the size of each entry fits its block count,
and each directory has size 0 and no blocks, the root with `start_block ==
0` and the others with `start_block == -1`. -/
theorem reachable_entry_ok (fs : FileSystem) (h : Reachable fs) :
    ∀ i, entry_ok i (fs.files i) := by
  induction h with
  | init t1 t2 =>
    intro i
    by_cases hi : i = 0
    · subst hi
      unfold entry_ok entry_sized init_filesystem set_at zero_entry BLOCK_SIZE
      simp
    · have : (init_filesystem t1 t2).files i = zero_entry := by
        simp [init_filesystem, set_at, hi]
      rw [this]; exact entry_ok_zero_entry i
  | create fs filename kind t1 t2 hr _ ih =>
    intro i
    cases hres : (create_file filename kind t1 t2 fs).1 with
    | fail e => rw [create_file_fail_state filename kind t1 t2 fs e hres]; exact ih i
    | ok slot =>
      obtain ⟨_, hempty, _, _, _, hst⟩ := create_file_ok_eq filename kind t1 t2 fs slot hres
      rw [hst]
      by_cases hi : i = slot
      · subst hi
        have hi0 : i ≠ 0 := by
          rintro rfl
          exact (reachable_root_ok fs hr).1 hempty
        simp only [set_at_same]
        unfold entry_ok entry_sized BLOCK_SIZE
        simp [hi0]
      · simp only [set_at_other _ _ _ _ hi]; exact ih i
  | write fs f c now _ ih =>
    intro i
    by_cases hi : i = f
    · subst hi
      cases hres : (write_file i c now fs).1 with
      | fail e =>
        rcases write_file_fail_cases fs i c now e hres with h1 | ⟨_, h1⟩
        · rw [h1]; exact ih i
        · rw [h1, release_old_blocks_files]; exact ih i
      | ok v =>
        obtain ⟨_, hf, hl, hd, hfound⟩ := write_file_ok_eq fs i c now v hres
        rw [write_file_success fs i c now hf hl hd hfound]
        simp only [set_at_same]
        exact ⟨entry_sized_written _ c _ now, fun hdir => absurd hd hdir⟩
    · rw [write_file_files_other f c now fs i hi]; exact ih i
  | delete fs f _ ih =>
    intro i
    rcases delete_file_cases fs f with ⟨_, h1⟩ | ⟨_, _, _, h1⟩ | ⟨_, _, _, h1⟩
    · rw [h1]; exact ih i
    · rw [h1]; exact ih i
    · rw [h1]
      show entry_ok i (set_at fs.files f zero_entry i)
      by_cases hi : i = f
      · subst hi; rw [set_at_same]; exact entry_ok_zero_entry i
      · rw [set_at_other _ _ _ _ hi]; exact ih i
  | delete_dir fs fs1 fuel d r _ _ hdel ih =>
    intro i
    rcases (delete_directory_recursive_blocks fuel d fs fs1 r hdel).1 i with h1 | h1
    · rw [h1]; exact ih i
    · rw [h1]; exact entry_ok_zero_entry i
  | cd fs arg1 _ ih =>
    intro i
    rw [cd_command_files]; exact ih i

/-- C19 on the code (directories own no blocks, failing input): right
after `init_filesystem` the root, a live directory, has `start_block == 0`,
left there by the `memset`, and not the sentinel `-1` that `create_file`
gives every directory it creates. In every reachable state the root has
size 0, `num_blocks == 0` and `start_block == 0`, and every other live
directory has size 0, `num_blocks == 0` and `start_block == -1`. -/
theorem root_start_block_is_zero :
    (∀ t1 t2 : Int, live (init_filesystem t1 t2) 0 ∧
      ((init_filesystem t1 t2).files 0).is_directory ≠ 0 ∧
      ((init_filesystem t1 t2).files 0).start_block = 0 ∧
      ((init_filesystem t1 t2).files 0).start_block ≠ -1) ∧
    (∀ fs, Reachable fs →
      (live fs 0 ∧ (fs.files 0).is_directory ≠ 0 ∧ (fs.files 0).size = 0 ∧
        (fs.files 0).num_blocks = 0 ∧ (fs.files 0).start_block = 0) ∧
      ∀ i, i ≠ 0 → live fs i → (fs.files i).is_directory ≠ 0 →
        (fs.files i).size = 0 ∧ (fs.files i).num_blocks = 0 ∧
          (fs.files i).start_block = -1) := by
  constructor
  · intro t1 t2
    simp [live, init_filesystem, set_at, zero_entry]
  · intro fs h
    obtain ⟨h1, h2, _⟩ := reachable_root_ok fs h
    have h0 := (reachable_entry_ok fs h 0).2 h2
    refine ⟨⟨h1, h2, h0.1, h0.2.1, by simpa using h0.2.2⟩, ?_⟩
    intro i hi _ hdir
    have hi2 := (reachable_entry_ok fs h i).2 hdir
    exact ⟨hi2.1, hi2.2.1, by simpa [hi] using hi2.2.2⟩

/-! ## read_file by cases -/

theorem block_bytes_length (fs : FileSystem) (b : Int) :
    (block_bytes fs b).length = BLOCK_SIZE := by
  simp [block_bytes]

theorem take_block_bytes (fs : FileSystem) (b : Int) (m : Nat) (hm : m ≤ BLOCK_SIZE) :
    (List.range m).map (fun o => fs.blocks b o) = (block_bytes fs b).take m := by
  unfold block_bytes
  rw [← List.map_take, List.take_range, Nat.min_eq_left hm]

/-- The copy loop of `read_file` on an entry whose size fits its block
count: it appends the first `size - i * BLOCK_SIZE` bytes of the blocks that
are left. -/
theorem read_blocks_take (fs : FileSystem) (f : FileMetadata) (nN : Nat)
    (hn : f.num_blocks = (nN : Int)) (hlo : (nN - 1) * BLOCK_SIZE ≤ f.size)
    (hhi : f.size ≤ nN * BLOCK_SIZE) :
    ∀ (k i : Nat) (buf : List Char), i + k = nN →
      read_blocks fs f k i buf =
        buf ++ (blocks_bytes fs f.start_block k i).take (f.size - i * BLOCK_SIZE) := by
  intro k
  induction k with
  | zero => intro i buf _; simp [read_blocks, blocks_bytes]
  | succ k ih =>
    intro i buf hik
    simp only [read_blocks, blocks_bytes]
    rw [ih (i + 1) _ (by omega), List.append_assoc]
    congr 1
    by_cases hlast : (i : Int) = f.num_blocks - 1
    · have hi : i = nN - 1 := by omega
      have hk : k = 0 := by omega
      subst hk
      simp only [hlast, if_true, blocks_bytes, List.take_nil, List.append_nil]
      have hm : f.size - i * BLOCK_SIZE ≤ BLOCK_SIZE := by
        have : nN = i + 1 := by omega
        rw [this] at hhi
        have e : (i + 1) * BLOCK_SIZE = i * BLOCK_SIZE + BLOCK_SIZE := by ring
        omega
      exact take_block_bytes fs _ _ hm
    · simp only [hlast, if_false]
      have hi : i + 1 ≤ nN - 1 := by omega
      have hle : (i + 1) * BLOCK_SIZE ≤ (nN - 1) * BLOCK_SIZE := Nat.mul_le_mul_right _ hi
      have e : (i + 1) * BLOCK_SIZE = i * BLOCK_SIZE + BLOCK_SIZE := by ring
      have hsz : f.size - i * BLOCK_SIZE = (block_bytes fs (f.start_block + i)).length +
          (f.size - (i + 1) * BLOCK_SIZE) := by
        rw [block_bytes_length]; omega
      rw [hsz, List.take_append, take_block_bytes fs _ _ (le_refl _),
        List.take_of_length_le (by rw [block_bytes_length])]

/-- C13 (read failure cases): for every state and target, `read_file` fails
with `NotFound` iff the target is out of range or its slot is empty, with
`NotAFile` iff the target is a live directory, and with `EmptyFile` iff the
target is a live file with `start_block == -1`; in every other case it
succeeds, and it returns the first `size` bytes of the blocks of the file
concatenated in index order whenever `size` fits `num_blocks` (the copies
then stay inside the blocks of the file), as it does for every entry of
every reachable state. `read_file` assigns nothing in `fs`: it maps the
state to its result. -/
theorem read_file_cases (fs : FileSystem) (target : Int) :
    (read_file target fs = Outcome.fail Err.NotFound ↔
      ¬ in_table target ∨ ¬ live fs target) ∧
    (read_file target fs = Outcome.fail Err.NotAFile ↔
      in_table target ∧ live fs target ∧ (fs.files target).is_directory ≠ 0) ∧
    (read_file target fs = Outcome.fail Err.EmptyFile ↔
      in_table target ∧ live fs target ∧ (fs.files target).is_directory = 0 ∧
        (fs.files target).start_block = -1) ∧
    (in_table target → live fs target → (fs.files target).is_directory = 0 →
      (fs.files target).start_block ≠ -1 →
      (∃ bytes, read_file target fs = Outcome.ok bytes) ∧
      (entry_sized (fs.files target) →
        read_file target fs =
          Outcome.ok ((file_bytes fs (fs.files target)).take (fs.files target).size))) ∧
    (Reachable fs → entry_sized (fs.files target)) := by
  have hrange : (target < 0 ∨ target ≥ (MAX_FILES : Int) ∨ (fs.files target).filename = []) ↔
      (¬ in_table target ∨ ¬ live fs target) := by
    unfold in_table live
    constructor
    · rintro (h | h | h)
      · left; omega
      · left; omega
      · right; simpa using h
    · rintro (h | h)
      · by_cases h0 : target < 0
        · exact Or.inl h0
        · exact Or.inr (Or.inl (by omega))
      · exact Or.inr (Or.inr (by simpa using h))
  refine ⟨?_, ?_, ?_, ?_, fun h => (reachable_entry_ok fs h target).1⟩
  · simp only [read_file]
    split_ifs with h1 h2 h3
    · exact ⟨fun _ => hrange.1 h1, fun _ => rfl⟩
    · exact ⟨fun h => by simp at h, fun h => absurd (hrange.2 h) h1⟩
    · exact ⟨fun h => by simp at h, fun h => absurd (hrange.2 h) h1⟩
    · exact ⟨fun h => by simp at h, fun h => absurd (hrange.2 h) h1⟩
  · simp only [read_file]
    split_ifs with h1 h2 h3
    · refine ⟨fun h => by simp at h, fun h => ?_⟩
      rcases hrange.1 h1 with h4 | h4
      · exact absurd h.1 h4
      · exact absurd h.2.1 h4
    · refine ⟨fun _ => ?_, fun _ => rfl⟩
      have hin1 : in_table target := by
        by_contra h; exact h1 (hrange.2 (Or.inl h))
      have hin2 : live fs target := by
        by_contra h; exact h1 (hrange.2 (Or.inr h))
      exact ⟨hin1, hin2, h2⟩
    · exact ⟨fun h => by simp at h, fun h => absurd h.2.2 h2⟩
    · exact ⟨fun h => by simp at h, fun h => absurd h.2.2 h2⟩
  · simp only [read_file]
    split_ifs with h1 h2 h3
    · refine ⟨fun h => by simp at h, fun h => ?_⟩
      rcases hrange.1 h1 with h4 | h4
      · exact absurd h.1 h4
      · exact absurd h.2.1 h4
    · exact ⟨fun h => by simp at h, fun h => absurd h.2.2.1 (by simpa using h2)⟩
    · refine ⟨fun _ => ?_, fun _ => rfl⟩
      have hin1 : in_table target := by
        by_contra h; exact h1 (hrange.2 (Or.inl h))
      have hin2 : live fs target := by
        by_contra h; exact h1 (hrange.2 (Or.inr h))
      exact ⟨hin1, hin2, by simpa using h2, h3⟩
    · exact ⟨fun h => by simp at h, fun h => absurd h.2.2.2 h3⟩
  · intro ht hl hd hs
    have h1 : ¬ (target < 0 ∨ target ≥ (MAX_FILES : Int) ∨ (fs.files target).filename = []) :=
      fun h => by
        rcases hrange.1 h with h4 | h4
        · exact h4 ht
        · exact h4 hl
    have hread : read_file target fs = Outcome.ok (read_blocks fs (fs.files target)
        (fs.files target).num_blocks.toNat 0 []) := by
      simp only [read_file, h1, hd, hs, if_false, ne_eq, not_true_eq_false]
    refine ⟨⟨_, hread⟩, ?_⟩
    rintro ⟨hlo, hhi⟩
    rw [hread]
    congr 1
    have hn0 : 0 ≤ (fs.files target).num_blocks := by
      by_contra hneg
      have : ((fs.files target).num_blocks) * (BLOCK_SIZE : Int) < 0 := by
        unfold BLOCK_SIZE; push_cast; omega
      omega
    have hn : (fs.files target).num_blocks = (((fs.files target).num_blocks.toNat : Nat) : Int) :=
      (Int.toNat_of_nonneg hn0).symm
    have hlo2 : ((fs.files target).num_blocks.toNat - 1) * BLOCK_SIZE ≤ (fs.files target).size := by
      rw [hn] at hlo
      unfold BLOCK_SIZE at *
      push_cast at hlo
      omega
    have hhi2 : (fs.files target).size ≤ (fs.files target).num_blocks.toNat * BLOCK_SIZE := by
      rw [hn] at hhi
      exact_mod_cast hhi
    have := read_blocks_take fs (fs.files target) (fs.files target).num_blocks.toNat hn hlo2 hhi2
      (fs.files target).num_blocks.toNat 0 [] (by omega)
    simpa [file_bytes] using this

/-- Witness of `read_file_cases`: reading file 1 of `written_fs`, which
holds `x`. -/
theorem read_file_cases_witness :
    in_table 1 ∧ live written_fs 1 ∧ (written_fs.files 1).is_directory = 0 ∧
    (written_fs.files 1).start_block ≠ -1 ∧ entry_sized (written_fs.files 1) ∧
    read_file 1 written_fs =
      Outcome.ok ((file_bytes written_fs (written_fs.files 1)).take (written_fs.files 1).size) :=
  ⟨by decide, by decide, by decide, by decide, by decide,
    ((read_file_cases written_fs 1).2.2.2.1 (by decide) (by decide) (by decide) (by decide)).2
      (by decide)⟩

/-! ## The scenario of the specification -/

theorem scenario_docs_eq (t : Nat → Int) :
    scenario_docs t =
      { init_filesystem (t 0) (t 1) with
        files := set_at (init_filesystem (t 0) (t 1)).files 1
          { filename := ['d', 'o', 'c', 's'], size := 0, created := t 2, modified := t 3,
            start_block := -1, num_blocks := 0, is_directory := 1, parent_dir := 0 }
        num_files := 2 } := rfl

theorem scenario_cd_eq (t : Nat → Int) :
    scenario_cd t = { scenario_docs t with current_dir := 1 } := by
  unfold scenario_cd
  rw [scenario_docs_eq]
  rfl

theorem scenario_file_eq (t : Nat → Int) :
    scenario_file t =
      { scenario_cd t with
        files := set_at (scenario_cd t).files 2
          { filename := ['a', '.', 't', 'x', 't'], size := 0, created := t 4, modified := t 5,
            start_block := -1, num_blocks := 0, is_directory := 0, parent_dir := 1 }
        num_files := 3 } := by
  unfold scenario_file
  rw [scenario_cd_eq, scenario_docs_eq]
  rfl

theorem scenario_written_eq (t : Nat → Int) :
    scenario_written t =
      { scenario_file t with
        files := set_at (scenario_file t).files 2
          { filename := ['a', '.', 't', 'x', 't'], size := 6, created := t 4, modified := t 6,
            start_block := 0, num_blocks := 1, is_directory := 0, parent_dir := 1 }
        blocks := set_at (scenario_file t).blocks 0
          (memcpy_block ((scenario_file t).blocks 0) (c_bytes ['h', 'e', 'l', 'l', 'o']) 0 6)
        free_blocks := set_at (scenario_file t).free_blocks 0 0 } := by
  unfold scenario_written
  rw [scenario_file_eq, scenario_cd_eq, scenario_docs_eq]
  rfl

theorem scenario_up_eq (t : Nat → Int) :
    scenario_up t = { scenario_written t with current_dir := 0 } := by
  unfold scenario_up
  rw [scenario_written_eq, scenario_file_eq, scenario_cd_eq, scenario_docs_eq]
  rfl

theorem scenario_end_free_blocks (t : Nat → Int) :
    (scenario_end t).free_blocks = fresh_fs.free_blocks := by
  have hup : (scenario_up t).free_blocks = set_at fresh_fs.free_blocks 0 0 := by
    rw [scenario_up_eq, scenario_written_eq, scenario_file_eq, scenario_cd_eq, scenario_docs_eq]
    rfl
  have hstart : ((scenario_up t).files 2).start_block = 0 ∧
      ((scenario_up t).files 2).num_blocks.toNat = 1 := by
    rw [scenario_up_eq, scenario_written_eq]
    exact ⟨rfl, rfl⟩
  funext b
  simp only [scenario_end, erase_entry, free_file_blocks]
  rw [hstart.1, hstart.2, free_range_apply, hup]
  by_cases hb : b = 0
  · subst hb
    simp [fresh_fs, init_filesystem, MAX_BLOCKS]
  · rw [if_neg (by push_cast; omega), set_at_other _ _ _ _ hb]

/-- C15 (spec scenario): starting from `init_filesystem`, whatever the clock
readings, `create_file("docs", directory)` returns 1; after `cd docs`,
`create_file("a.txt", file)` returns 2; `write_file(2, "hello")` succeeds
and `read_file(2)` returns the C string `hello` (its five bytes and the
terminating NUL); after `cd ..`, `delete_directory_recursive(1)` returns 0,
at every nesting depth at which it returns, and leaves slots 1 and 2 empty
and all `MAX_BLOCKS` blocks marked free. -/
theorem spec_scenario (t : Nat → Int) :
    (create_file ['d', 'o', 'c', 's'] 1 (t 2) (t 3) (init_filesystem (t 0) (t 1))).1 =
      Outcome.ok 1 ∧
    (cd_command ['d', 'o', 'c', 's'] (scenario_docs t)).1 = Outcome.ok 0 ∧
    (scenario_cd t).current_dir = 1 ∧
    (create_file ['a', '.', 't', 'x', 't'] 0 (t 4) (t 5) (scenario_cd t)).1 = Outcome.ok 2 ∧
    (write_file 2 ['h', 'e', 'l', 'l', 'o'] (t 6) (scenario_file t)).1 = Outcome.ok 0 ∧
    read_file 2 (scenario_written t) = Outcome.ok ['h', 'e', 'l', 'l', 'o', NUL] ∧
    (cd_command ['.', '.'] (scenario_written t)).1 = Outcome.ok 0 ∧
    (scenario_up t).current_dir = 0 ∧
    delete_directory_recursive 1 1 (scenario_up t) = some (Outcome.ok 0, scenario_end t) ∧
    (∀ fuel r fs1, delete_directory_recursive fuel 1 (scenario_up t) = some (r, fs1) →
      r = Outcome.ok 0 ∧ fs1 = scenario_end t) ∧
    (scenario_end t).files 1 = zero_entry ∧ (scenario_end t).files 2 = zero_entry ∧
    ¬ live (scenario_end t) 1 ∧ ¬ live (scenario_end t) 2 ∧
    (∀ b, 0 ≤ b → b < (MAX_BLOCKS : Int) → (scenario_end t).free_blocks b = 1) ∧
    count_free (scenario_end t).free_blocks = MAX_BLOCKS := by
  have hdel : delete_directory_recursive 1 1 (scenario_up t) =
      some (Outcome.ok 0, scenario_end t) := by
    unfold scenario_end
    rw [scenario_up_eq, scenario_written_eq, scenario_file_eq, scenario_cd_eq, scenario_docs_eq]
    rfl
  refine ⟨rfl, ?_, ?_, ?_, ?_, ?_, ?_, ?_, hdel, ?_, rfl, rfl, ?_, ?_, ?_, ?_⟩
  · rw [scenario_docs_eq]; rfl
  · rw [scenario_cd_eq]
  · rw [scenario_cd_eq, scenario_docs_eq]; rfl
  · rw [scenario_file_eq, scenario_cd_eq, scenario_docs_eq]; rfl
  · rw [scenario_written_eq, scenario_file_eq, scenario_cd_eq, scenario_docs_eq]; rfl
  · rw [scenario_written_eq, scenario_file_eq, scenario_cd_eq, scenario_docs_eq]; rfl
  · rw [scenario_up_eq]
  · intro fuel r fs1 h
    have := delete_directory_recursive_fuel_unique _ _ 1 (scenario_up t) _ _ h hdel
    simpa using this
  · exact live_zero_entry _ _ rfl
  · exact live_zero_entry _ _ rfl
  · intro b h0 h1
    rw [scenario_end_free_blocks]
    simp [fresh_fs, init_filesystem, h0, h1]
  · rw [scenario_end_free_blocks, count_free_fresh]

/-! ## get_full_path -/

theorem take_append_take (n : Nat) (a b : List Char) :
    (a ++ b.take n).take n = (a ++ b).take n := by
  rw [List.take_append_eq_append_take, List.take_append_eq_append_take, List.take_take]
  congr 2
  omega

theorem path_string_append (fs : FileSystem) (a b : List Int) :
    path_string fs (a ++ b) = path_string fs a ++ path_string fs b := by
  induction a with
  | nil => rfl
  | cons e rest ih => simp [path_string, ih]

/-- The loop of `get_full_path` along a walk to the root: it ends, with the
first `MAX_PATH - 1` characters of the segments in root-to-leaf order put
before `temp_path`. -/
theorem get_full_path_loop_chain (fs : FileSystem) :
    ∀ (up : List Int) (cur : Int) (temp_path : List Char) (fuel : Nat),
      is_up_chain fs cur up → up.length ≤ fuel → temp_path.length ≤ MAX_PATH - 1 →
      get_full_path_loop fs fuel cur temp_path =
        some ((path_string fs up.reverse ++ temp_path).take (MAX_PATH - 1)) := by
  intro up
  induction up with
  | nil =>
    intro cur temp_path fuel hc _ hlen
    have hcur : cur = 0 := hc
    have : get_full_path_loop fs fuel cur temp_path = some temp_path := by
      cases fuel <;> simp [get_full_path_loop, hcur]
    rw [this]
    simp only [List.reverse_nil, path_string, List.nil_append]
    rw [List.take_of_length_le hlen]
  | cons c rest ih =>
    intro cur temp_path fuel hc hfuel hlen
    obtain ⟨hcc, hcur, hrest⟩ := hc
    subst hcc
    obtain ⟨fuel1, rfl⟩ : ∃ fuel1, fuel = fuel1 + 1 :=
      ⟨fuel - 1, by simp only [List.length_cons] at hfuel; omega⟩
    rw [get_full_path_loop, if_neg hcur]
    have hlen2 : (('/' :: ((fs.files c).filename ++ temp_path)).take (MAX_PATH - 1)).length
        ≤ MAX_PATH - 1 := by
      rw [List.length_take]; exact Nat.min_le_left _ _
    have h2 := ih (fs.files c).parent_dir
      (('/' :: ((fs.files c).filename ++ temp_path)).take (MAX_PATH - 1)) fuel1 hrest
      (by simp only [List.length_cons] at hfuel; omega) hlen2
    rw [h2, take_append_take, List.reverse_cons, path_string_append]
    simp [path_string]

/-- From a chain of live directories to the root, the walk of
`get_full_path`. -/
theorem up_chain_of_chain_to_root (fs : FileSystem) :
    ∀ (k : Nat) (p : Int), chain_to_root fs k p = true →
      ∃ up, up.length ≤ k ∧ is_up_chain fs p up := by
  intro k
  induction k with
  | zero =>
    intro p h
    simp only [chain_to_root, decide_eq_true_eq] at h
    exact ⟨[], le_refl 0, h⟩
  | succ k ih =>
    intro p h
    by_cases hp : p = 0
    · exact ⟨[], Nat.zero_le _, hp⟩
    · obtain ⟨up, hlen, hup⟩ := ih _ (chain_to_root_succ fs k p h hp).2.2.2
      exact ⟨p :: up, by simp only [List.length_cons]; omega, rfl, hp, hup⟩

/-- C16 as amended (absolute path): `get_full_path(0)` yields `/`. For
every state and every entry `e` whose parent chain below the root is `e1,
..., ek = e`, `get_full_path(e)` terminates after `k` iterations and yields
the first `MAX_PATH - 1 = 255` characters of `"/" + name(e1) + "/" +
name(e2) + ... + "/" + name(ek)`: exactly that string when it has at most
255 characters, and its truncation otherwise. In a tree-shaped state every
live entry of the table other than the root has such a chain, of at most
`MAX_FILES + 1` entries. -/
theorem absolute_path (fs : FileSystem) :
    (∀ fuel, get_full_path fuel 0 fs = some ['/']) ∧
    (∀ (chain : List Int) (e : Int), e ≠ 0 → is_parent_chain fs chain e →
      ∀ fuel, chain.length ≤ fuel →
        get_full_path fuel e fs = some ((path_string fs chain).take (MAX_PATH - 1)) ∧
        ((path_string fs chain).length ≤ MAX_PATH - 1 →
          get_full_path fuel e fs = some (path_string fs chain))) ∧
    (tree_shaped fs → ∀ e, in_table e → live fs e → e ≠ 0 →
      ∃ chain, chain.length ≤ MAX_FILES + 1 ∧ is_parent_chain fs chain e) := by
  refine ⟨fun fuel => by simp [get_full_path], ?_, ?_⟩
  · intro chain e he hchain fuel hfuel
    have h := get_full_path_loop_chain fs chain.reverse e [] fuel hchain
      (by rw [List.length_reverse]; exact hfuel) (Nat.zero_le _)
    rw [List.reverse_reverse, List.append_nil] at h
    have hg : get_full_path fuel e fs = some ((path_string fs chain).take (MAX_PATH - 1)) := by
      unfold get_full_path
      rw [if_neg he, h]
    refine ⟨hg, fun hlen => ?_⟩
    rw [hg, List.take_of_length_le hlen]
  · rintro ⟨_, htree⟩ e he hl he0
    obtain ⟨n, rfl⟩ : ∃ n : Nat, e = (n : Int) := ⟨e.toNat, by unfold in_table at he; omega⟩
    have hc := htree n (by unfold in_table at he; omega) hl (by omega)
    obtain ⟨up, hlen, hup⟩ := up_chain_of_chain_to_root fs MAX_FILES _ hc
    refine ⟨((n : Int) :: up).reverse, ?_, ?_⟩
    · rw [List.length_reverse, List.length_cons]; omega
    · unfold is_parent_chain
      rw [List.reverse_reverse]
      exact ⟨rfl, he0, hup⟩

set_option maxRecDepth 100000 in
/-- Witness of `absolute_path`: directory 1 of `docs_fs`, whose path is
`/docs`. -/
theorem absolute_path_witness :
    (1 : Int) ≠ 0 ∧ is_parent_chain docs_fs [1] 1 ∧
    get_full_path 1 1 docs_fs = some ['/', 'd', 'o', 'c', 's'] ∧
    tree_shaped docs_fs ∧ in_table 1 ∧ live docs_fs 1 ∧
    ∃ chain, chain.length ≤ MAX_FILES + 1 ∧ is_parent_chain docs_fs chain 1 :=
  ⟨by decide, by decide,
    ((absolute_path docs_fs).2.1 [1] 1 (by decide) (by decide) 1 (le_refl 1)).2 (by decide),
    by decide, by decide, by decide,
    (absolute_path docs_fs).2.2 (by decide) 1 (by decide) (by decide) (by decide)⟩

set_option maxRecDepth 100000 in
/-- Counterexample to C16 as stated: `deep_fs` is tree-shaped, entry 8 is
live and its parent chain below the root is 1, ..., 8; the path of the
claim has `8 * 32 = 256` characters and `get_full_path(8)` yields 255 of
them. -/
theorem absolute_path_counterexample :
    tree_shaped deep_fs ∧ in_table 8 ∧ live deep_fs 8 ∧
    is_parent_chain deep_fs [1, 2, 3, 4, 5, 6, 7, 8] 8 ∧
    (path_string deep_fs [1, 2, 3, 4, 5, 6, 7, 8]).length = 256 ∧
    (get_full_path 8 8 deep_fs).map List.length = some 255 ∧
    get_full_path 8 8 deep_fs ≠ some (path_string deep_fs [1, 2, 3, 4, 5, 6, 7, 8]) :=
  ⟨by decide, by decide, by decide, by decide, by decide, by decide, by decide⟩

/-! ## The tree invariant -/

/-- A ranked tree depends on the names, kinds and parent links only. -/
theorem ranked_tree_of_links (rank : Int → Nat) (B : Nat) (fs fs1 : FileSystem)
    (h : ∀ j, (fs1.files j).filename = (fs.files j).filename ∧
      (fs1.files j).is_directory = (fs.files j).is_directory ∧
      (fs1.files j).parent_dir = (fs.files j).parent_dir)
    (ht : ranked_tree rank B fs) : ranked_tree rank B fs1 := by
  obtain ⟨hroot, hB, htree⟩ := ht
  unfold ranked_tree root_ok live parent_of at *
  refine ⟨?_, hB, ?_⟩
  · rw [(h 0).1, (h 0).2.1, (h 0).2.2]; exact hroot
  · intro i hi hl hi0
    rw [(h i).1] at hl
    rw [(h i).2.2, (h _).1, (h _).2.1]
    exact htree i hi hl hi0

/-- A new entry in an empty slot, under a live directory, extends a ranked
tree. -/
theorem ranked_tree_after_create (rank : Int → Nat) (B : Nat) (fs fs1 : FileSystem)
    (slot : Int) (e : FileMetadata) (ht : ranked_tree rank B fs) (hslot : ¬ live fs slot)
    (hpt : in_table e.parent_dir) (hpl : live fs e.parent_dir)
    (hpd : (fs.files e.parent_dir).is_directory ≠ 0)
    (hfiles : fs1.files = set_at fs.files slot e) :
    ranked_tree (set_at rank slot (rank e.parent_dir + 1)) (B + 1) fs1 := by
  obtain ⟨hroot, hB, htree⟩ := ht
  have hs0 : (0 : Int) ≠ slot := by
    rintro rfl
    exact hslot hroot.1
  have hkeep : ∀ x, live fs x → fs1.files x = fs.files x ∧
      set_at rank slot (rank e.parent_dir + 1) x = rank x := by
    intro x hx
    have hxs : x ≠ slot := by
      rintro rfl
      exact hslot hx
    exact ⟨by rw [hfiles]; exact set_at_other _ _ _ _ hxs, set_at_other _ _ _ _ hxs⟩
  refine ⟨root_ok_of_entry fs fs1 (hkeep 0 hroot.1).1 hroot, ?_, ?_⟩
  · intro i
    by_cases his : i = slot
    · subst his
      rw [set_at_same]
      have := hB e.parent_dir
      omega
    · rw [set_at_other _ _ _ _ his]
      have := hB i
      omega
  · intro i hi hl hi0
    by_cases his : i = slot
    · subst his
      have hpar : parent_of fs1 i = e.parent_dir := by
        unfold parent_of; rw [hfiles, set_at_same]
      rw [hpar, set_at_same, (hkeep _ hpl).2]
      unfold live
      rw [(hkeep _ hpl).1]
      exact ⟨hpt, hpl, hpd, Nat.lt_succ_self _⟩
    · have hie : fs1.files i = fs.files i := by rw [hfiles]; exact set_at_other _ _ _ _ his
      have hli : live fs i := by unfold live at hl ⊢; rw [← hie]; exact hl
      obtain ⟨h1, h2, h3, h4⟩ := htree i hi hli hi0
      have hpar : parent_of fs1 i = parent_of fs i := by unfold parent_of; rw [hie]
      rw [hpar, (hkeep _ h2).2, set_at_other _ _ _ _ his]
      unfold live
      rw [(hkeep _ h2).1]
      exact ⟨h1, h2, h3, h4⟩

theorem strncpy_name_ne_nil (filename : List Char) (h : filename ≠ []) :
    strncpy_name filename ≠ [] := by
  cases filename with
  | nil => exact absurd rfl h
  | cons c rest => simp [strncpy_name, MAX_FILENAME]

theorem tree_inv_init (t1 t2 : Int) : tree_inv (init_filesystem t1 t2) := by
  have hz : ∀ i : Int, i ≠ 0 → (init_filesystem t1 t2).files i = zero_entry := by
    intro i hi
    show set_at (fun _ => zero_entry) 0 _ i = zero_entry
    rw [set_at_other _ _ _ _ hi]
  have hroot : root_ok (init_filesystem t1 t2) := by
    simp [root_ok, live, init_filesystem, set_at]
  refine ⟨⟨fun _ => 0, 0, hroot, fun _ => le_refl 0, ?_⟩,
    (by decide : in_table 0), hroot.1, hroot.2.1, ?_⟩
  · intro i _ hl hi0
    exact absurd hl (live_zero_entry _ i (hz i hi0))
  · intro i hl
    have hi0 : i ≠ 0 := by
      rintro rfl
      exact hl hroot.1
    rw [hz i hi0]
    rfl

theorem tree_inv_create (filename : List Char) (kind t1 t2 : Int) (fs : FileSystem)
    (hne : filename ≠ []) (h : tree_inv fs) :
    tree_inv (create_file filename kind t1 t2 fs).2 := by
  cases hres : (create_file filename kind t1 t2 fs).1 with
  | fail e => rw [create_file_fail_state filename kind t1 t2 fs e hres]; exact h
  | ok slot =>
    obtain ⟨hslot, hempty, _, _, _, hst⟩ := create_file_ok_eq filename kind t1 t2 fs slot hres
    obtain ⟨⟨rank, B, ht⟩, hct, hcl, hcd, hnl⟩ := h
    have hnot : ¬ live fs slot := fun hl => hl hempty
    have hcs : fs.current_dir ≠ slot := by
      rintro heq
      rw [heq] at hcl
      exact hnot hcl
    rw [hst]
    refine ⟨⟨_, _, ranked_tree_after_create rank B fs _ slot _ ht hnot hct hcl hcd rfl⟩,
      hct, ?_, ?_, ?_⟩
    · show (set_at fs.files slot _ fs.current_dir).filename ≠ []
      rw [set_at_other _ _ _ _ hcs]; exact hcl
    · show (set_at fs.files slot _ fs.current_dir).is_directory ≠ 0
      rw [set_at_other _ _ _ _ hcs]; exact hcd
    · intro i hi
      by_cases his : i = slot
      · subst his
        exfalso
        apply hi
        show (set_at fs.files i _ i).filename ≠ []
        rw [set_at_same]
        exact strncpy_name_ne_nil filename hne
      · have hie : set_at fs.files slot
            { filename := strncpy_name filename, size := 0, created := t1, modified := t2,
              start_block := -1, num_blocks := 0, is_directory := kind,
              parent_dir := fs.current_dir } i = fs.files i := set_at_other _ _ _ _ his
        show (set_at fs.files slot _ i).is_directory = 0
        rw [hie]
        apply hnl
        intro hl
        apply hi
        show (set_at fs.files slot _ i).filename ≠ []
        rw [hie]; exact hl

theorem write_file_current_dir (f : Int) (c : List Char) (now : Int) (fs : FileSystem) :
    (write_file f c now fs).2.current_dir = fs.current_dir := by
  have hrel : (release_old_blocks fs f).current_dir = fs.current_dir := by
    unfold release_old_blocks; split_ifs <;> rfl
  simp only [write_file]
  split_ifs
  · rfl
  · rfl
  · exact hrel
  · simp only [(write_blocks_files _ _ _ _ _ _ _).2.2]
    exact hrel

theorem tree_inv_write (f : Int) (c : List Char) (now : Int) (fs : FileSystem)
    (h : tree_inv fs) : tree_inv (write_file f c now fs).2 := by
  obtain ⟨⟨rank, B, ht⟩, hct, hcl, hcd, hnl⟩ := h
  have hk := write_file_files_kind f c now fs
  refine ⟨⟨rank, B, ranked_tree_of_links rank B fs _ hk ht⟩, ?_, ?_, ?_, ?_⟩
  · rw [write_file_current_dir]; exact hct
  · unfold live; rw [write_file_current_dir, (hk _).1]; exact hcl
  · rw [write_file_current_dir, (hk _).2.1]; exact hcd
  · intro i hi
    unfold live at hi
    rw [(hk i).1] at hi
    rw [(hk i).2.1]
    exact hnl i hi

theorem tree_inv_delete (f : Int) (fs : FileSystem) (h : tree_inv fs) :
    tree_inv (delete_file f fs).2 := by
  rcases delete_file_cases fs f with ⟨_, he⟩ | ⟨_, _, _, he⟩ | ⟨_, _, hfile, he⟩
  · rw [he]; exact h
  · rw [he]; exact h
  · rw [he]
    obtain ⟨⟨rank, B, ht⟩, hct, hcl, hcd, hnl⟩ := h
    have hcf : fs.current_dir ≠ f := by
      rintro heq
      rw [heq] at hcd
      exact hcd hfile
    have hce : set_at fs.files f zero_entry fs.current_dir = fs.files fs.current_dir :=
      set_at_other _ _ _ _ hcf
    refine ⟨⟨rank, B, ranked_tree_after_file rank B fs f ht hfile⟩, hct, ?_, ?_, ?_⟩
    · show (set_at fs.files f zero_entry fs.current_dir).filename ≠ []
      rw [hce]; exact hcl
    · show (set_at fs.files f zero_entry fs.current_dir).is_directory ≠ 0
      rw [hce]; exact hcd
    · intro i hi
      show (set_at fs.files f zero_entry i).is_directory = 0
      by_cases hif : i = f
      · subst hif; rw [set_at_same]; rfl
      · rw [set_at_other _ _ _ _ hif]
        apply hnl
        intro hl
        apply hi
        show (set_at fs.files f zero_entry i).filename ≠ []
        rw [set_at_other _ _ _ _ hif]; exact hl

theorem tree_inv_delete_dir (fs fs1 : FileSystem) (fuel : Nat) (d : Int) (r : Outcome Int)
    (h : tree_inv fs) (hd : in_table d) (hsafe : ¬ in_subtree fs d fs.current_dir)
    (hrun : delete_directory_recursive fuel d fs = some (r, fs1)) : tree_inv fs1 := by
  obtain ⟨⟨rank, B, ht⟩, hct, hcl, hcd, hnl⟩ := h
  by_cases hdir : (fs.files d).is_directory = 0
  · have : fs1 = fs := by
      cases fuel with
      | zero => simp [delete_directory_recursive] at hrun
      | succ fuel =>
        rw [delete_directory_recursive, if_pos hdir] at hrun
        simp only [Option.some.injEq, Prod.mk.injEq] at hrun
        exact hrun.2.symm
    rw [this]
    exact ⟨⟨rank, B, ht⟩, hct, hcl, hcd, hnl⟩
  · have hl : live fs d := by
      by_contra hl
      exact hdir (hnl d hl)
    have hd0 : d ≠ 0 := by
      rintro rfl
      rw [delete_directory_recursive_root_diverges fs ht.1 fuel] at hrun
      simp at hrun
    obtain ⟨fs2, hrun2, herased⟩ :=
      delete_directory_recursive_tree rank B (B + 1) d fs ht hd hd0 hl hdir (by omega)
    have heq := delete_directory_recursive_fuel_unique _ _ d fs _ _ hrun hrun2
    simp only [Prod.mk.injEq] at heq
    obtain ⟨_, hfs⟩ := heq
    subst hfs
    have hcur := (delete_directory_recursive_frame fuel d fs fs1 r hrun).1
    have ht1 := ranked_tree_after_erase rank B fs fs1 d ht hd0 herased
    obtain ⟨p1, p2, p3⟩ := herased
    have hce : fs1.files fs.current_dir = fs.files fs.current_dir := by
      by_contra hne
      exact hsafe (p2 _ hne)
    refine ⟨⟨rank, B, ht1⟩, by rw [hcur]; exact hct, ?_, ?_, ?_⟩
    · unfold live; rw [hcur, hce]; exact hcl
    · rw [hcur, hce]; exact hcd
    · intro i hi
      rcases p1 i with hk | hz
      · rw [hk]
        apply hnl
        intro hli
        apply hi
        unfold live at hli ⊢
        rw [hk]; exact hli
      · rw [hz]; rfl

theorem tree_inv_cd (arg1 : List Char) (fs : FileSystem) (h : tree_inv fs) :
    tree_inv (cd_command arg1 fs).2 := by
  obtain ⟨⟨rank, B, ht⟩, hct, hcl, hcd, hnl⟩ := h
  have hfiles := cd_command_files arg1 fs
  have hcur : in_table (cd_command arg1 fs).2.current_dir ∧
      live fs (cd_command arg1 fs).2.current_dir ∧
      (fs.files (cd_command arg1 fs).2.current_dir).is_directory ≠ 0 := by
    simp only [cd_command]
    split_ifs with h1 h2 h3 h4
    · obtain ⟨q1, q2, q3, _⟩ := ht.2.2 fs.current_dir hct hcl h2
      exact ⟨q1, q2, q3⟩
    · exact ⟨hct, hcl, hcd⟩
    · exact ⟨hct, hcl, hcd⟩
    · exact ⟨hct, hcl, hcd⟩
    · rcases find_file_in_dir_loop_spec fs arg1 fs.current_dir MAX_FILES 0 (le_refl 0) with
        ⟨q1, _⟩ | ⟨q1, q2, q3, _⟩
      · exact absurd q1 h3
      · exact ⟨⟨q1, by simpa using q2⟩, q3.1, h4⟩
  refine ⟨⟨rank, B, ranked_tree_of_links rank B fs _ (fun j => by rw [hfiles]; exact ⟨rfl, rfl, rfl⟩) ht⟩,
    hcur.1, ?_, ?_, ?_⟩
  · unfold live; rw [hfiles]; exact hcur.2.1
  · rw [hfiles]; exact hcur.2.2
  · intro i hi
    unfold live at hi
    rw [hfiles] at hi ⊢
    exact hnl i hi

theorem safe_reachable_tree_inv (fs : FileSystem) (h : SafeReachable fs) : tree_inv fs := by
  induction h with
  | init t1 t2 => exact tree_inv_init t1 t2
  | create fs filename kind t1 t2 _ hne ih => exact tree_inv_create filename kind t1 t2 fs hne ih
  | write fs f c now _ ih => exact tree_inv_write f c now fs ih
  | delete fs f _ ih => exact tree_inv_delete f fs ih
  | delete_dir fs fs1 fuel d r _ hd hsafe hrun ih =>
    exact tree_inv_delete_dir fs fs1 fuel d r ih hd hsafe hrun
  | cd fs arg1 _ ih => exact tree_inv_cd arg1 fs ih

theorem safe_reachable_reachable (fs : FileSystem) (h : SafeReachable fs) : Reachable fs := by
  induction h with
  | init t1 t2 => exact Reachable.init t1 t2
  | create fs filename kind t1 t2 _ hne ih => exact Reachable.create fs filename kind t1 t2 ih hne
  | write fs f c now _ ih => exact Reachable.write fs f c now ih
  | delete fs f _ ih => exact Reachable.delete fs f ih
  | delete_dir fs fs1 fuel d r _ hd _ hrun ih => exact Reachable.delete_dir fs fs1 fuel d r ih hd hrun
  | cd fs arg1 _ ih => exact Reachable.cd fs arg1 ih

/-- In a ranked tree the ranks do not grow along the parent links of a live
entry of the table. -/
theorem rank_iterate_le (rank : Int → Nat) (B : Nat) (fs : FileSystem)
    (ht : ranked_tree rank B fs) :
    ∀ (k : Nat) (x : Int), in_table x → live fs x →
      rank ((parent_of fs)^[k] x) ≤ rank x := by
  intro k
  induction k with
  | zero => intro x _ _; exact le_refl _
  | succ k ih =>
    intro x h1 h2
    rw [Function.iterate_succ_apply]
    by_cases hx0 : x = 0
    · subst hx0
      have : parent_of fs 0 = 0 := ht.1.2.2
      rw [this, parent_iterate_root fs ht.1 k]
    · obtain ⟨h3, h4, _, h6⟩ := ht.2.2 x h1 h2 hx0
      have := ih _ h3 h4
      omega

/-- In a ranked tree the parent links of a live entry of the table lead to
index 0 without visiting an index twice. -/
theorem simple_walk_of_ranked (rank : Int → Nat) (B : Nat) (fs : FileSystem)
    (ht : ranked_tree rank B fs) :
    ∀ (n : Nat) (i : Int), rank i ≤ n → in_table i → live fs i →
      ∃ k, simple_walk_to_root fs i k := by
  intro n
  induction n with
  | zero =>
    intro i hr hi hl
    by_cases hi0 : i = 0
    · exact ⟨0, by rw [hi0]; rfl, fun a b hab hb => by omega⟩
    · obtain ⟨_, _, _, h4⟩ := ht.2.2 i hi hl hi0
      omega
  | succ n ih =>
    intro i hr hi hl
    by_cases hi0 : i = 0
    · exact ⟨0, by rw [hi0]; rfl, fun a b hab hb => by omega⟩
    · obtain ⟨h1, h2, _, h4⟩ := ht.2.2 i hi hl hi0
      obtain ⟨k, hk, hdist⟩ := ih (parent_of fs i) (by omega) h1 h2
      refine ⟨k + 1, by rw [Function.iterate_succ_apply]; exact hk, ?_⟩
      intro a b hab hb
      obtain ⟨b1, rfl⟩ : ∃ b1, b = b1 + 1 := ⟨b - 1, by omega⟩
      rw [Function.iterate_succ_apply]
      cases a with
      | zero =>
        intro heq
        have hle := rank_iterate_le rank B fs ht b1 (parent_of fs i) h1 h2
        simp only [Function.iterate_zero, id_eq] at heq
        rw [← heq] at hle
        omega
      | succ a1 =>
        rw [Function.iterate_succ_apply]
        exact hdist a1 b1 (by omega) (by omega)

/-- Every operation other than a recursive delete of the active directory or
of a directory above it keeps the tree invariant: in every state reached
from `init_filesystem` without such a delete, `current_dir` indexes a live
directory of the table, every live entry of the table other than the root
has a `parent_dir` that indexes a live directory of the table, and
following `parent_dir` links from any live entry of the table reaches index
0 without visiting an index twice. -/
theorem tree_invariant_without_active_delete (fs : FileSystem) (h : SafeReachable fs) :
    (in_table fs.current_dir ∧ live fs fs.current_dir ∧
      (fs.files fs.current_dir).is_directory ≠ 0) ∧
    (∀ i, in_table i → live fs i → i ≠ 0 →
      in_table (fs.files i).parent_dir ∧ live fs (fs.files i).parent_dir ∧
        (fs.files (fs.files i).parent_dir).is_directory ≠ 0) ∧
    (∀ i, in_table i → live fs i → ∃ k, simple_walk_to_root fs i k) := by
  obtain ⟨⟨rank, B, ht⟩, hct, hcl, hcd, _⟩ := safe_reachable_tree_inv fs h
  refine ⟨⟨hct, hcl, hcd⟩, ?_, ?_⟩
  · intro i hi hl hi0
    obtain ⟨h1, h2, h3, _⟩ := ht.2.2 i hi hl hi0
    exact ⟨h1, h2, h3⟩
  · intro i hi hl
    exact simple_walk_of_ranked rank B fs ht (rank i) i (le_refl _) hi hl

/-- The state `docs_tree_fs` is reached without deleting anything. -/
theorem safe_reachable_docs_tree_fs : SafeReachable docs_tree_fs :=
  SafeReachable.cd _ _ (SafeReachable.write _ _ _ _ (SafeReachable.create _ _ _ _ _
    (SafeReachable.cd _ _ (SafeReachable.create _ _ _ _ _ (SafeReachable.init 0 0)
      (by decide))) (by decide)))

set_option maxRecDepth 100000 in
/-- Example of `tree_invariant_without_active_delete`: in `docs_tree_fs` the
file 2 lies in the directory 1, which lies in the root. -/
theorem tree_invariant_without_active_delete_example :
    SafeReachable docs_tree_fs ∧ in_table 2 ∧ live docs_tree_fs 2 ∧
    (docs_tree_fs.files 2).parent_dir = 1 ∧ (docs_tree_fs.files 1).parent_dir = 0 ∧
    (in_table (docs_tree_fs.files 2).parent_dir ∧ live docs_tree_fs (docs_tree_fs.files 2).parent_dir ∧
      (docs_tree_fs.files (docs_tree_fs.files 2).parent_dir).is_directory ≠ 0) ∧
    ∃ k, simple_walk_to_root docs_tree_fs 2 k :=
  ⟨safe_reachable_docs_tree_fs, by decide, by decide, by decide, by decide,
    (tree_invariant_without_active_delete docs_tree_fs safe_reachable_docs_tree_fs).2.1 2 (by decide) (by decide)
      (by decide),
    (tree_invariant_without_active_delete docs_tree_fs safe_reachable_docs_tree_fs).2.2 2 (by decide) (by decide)⟩

theorem delete_docs_recursive_eq :
    delete_directory_recursive 1 1 in_docs_fs = some (Outcome.ok 0, erase_entry in_docs_fs 1) := by
  rfl

theorem reachable_orphan_fs : Reachable orphan_fs :=
  Reachable.create _ _ _ _ _
    (Reachable.delete_dir in_docs_fs _ 1 1 _
      (Reachable.cd _ _ (Reachable.create _ _ _ _ _ (Reachable.init 0 0) (by decide)))
      (by decide) delete_docs_recursive_eq)
    (by decide)

/-- In `orphan_fs` the loop of `get_full_path` started on entry 1 does not
end: the parent of entry 1 is entry 1. -/
theorem get_full_path_loop_orphan (fuel : Nat) :
    ∀ temp_path : List Char, get_full_path_loop orphan_fs fuel 1 temp_path = none := by
  have hp : (orphan_fs.files 1).parent_dir = 1 := by decide
  induction fuel with
  | zero => intro temp_path; rfl
  | succ fuel ih =>
    intro temp_path
    rw [get_full_path_loop, if_neg (by decide), hp]
    exact ih _

theorem get_full_path_orphan (fuel : Nat) : get_full_path fuel 1 orphan_fs = none := by
  unfold get_full_path
  rw [if_neg (by decide)]
  exact get_full_path_loop_orphan fuel []

theorem parent_iterate_orphan (k : Nat) : (parent_of orphan_fs)^[k] 1 = 1 := by
  induction k with
  | zero => rfl
  | succ k ih =>
    rw [Function.iterate_succ_apply]
    have : parent_of orphan_fs 1 = 1 := by decide
    rw [this]; exact ih

/-- The `delete 1` command in `in_docs_fs` at any nesting depth at which it
returns. -/
theorem delete_docs_unique (fuel : Nat) (r : Outcome Int) (fs1 : FileSystem)
    (h : delete_command fuel 1 in_docs_fs = some (r, fs1)) :
    r = Outcome.ok 0 ∧ fs1 = erase_entry in_docs_fs 1 := by
  have hcmd : delete_command fuel 1 in_docs_fs = delete_directory_recursive fuel 1 in_docs_fs := by
    simp only [delete_command]
    rw [if_neg (by decide), if_pos (by decide)]
  rw [hcmd] at h
  have heq := delete_directory_recursive_fuel_unique _ _ 1 in_docs_fs _ _ h
    delete_docs_recursive_eq
  simp only [Prod.mk.injEq] at heq
  exact heq

set_option maxRecDepth 100000 in
/-- C5 on the code (active-directory re-homing, failing input): after `mkdir
docs` and `cd docs` the active directory is slot 1, a live directory whose
parent is the root 0. `delete 1` succeeds, at every nesting depth at which
it returns, and leaves `current_dir == 1`, not 0, and slot 1 empty:
`current_dir` no longer indexes a live directory. The next `create a` takes
slot 1 and stores `parent_dir = current_dir = 1` in it, and from then on
`get_full_path(current_dir)`, which `print_prompt` calls before every
command, does not return, however many iterations it is given. -/
theorem active_directory_not_rehomed :
    Reachable in_docs_fs ∧ in_docs_fs.current_dir = 1 ∧ live in_docs_fs 1 ∧
    (in_docs_fs.files 1).is_directory ≠ 0 ∧ (in_docs_fs.files 1).parent_dir = 0 ∧
    delete_command 1 1 in_docs_fs = some (Outcome.ok 0, erase_entry in_docs_fs 1) ∧
    (∀ fuel r fs1, delete_command fuel 1 in_docs_fs = some (r, fs1) →
      r = Outcome.ok 0 ∧ fs1 = erase_entry in_docs_fs 1) ∧
    (erase_entry in_docs_fs 1).current_dir = 1 ∧
    (erase_entry in_docs_fs 1).current_dir ≠ (in_docs_fs.files 1).parent_dir ∧
    ¬ live (erase_entry in_docs_fs 1) (erase_entry in_docs_fs 1).current_dir ∧
    (create_file ['a'] 0 0 0 (erase_entry in_docs_fs 1)).1 = Outcome.ok 1 ∧
    orphan_fs.current_dir = 1 ∧
    (orphan_fs.files orphan_fs.current_dir).is_directory = 0 ∧
    (orphan_fs.files orphan_fs.current_dir).parent_dir = orphan_fs.current_dir ∧
    ∀ fuel, get_full_path fuel orphan_fs.current_dir orphan_fs = none :=
  ⟨Reachable.cd _ _ (Reachable.create _ _ _ _ _ (Reachable.init 0 0) (by decide)),
    by decide, by decide, by decide, by decide, delete_docs_eq, delete_docs_unique,
    by decide, by decide, by decide, by decide, by decide, by decide, by decide,
    get_full_path_orphan⟩

set_option maxRecDepth 100000 in
/-- C17 on the code (tree invariant, failing input): `mkdir docs`, `cd docs`,
`delete 1` (which succeeds and leaves `current_dir == 1`), `create a`. The
new file gets the first empty slot, slot 1, with `parent_dir == current_dir
== 1`: in this reachable state the live entry 1 is not the root, its parent
is itself, a file and not a directory, following `parent_dir` links from it
never reaches index 0, and the walk of `get_full_path(1)` up these links
does not return, however many iterations it is given. -/
theorem tree_invariant_broken_after_active_delete :
    Reachable orphan_fs ∧
    delete_command 1 1 in_docs_fs = some (Outcome.ok 0, erase_entry in_docs_fs 1) ∧
    (create_file ['a'] 0 0 0 (erase_entry in_docs_fs 1)).1 = Outcome.ok 1 ∧
    in_table 1 ∧ live orphan_fs 1 ∧ (orphan_fs.files 1).parent_dir = 1 ∧
    (orphan_fs.files (orphan_fs.files 1).parent_dir).is_directory = 0 ∧
    (∀ k : Nat, (parent_of orphan_fs)^[k] 1 ≠ 0) ∧
    ∀ fuel, get_full_path fuel 1 orphan_fs = none := by
  refine ⟨reachable_orphan_fs, delete_docs_eq, by decide, by decide, by decide, by decide,
    by decide, ?_, get_full_path_orphan⟩
  intro k
  rw [parent_iterate_orphan k]
  decide

/-! ## Writing the same content twice -/

/-- After a successful `write_file(f, c)`, `read_file(f)` returns the bytes
of `c` and the terminating NUL. -/
theorem read_file_after_write (fs : FileSystem) (f : Int) (c : List Char) (now v : Int)
    (h : (write_file f c now fs).1 = Outcome.ok v) :
    read_file f (write_file f c now fs).2 = Outcome.ok (c_bytes c) := by
  obtain ⟨_, hf, hl, hd, hfound⟩ := write_file_ok_eq fs f c now v h
  obtain ⟨hn1, hlo, hhi, hcast⟩ := blocks_needed_bounds c
  rcases find_contiguous_spec (release_old_blocks fs f).free_blocks (blocks_needed c) hn1 with
    ⟨heq, h0, hle, hrun, _⟩ | ⟨hlt, _⟩
  · rw [write_file_success fs f c now hf hl hd hfound]
    unfold in_table live at *
    have h1 : ¬ (f < 0 ∨ f ≥ (MAX_FILES : Int) ∨ (fs.files f).filename = []) := by
      rintro (h | h | h)
      · omega
      · omega
      · exact hl h
    have hs : ¬ (find_contiguous (release_old_blocks fs f).free_blocks (blocks_needed c)
        MAX_BLOCKS 0 (-1) 0).1 = -1 := by omega
    simp only [read_file, set_at_same, h1, hd, hs, if_false, ne_eq, not_true_eq_false]
    congr 1
    have := read_blocks_eq
      { (write_blocks c (c.length + 1)
            (find_contiguous (release_old_blocks fs f).free_blocks (blocks_needed c)
              MAX_BLOCKS 0 (-1) 0).1
            (blocks_needed c) (blocks_needed c).toNat 0 (release_old_blocks fs f)) with
          files := set_at fs.files f
            { (fs.files f) with
              start_block := (find_contiguous (release_old_blocks fs f).free_blocks
                (blocks_needed c) MAX_BLOCKS 0 (-1) 0).1
              num_blocks := blocks_needed c
              size := c.length + 1
              modified := now } }
      { (fs.files f) with
              start_block := (find_contiguous (release_old_blocks fs f).free_blocks
                (blocks_needed c) MAX_BLOCKS 0 (-1) 0).1
              num_blocks := blocks_needed c
              size := c.length + 1
              modified := now }
      c (blocks_needed c).toNat hcast rfl hlo hhi
      (fun j o hj ho => write_blocks_blocks c (c.length + 1) _ (blocks_needed c)
        (blocks_needed c).toNat 0 (release_old_blocks fs f) j o (Nat.zero_le j) (by omega) ho)
      (blocks_needed c).toNat 0 [] (by omega)
    simpa [hd] using this
  · exact absurd hlt hfound

/-- The entry a successful `write_file(f, c)` leaves in slot `f`, and where
its blocks lie. -/
theorem write_file_entry (fs : FileSystem) (f : Int) (c : List Char) (now v : Int)
    (h : (write_file f c now fs).1 = Outcome.ok v) :
    ((write_file f c now fs).2.files f).filename = (fs.files f).filename ∧
    ((write_file f c now fs).2.files f).is_directory = 0 ∧
    ((write_file f c now fs).2.files f).size = c.length + 1 ∧
    ((write_file f c now fs).2.files f).num_blocks = blocks_needed c ∧
    0 ≤ ((write_file f c now fs).2.files f).start_block ∧
    ((write_file f c now fs).2.files f).start_block + blocks_needed c ≤ (MAX_BLOCKS : Int) ∧
    ∀ b, ((write_file f c now fs).2.files f).start_block ≤ b →
      b < ((write_file f c now fs).2.files f).start_block + blocks_needed c →
      (write_file f c now fs).2.free_blocks b = 0 := by
  obtain ⟨_, hf, hl, hd, hfound⟩ := write_file_ok_eq fs f c now v h
  obtain ⟨hn1, _, _, hcast⟩ := blocks_needed_bounds c
  rcases find_contiguous_spec (release_old_blocks fs f).free_blocks (blocks_needed c) hn1 with
    ⟨_, h0, hle, _, _⟩ | ⟨hlt, _⟩
  · rw [write_file_success fs f c now hf hl hd hfound]
    simp only [set_at_same]
    refine ⟨trivial, hd, trivial, trivial, h0, hle, ?_⟩
    intro b hb1 hb2
    rw [write_blocks_free_blocks, if_pos]
    omega
  · exact absurd hlt hfound

/-- C21 (idempotent re-write): for every state, a fortiori every reachable
one, every `f` and content `c`: if `write_file(f, c)` succeeds then a
second `write_file(f, c)` succeeds too, whatever the clock reads, the size
of the entry is `len(c) + 1` after each of the two writes, and `read_file(f)`
returns the same value after the second write as after the first: the bytes
of `c` followed by the terminating NUL. -/
theorem idempotent_rewrite (fs : FileSystem) (f : Int) (c : List Char) (now1 now2 : Int)
    (h : (write_file f c now1 fs).1 = Outcome.ok 0) :
    (write_file f c now2 (write_file f c now1 fs).2).1 = Outcome.ok 0 ∧
    ((write_file f c now2 (write_file f c now1 fs).2).2.files f).size =
      ((write_file f c now1 fs).2.files f).size ∧
    read_file f (write_file f c now2 (write_file f c now1 fs).2).2 =
      read_file f (write_file f c now1 fs).2 ∧
    read_file f (write_file f c now1 fs).2 = Outcome.ok (c_bytes c) := by
  obtain ⟨_, hf, hl, _, _⟩ := write_file_ok_eq fs f c now1 0 h
  obtain ⟨e1, e2, e3, e4, e5, e6, _⟩ := write_file_entry fs f c now1 0 h
  obtain ⟨hn1, _, _, _⟩ := blocks_needed_bounds c
  have hl1 : live (write_file f c now1 fs).2 f := by
    unfold live at hl ⊢; rw [e1]; exact hl
  have hfound : ¬ (find_contiguous
      (release_old_blocks (write_file f c now1 fs).2 f).free_blocks (blocks_needed c)
      MAX_BLOCKS 0 (-1) 0).2 < blocks_needed c := by
    rcases find_contiguous_spec (release_old_blocks (write_file f c now1 fs).2 f).free_blocks
      (blocks_needed c) hn1 with ⟨heq, _⟩ | ⟨_, hno⟩
    · omega
    · exfalso
      apply hno _ e5 e6
      intro j hj1 hj2
      rw [release_old_blocks_free, if_pos]
      · decide
      · unfold in_old_range
        rw [e4]
        exact ⟨by omega, hj1, hj2⟩
  have hw2 : (write_file f c now2 (write_file f c now1 fs).2).1 = Outcome.ok 0 := by
    rw [write_file_success _ f c now2 hf hl1 e2 hfound]
  have r1 := read_file_after_write fs f c now1 0 h
  have r2 := read_file_after_write _ f c now2 0 hw2
  refine ⟨hw2, ?_, by rw [r1, r2], r1⟩
  rw [(write_file_entry _ f c now2 0 hw2).2.2.1, e3]

set_option maxRecDepth 100000 in
/-- Witness of `idempotent_rewrite`: `write 1 hi` twice in `one_file_fs`. -/
theorem idempotent_rewrite_witness :
    (write_file 1 ['h', 'i'] 0 one_file_fs).1 = Outcome.ok 0 ∧
    (write_file 1 ['h', 'i'] 7 (write_file 1 ['h', 'i'] 0 one_file_fs).2).1 = Outcome.ok 0 ∧
    read_file 1 (write_file 1 ['h', 'i'] 7 (write_file 1 ['h', 'i'] 0 one_file_fs).2).2 =
      Outcome.ok ['h', 'i', NUL] :=
  ⟨by decide, (idempotent_rewrite one_file_fs 1 ['h', 'i'] 0 7 (by decide)).1,
    ((idempotent_rewrite one_file_fs 1 ['h', 'i'] 0 7 (by decide)).2.2.1).trans
      (idempotent_rewrite one_file_fs 1 ['h', 'i'] 0 7 (by decide)).2.2.2⟩

/-! ## The by-name variant and the by-index variant -/

/-- The lookup of a name in a directory returns `-1` or the index of a live
entry of the table. -/
theorem find_file_in_dir_cases (fs : FileSystem) (filename : List Char) (dir_index : Int) :
    find_file_in_dir fs filename dir_index = -1 ∨
    (in_table (find_file_in_dir fs filename dir_index) ∧
      live fs (find_file_in_dir fs filename dir_index) ∧
      name_match fs filename dir_index (find_file_in_dir fs filename dir_index)) := by
  unfold find_file_in_dir
  rcases find_file_in_dir_loop_spec fs filename dir_index MAX_FILES 0 (le_refl 0) with
    ⟨h, _⟩ | ⟨h1, h2, h3, _⟩
  · exact Or.inl h
  · exact Or.inr ⟨⟨h1, by simpa using h2⟩, h3.1, h3⟩

/-- The index test of the by-index functions passes exactly on the results
of a lookup other than `-1`. -/
theorem index_guard_of_lookup (fs : FileSystem) (filename : List Char) (dir_index : Int) :
    (find_file_in_dir fs filename dir_index < 0 ∨
      find_file_in_dir fs filename dir_index ≥ (MAX_FILES : Int) ∨
      (fs.files (find_file_in_dir fs filename dir_index)).filename = []) ↔
    find_file_in_dir fs filename dir_index = -1 := by
  rcases find_file_in_dir_cases fs filename dir_index with h | ⟨h1, h2, _⟩
  · rw [h]; simp
  · unfold in_table live at *
    constructor
    · rintro (h | h | h)
      · omega
      · omega
      · exact absurd h h2
    · intro h
      omega

/-- C22 (the two variants are one engine): for every state, name, content
and clock reading, `write_file(name, c)`, `read_file(name)` and
`delete_file(name)` of the by-name variant return the same result and leave
the same state as `write_file(i, c)`, `read_file(i)` and `delete_file(i)` of
the by-index variant with `i = find_file_in_dir(name, current_dir)`; when
`i == -1` they fail with `NotFound` and leave the state as it is. When `i !=
-1` it is the index of a live entry of the table named `name` in the
active directory. -/
theorem variants_agree (fs : FileSystem) (name c : List Char) (now : Int) :
    Paola.write_file name c now fs =
      write_file (find_file_in_dir fs name fs.current_dir) c now fs ∧
    Paola.read_file name fs = read_file (find_file_in_dir fs name fs.current_dir) fs ∧
    Paola.delete_file name fs = delete_file (find_file_in_dir fs name fs.current_dir) fs ∧
    (find_file_in_dir fs name fs.current_dir = -1 →
      Paola.write_file name c now fs = (Outcome.fail Err.NotFound, fs) ∧
      Paola.read_file name fs = Outcome.fail Err.NotFound ∧
      Paola.delete_file name fs = (Outcome.fail Err.NotFound, fs)) ∧
    (find_file_in_dir fs name fs.current_dir ≠ -1 →
      in_table (find_file_in_dir fs name fs.current_dir) ∧
      live fs (find_file_in_dir fs name fs.current_dir) ∧
      (fs.files (find_file_in_dir fs name fs.current_dir)).filename = name ∧
      (fs.files (find_file_in_dir fs name fs.current_dir)).parent_dir = fs.current_dir) := by
  have hg := index_guard_of_lookup fs name fs.current_dir
  refine ⟨?_, ?_, ?_, ?_, ?_⟩
  · by_cases h : find_file_in_dir fs name fs.current_dir = -1
    · simp only [Paola.write_file, write_file, h, if_true]
      rfl
    · simp only [Paola.write_file, write_file, h, if_false, hg]
  · by_cases h : find_file_in_dir fs name fs.current_dir = -1
    · simp only [Paola.read_file, read_file, h, if_true]
      rfl
    · simp only [Paola.read_file, read_file, h, if_false, hg]
  · by_cases h : find_file_in_dir fs name fs.current_dir = -1
    · simp only [Paola.delete_file, delete_file, h, if_true]
      rfl
    · simp only [Paola.delete_file, delete_file, h, if_false, hg]
  · intro h
    simp only [Paola.write_file, Paola.read_file, Paola.delete_file, h, if_true, and_self]
  · intro h
    rcases find_file_in_dir_cases fs name fs.current_dir with h1 | ⟨h1, h2, h3⟩
    · exact absurd h1 h
    · exact ⟨h1, h2, h3.2.2, h3.2.1⟩

/-- Witness of `variants_agree`: after `mkdir docs`, `cd docs`, `create
a.txt` the name `a.txt` is entry 2 of the active directory, and writing by
name is writing to index 2. -/
theorem variants_agree_witness :
    find_file_in_dir (create_file ['a', '.', 't', 'x', 't'] 0 0 0 in_docs_fs).2
      ['a', '.', 't', 'x', 't']
      (create_file ['a', '.', 't', 'x', 't'] 0 0 0 in_docs_fs).2.current_dir = 2 ∧
    Paola.write_file ['a', '.', 't', 'x', 't'] ['h', 'e', 'l', 'l', 'o'] 0
        (create_file ['a', '.', 't', 'x', 't'] 0 0 0 in_docs_fs).2 =
      write_file
        (find_file_in_dir (create_file ['a', '.', 't', 'x', 't'] 0 0 0 in_docs_fs).2
          ['a', '.', 't', 'x', 't']
          (create_file ['a', '.', 't', 'x', 't'] 0 0 0 in_docs_fs).2.current_dir)
        ['h', 'e', 'l', 'l', 'o'] 0 (create_file ['a', '.', 't', 'x', 't'] 0 0 0 in_docs_fs).2 :=
  ⟨by decide,
    (variants_agree (create_file ['a', '.', 't', 'x', 't'] 0 0 0 in_docs_fs).2
      ['a', '.', 't', 'x', 't'] ['h', 'e', 'l', 'l', 'o'] 0).1⟩

/-! ## Termination of the recursive delete -/

/-- A tree of parent links is ranked by the number of links to index 0. -/
theorem ranked_links_of_tree (fs : FileSystem) (h : links_form_tree fs) :
    ∃ (rank : Int → Nat) (B : Nat), ranked_links rank B fs := by
  classical
  obtain ⟨hroot, hwalk⟩ := h
  let rank0 : Int → Nat := fun i =>
    if h : ∃ k : Nat, (parent_of fs)^[k] i = 0 then Nat.find h else 0
  let rank : Int → Nat := fun i => if in_table i then rank0 i else 0
  refine ⟨rank, (Finset.range MAX_FILES).sup (fun n : Nat => rank0 (n : Int)), hroot, ?_, ?_⟩
  · intro i
    by_cases hi : in_table i
    · obtain ⟨n, rfl⟩ : ∃ n : Nat, i = (n : Int) := ⟨i.toNat, by unfold in_table at hi; omega⟩
      have hn : n ∈ Finset.range MAX_FILES := by
        rw [Finset.mem_range]; unfold in_table at hi; omega
      have hle := Finset.le_sup (f := fun n : Nat => rank0 (n : Int)) hn
      show (if in_table (n : Int) then rank0 (n : Int) else 0) ≤ _
      rw [if_pos hi]
      exact hle
    · show (if in_table i then rank0 i else 0) ≤ _
      rw [if_neg hi]
      exact Nat.zero_le _
  · intro i hi hl hi0
    obtain ⟨k, hk, _⟩ := hwalk i hi hl hi0
    have hex : ∃ k : Nat, (parent_of fs)^[k] i = 0 := ⟨k, hk⟩
    have hri : rank i = Nat.find hex := by
      show (if in_table i then rank0 i else 0) = _
      rw [if_pos hi]
      show (if h : ∃ k : Nat, (parent_of fs)^[k] i = 0 then Nat.find h else 0) = _
      rw [dif_pos hex]
    have hspec := Nat.find_spec hex
    obtain ⟨m, hm⟩ : ∃ m, Nat.find hex = m + 1 := by
      cases hf : Nat.find hex with
      | zero =>
        rw [hf] at hspec
        exact absurd hspec hi0
      | succ m => exact ⟨m, rfl⟩
    rw [hm, Function.iterate_succ_apply] at hspec
    have hexp : ∃ k : Nat, (parent_of fs)^[k] (parent_of fs i) = 0 := ⟨m, hspec⟩
    have hrp : rank (parent_of fs i) ≤ m := by
      show (if in_table (parent_of fs i) then rank0 (parent_of fs i) else 0) ≤ m
      split_ifs
      · show (if h : ∃ k : Nat, (parent_of fs)^[k] (parent_of fs i) = 0 then Nat.find h else 0) ≤ m
        rw [dif_pos hexp]
        exact Nat.find_min' hexp hspec
      · exact Nat.zero_le _
    rw [hri, hm]
    omega

/-- Ranked links stay ranked when entries other than the root are zeroed. -/
theorem ranked_links_of_erased (rank : Int → Nat) (B : Nat) (a b : FileSystem)
    (ht : ranked_links rank B a)
    (hkeep : ∀ x, b.files x = a.files x ∨ b.files x = zero_entry)
    (hroot : b.files 0 = a.files 0) : ranked_links rank B b := by
  obtain ⟨h1, h2, h3⟩ := ht
  refine ⟨root_ok_of_entry a b hroot h1, h2, ?_⟩
  intro i hi hl hi0
  rcases hkeep i with he | he
  · have hla : live a i := by unfold live at hl ⊢; rw [← he]; exact hl
    have hp : parent_of b i = parent_of a i := by unfold parent_of; rw [he]
    rw [hp]
    exact h3 i hi hla hi0
  · exact absurd hl (live_zero_entry b i he)

/-- The loop of `delete_directory_recursive(d)` on ranked links ends when
the calls on the children do. -/
theorem delete_children_terminates (rank : Int → Nat) (B fuel : Nat)
    (ih : ∀ (d : Int) (fs : FileSystem), ranked_links rank B fs → d ≠ 0 →
      (fs.files d).is_directory ≠ 0 → B < rank d + fuel →
      ∃ fs1, delete_directory_recursive fuel d fs = some (Outcome.ok 0, fs1))
    (d : Int) (hd0 : d ≠ 0) (hB : B < rank d + (fuel + 1)) :
    ∀ (k : Nat) (i : Int) (fs : FileSystem), 0 ≤ i → i + k = (MAX_FILES : Int) →
      ranked_links rank B fs →
      ∃ fs1, delete_children (delete_directory_recursive fuel) d k i fs = some fs1 := by
  intro k
  induction k with
  | zero => intro i fs _ _ _; exact ⟨fs, rfl⟩
  | succ k ihk =>
    intro i fs hi hik ht
    have hit : in_table i := ⟨hi, by push_cast at hik; omega⟩
    have hnext : (i + 1) + (k : Int) = (MAX_FILES : Int) := by push_cast at hik; omega
    rw [delete_children]
    by_cases hc : (fs.files i).filename ≠ [] ∧ (fs.files i).parent_dir = d
    · rw [if_pos hc]
      have hl : live fs i := hc.1
      have hi0 : i ≠ 0 := by
        rintro rfl
        exact hd0 (hc.2.symm.trans ht.1.2.2)
      by_cases hdir : (fs.files i).is_directory ≠ 0
      · rw [if_pos hdir]
        have hr := ht.2.2 i hit hl hi0
        have hpar : parent_of fs i = d := hc.2
        rw [hpar] at hr
        obtain ⟨fs2, hrun⟩ := ih i fs ht hi0 hdir (by omega)
        rw [hrun]
        have ht2 : ranked_links rank B fs2 :=
          ranked_links_of_erased rank B fs fs2 ht
            (delete_directory_recursive_blocks fuel i fs fs2 _ hrun).1
            (delete_directory_recursive_root fuel i fs fs2 _ ht.1 hrun)
        exact ihk (i + 1) fs2 (by omega) hnext ht2
      · rw [if_neg hdir]
        have hfiles : (erase_entry (free_file_blocks fs i) i).files =
            set_at fs.files i zero_entry := rfl
        refine ihk (i + 1) _ (by omega) hnext
          (ranked_links_of_erased rank B fs _ ht ?_ ?_)
        · intro x
          rw [hfiles]
          by_cases hx : x = i
          · subst hx; exact Or.inr (set_at_same _ _ _)
          · exact Or.inl (set_at_other _ _ _ _ hx)
        · rw [hfiles]
          exact set_at_other _ _ _ _ (Ne.symm hi0)
    · rw [if_neg hc]
      exact ihk (i + 1) fs (by omega) hnext ht

/-- On ranked links `delete_directory_recursive(d)` returns 0 for every
directory `d` other than the root, once the nesting depth allowed covers
the ranks above `d`. -/
theorem delete_directory_recursive_terminates (rank : Int → Nat) (B : Nat) :
    ∀ (fuel : Nat) (d : Int) (fs : FileSystem), ranked_links rank B fs → d ≠ 0 →
      (fs.files d).is_directory ≠ 0 → B < rank d + fuel →
      ∃ fs1, delete_directory_recursive fuel d fs = some (Outcome.ok 0, fs1) := by
  intro fuel
  induction fuel with
  | zero =>
    intro d fs ht _ _ hB
    have := ht.2.1 d
    omega
  | succ fuel ih =>
    intro d fs ht hd0 hdir hB
    obtain ⟨fs1, hloop⟩ :=
      delete_children_terminates rank B fuel ih d hd0 hB MAX_FILES 0 fs (le_refl 0)
        (by simp) ht
    refine ⟨erase_entry fs1 d, ?_⟩
    rw [delete_directory_recursive, if_neg hdir, hloop]

/-- C23 (termination of the recursive delete): for every state whose parent
links form a tree (slot 0 is the root, and the parent chain of every live
entry other than the root reaches index 0 without visiting an index twice)
and every directory `d != 0`, the recursion of
`delete_directory_recursive(d)` is well-founded: there is a nesting depth
from which on the call returns, it returns 0, and a call that returns at
any nesting depth returns 0 with the same final state. -/
theorem recursive_delete_terminates (fs : FileSystem) (d : Int) (htree : links_form_tree fs)
    (hd0 : d ≠ 0) (hdir : (fs.files d).is_directory ≠ 0) :
    ∃ (depth : Nat) (fs1 : FileSystem),
      (∀ fuel, depth ≤ fuel →
        delete_directory_recursive fuel d fs = some (Outcome.ok 0, fs1)) ∧
      ∀ fuel r fs2, delete_directory_recursive fuel d fs = some (r, fs2) →
        r = Outcome.ok 0 ∧ fs2 = fs1 := by
  obtain ⟨rank, B, ht⟩ := ranked_links_of_tree fs htree
  obtain ⟨fs1, hrun⟩ :=
    delete_directory_recursive_terminates rank B (B + 1) d fs ht hd0 hdir (by omega)
  refine ⟨B + 1, fs1, ?_, ?_⟩
  · intro fuel hfuel
    obtain ⟨n, rfl⟩ : ∃ n, fuel = B + 1 + n := ⟨fuel - (B + 1), by omega⟩
    exact delete_directory_recursive_fuel_add (B + 1) d fs _ hrun n
  · intro fuel r fs2 h
    have heq := delete_directory_recursive_fuel_unique _ _ d fs _ _ h hrun
    simp only [Prod.mk.injEq] at heq
    exact heq

/-- Tree-shaped parent links form a tree. -/
theorem links_form_tree_of_tree_shaped (fs : FileSystem) (h : tree_shaped fs) :
    links_form_tree fs :=
  ⟨h.1, fun i hi hl _ =>
    simple_walk_of_ranked _ _ fs (ranked_tree_of_tree_shaped fs h) _ i (le_refl _) hi hl⟩

/-- Witness of `recursive_delete_terminates`: `delete 1` in `docs_tree_fs`,
where directory 1 holds file 2. -/
theorem recursive_delete_terminates_witness :
    links_form_tree docs_tree_fs ∧ (1 : Int) ≠ 0 ∧ (docs_tree_fs.files 1).is_directory ≠ 0 ∧
    ∃ (depth : Nat) (fs1 : FileSystem),
      (∀ fuel, depth ≤ fuel →
        delete_directory_recursive fuel 1 docs_tree_fs = some (Outcome.ok 0, fs1)) ∧
      ∀ fuel r fs2, delete_directory_recursive fuel 1 docs_tree_fs = some (r, fs2) →
        r = Outcome.ok 0 ∧ fs2 = fs1 :=
  ⟨links_form_tree_of_tree_shaped _ tree_shaped_docs_tree_fs, by decide, by decide,
    recursive_delete_terminates docs_tree_fs 1
      (links_form_tree_of_tree_shaped _ tree_shaped_docs_tree_fs) (by decide) (by decide)⟩

/-! ## Block indices stay inside the store -/

theorem entry_in_bounds_zero_entry : entry_in_bounds zero_entry := by
  unfold entry_in_bounds zero_entry MAX_BLOCKS
  simp

/-- The entry a successful `write_file` installs has its range inside the
store. -/
theorem entry_in_bounds_written (fs : FileSystem) (f : Int) (c : List Char) (now v : Int)
    (h : (write_file f c now fs).1 = Outcome.ok v) :
    entry_in_bounds ((write_file f c now fs).2.files f) := by
  obtain ⟨_, _, _, e4, e5, e6, _⟩ := write_file_entry fs f c now v h
  obtain ⟨hn1, _, _, _⟩ := blocks_needed_bounds c
  right
  rw [e4]
  exact ⟨e5, by omega, e6⟩

/-- In every reachable state the block range of every entry is inside the
store, and an entry with `start_block == -1` has no blocks. -/
theorem reachable_entry_in_bounds (fs : FileSystem) (h : Reachable fs) :
    ∀ i, entry_in_bounds (fs.files i) := by
  induction h with
  | init t1 t2 =>
    intro i
    by_cases hi : i = 0
    · subst hi
      unfold entry_in_bounds init_filesystem set_at zero_entry MAX_BLOCKS
      simp
    · have : (init_filesystem t1 t2).files i = zero_entry := by
        simp [init_filesystem, set_at, hi]
      rw [this]; exact entry_in_bounds_zero_entry
  | create fs filename kind t1 t2 hr _ ih =>
    intro i
    cases hres : (create_file filename kind t1 t2 fs).1 with
    | fail e => rw [create_file_fail_state filename kind t1 t2 fs e hres]; exact ih i
    | ok slot =>
      obtain ⟨_, _, _, _, _, hst⟩ := create_file_ok_eq filename kind t1 t2 fs slot hres
      rw [hst]
      by_cases hi : i = slot
      · subst hi
        simp only [set_at_same]
        exact Or.inl ⟨rfl, rfl⟩
      · simp only [set_at_other _ _ _ _ hi]; exact ih i
  | write fs f c now _ ih =>
    intro i
    by_cases hi : i = f
    · subst hi
      cases hres : (write_file i c now fs).1 with
      | fail e =>
        rcases write_file_fail_cases fs i c now e hres with h1 | ⟨_, h1⟩
        · rw [h1]; exact ih i
        · rw [h1, release_old_blocks_files]; exact ih i
      | ok v => exact entry_in_bounds_written fs i c now v hres
    · rw [write_file_files_other f c now fs i hi]; exact ih i
  | delete fs f _ ih =>
    intro i
    rcases delete_file_cases fs f with ⟨_, h1⟩ | ⟨_, _, _, h1⟩ | ⟨_, _, _, h1⟩
    · rw [h1]; exact ih i
    · rw [h1]; exact ih i
    · rw [h1]
      show entry_in_bounds (set_at fs.files f zero_entry i)
      by_cases hi : i = f
      · subst hi; rw [set_at_same]; exact entry_in_bounds_zero_entry
      · rw [set_at_other _ _ _ _ hi]; exact ih i
  | delete_dir fs fs1 fuel d r _ _ hdel ih =>
    intro i
    rcases (delete_directory_recursive_blocks fuel d fs fs1 r hdel).1 i with h1 | h1
    · rw [h1]; exact ih i
    · rw [h1]; exact entry_in_bounds_zero_entry
  | cd fs arg1 _ ih =>
    intro i
    rw [cd_command_files]; exact ih i

/-- The indices of a loop over a range inside the store are inside the
store. -/
theorem range_indices_in_store (e : FileMetadata) (h : entry_in_bounds e) :
    ∀ b ∈ range_indices e, in_store b := by
  intro b hb
  unfold range_indices at hb
  rw [List.mem_map] at hb
  obtain ⟨j, hj, rfl⟩ := hb
  rw [List.mem_range] at hj
  unfold in_store
  rcases h with ⟨_, h2⟩ | ⟨h1, h2, h3⟩
  · rw [h2] at hj
    simp at hj
  · omega

theorem write_file_indices_in_store (fs : FileSystem) (f : Int) (c : List Char)
    (h : entry_in_bounds (fs.files f)) : ∀ b ∈ write_file_indices f c fs, in_store b := by
  intro b hb
  simp only [write_file_indices] at hb
  split_ifs at hb with h1 h2 h3 h4
  · simp at hb
  · simp at hb
  all_goals
    obtain ⟨hn1, _, _, hcast⟩ := blocks_needed_bounds c
    simp only [List.mem_append, List.mem_map, List.mem_range, List.not_mem_nil, or_false,
      false_or] at hb
  · rcases hb with hb | ⟨i, hi, rfl⟩
    · exact range_indices_in_store _ h b hb
    · exact ⟨by omega, by omega⟩
  · rcases find_contiguous_spec (release_old_blocks fs f).free_blocks (blocks_needed c) hn1 with
      ⟨_, h0, hle, _, _⟩ | ⟨hlt, _⟩
    · rcases hb with (hb | ⟨i, hi, rfl⟩) | ⟨i, hi, rfl⟩
      · exact range_indices_in_store _ h b hb
      · exact ⟨by omega, by omega⟩
      · unfold in_store; omega
    · exact absurd hlt (by assumption)
  · obtain ⟨i, hi, rfl⟩ := hb
    exact ⟨by omega, by omega⟩
  · rcases find_contiguous_spec (release_old_blocks fs f).free_blocks (blocks_needed c) hn1 with
      ⟨_, h0, hle, _, _⟩ | ⟨hlt, _⟩
    · rcases hb with ⟨i, hi, rfl⟩ | ⟨i, hi, rfl⟩
      · exact ⟨by omega, by omega⟩
      · unfold in_store; omega
    · exact absurd hlt (by assumption)

theorem read_file_indices_in_store (fs : FileSystem) (f : Int)
    (h : entry_in_bounds (fs.files f)) : ∀ b ∈ read_file_indices f fs, in_store b := by
  intro b hb
  simp only [read_file_indices] at hb
  split_ifs at hb
  · simp at hb
  · simp at hb
  · simp at hb
  · exact range_indices_in_store _ h b hb

theorem delete_file_indices_in_store (fs : FileSystem) (f : Int)
    (h : entry_in_bounds (fs.files f)) : ∀ b ∈ delete_file_indices f fs, in_store b := by
  intro b hb
  simp only [delete_file_indices] at hb
  split_ifs at hb
  · simp at hb
  · simp at hb
  · exact range_indices_in_store _ h b hb

/-- The loop with indices passes through the states of the loop without. -/
theorem delete_children_indices_state (fuel : Nat)
    (ih : ∀ (d : Int) (fs : FileSystem),
      (delete_directory_recursive_indices fuel d fs).map Prod.snd =
        (delete_directory_recursive fuel d fs).map Prod.snd)
    (d : Int) :
    ∀ (k : Nat) (i : Int) (fs : FileSystem),
      (delete_children_indices (delete_directory_recursive_indices fuel) d k i fs).map Prod.snd =
        delete_children (delete_directory_recursive fuel) d k i fs := by
  intro k
  induction k with
  | zero => intro i fs; rfl
  | succ k ihk =>
    intro i fs
    rw [delete_children_indices, delete_children]
    split_ifs with hc hdir
    · have h := ih i fs
      cases h1 : delete_directory_recursive_indices fuel i fs with
      | none =>
        rw [h1] at h
        cases h2 : delete_directory_recursive fuel i fs with
        | none => rfl
        | some res => rw [h2] at h; simp at h
      | some res1 =>
        obtain ⟨l1, fs1⟩ := res1
        rw [h1] at h
        cases h2 : delete_directory_recursive fuel i fs with
        | none => rw [h2] at h; simp at h
        | some res =>
          obtain ⟨r, fs2⟩ := res
          rw [h2] at h
          simp only [Option.map_some', Option.some.injEq] at h
          subst h
          simp only
          rw [← ihk (i + 1) fs1]
          cases delete_children_indices (delete_directory_recursive_indices fuel) d k (i + 1)
            fs1 with
          | none => rfl
          | some res3 => rfl
    · rw [← ihk (i + 1) (erase_entry (free_file_blocks fs i) i)]
      cases delete_children_indices (delete_directory_recursive_indices fuel) d k (i + 1)
        (erase_entry (free_file_blocks fs i) i) with
      | none => rfl
      | some res3 => rfl
    · exact ihk (i + 1) fs

/-- Function `delete_directory_recursive_indices` returns when
`delete_directory_recursive` does, with the same final state. -/
theorem delete_directory_recursive_indices_state :
    ∀ (fuel : Nat) (d : Int) (fs : FileSystem),
      (delete_directory_recursive_indices fuel d fs).map Prod.snd =
        (delete_directory_recursive fuel d fs).map Prod.snd := by
  intro fuel
  induction fuel with
  | zero => intro d fs; rfl
  | succ fuel ih =>
    intro d fs
    rw [delete_directory_recursive_indices, delete_directory_recursive]
    split_ifs with hdir
    · rfl
    · rw [← delete_children_indices_state fuel ih d MAX_FILES 0 fs]
      cases delete_children_indices (delete_directory_recursive_indices fuel) d MAX_FILES 0
        fs with
      | none => rfl
      | some res => rfl

/-- When every range is inside the store, the indices computed by the loop
of the recursive delete are, and the ranges of the final state are. -/
theorem delete_children_indices_in_store (fuel : Nat)
    (ih : ∀ (d : Int) (fs fs1 : FileSystem) (l : List Int),
      (∀ i, entry_in_bounds (fs.files i)) →
      delete_directory_recursive_indices fuel d fs = some (l, fs1) →
      (∀ b ∈ l, in_store b) ∧ ∀ i, entry_in_bounds (fs1.files i))
    (d : Int) :
    ∀ (k : Nat) (i : Int) (fs fs1 : FileSystem) (l : List Int),
      (∀ i, entry_in_bounds (fs.files i)) →
      delete_children_indices (delete_directory_recursive_indices fuel) d k i fs =
        some (l, fs1) →
      (∀ b ∈ l, in_store b) ∧ ∀ i, entry_in_bounds (fs1.files i) := by
  intro k
  induction k with
  | zero =>
    intro i fs fs1 l hfs h
    simp only [delete_children_indices, Option.some.injEq, Prod.mk.injEq] at h
    obtain ⟨rfl, rfl⟩ := h
    exact ⟨fun b hb => by simp at hb, hfs⟩
  | succ k ihk =>
    intro i fs fs1 l hfs h
    rw [delete_children_indices] at h
    split_ifs at h with hc hdir
    · cases h1 : delete_directory_recursive_indices fuel i fs with
      | none => rw [h1] at h; simp at h
      | some res1 =>
        obtain ⟨l1, fs2⟩ := res1
        rw [h1] at h
        simp only at h
        obtain ⟨q1, q2⟩ := ih i fs fs2 l1 hfs h1
        cases h2 : delete_children_indices (delete_directory_recursive_indices fuel) d k
            (i + 1) fs2 with
        | none => rw [h2] at h; simp at h
        | some res2 =>
          obtain ⟨l2, fs3⟩ := res2
          rw [h2] at h
          simp only [Option.some.injEq, Prod.mk.injEq] at h
          obtain ⟨rfl, rfl⟩ := h
          obtain ⟨q3, q4⟩ := ihk (i + 1) fs2 fs3 l2 q2 h2
          refine ⟨?_, q4⟩
          intro b hb
          rcases List.mem_append.1 hb with hb | hb
          · exact q1 b hb
          · exact q3 b hb
    · have hnext : ∀ x, entry_in_bounds ((erase_entry (free_file_blocks fs i) i).files x) := by
        intro x
        show entry_in_bounds (set_at fs.files i zero_entry x)
        by_cases hx : x = i
        · subst hx; rw [set_at_same]; exact entry_in_bounds_zero_entry
        · rw [set_at_other _ _ _ _ hx]; exact hfs x
      cases h2 : delete_children_indices (delete_directory_recursive_indices fuel) d k
          (i + 1) (erase_entry (free_file_blocks fs i) i) with
      | none => rw [h2] at h; simp at h
      | some res2 =>
        obtain ⟨l2, fs3⟩ := res2
        rw [h2] at h
        simp only [Option.some.injEq, Prod.mk.injEq] at h
        obtain ⟨rfl, rfl⟩ := h
        obtain ⟨q3, q4⟩ := ihk (i + 1) _ fs3 l2 hnext h2
        refine ⟨?_, q4⟩
        intro b hb
        rcases List.mem_append.1 hb with hb | hb
        · exact range_indices_in_store _ (hfs i) b hb
        · exact q3 b hb
    · exact ihk (i + 1) fs fs1 l hfs h

theorem delete_directory_recursive_indices_in_store :
    ∀ (fuel : Nat) (d : Int) (fs fs1 : FileSystem) (l : List Int),
      (∀ i, entry_in_bounds (fs.files i)) →
      delete_directory_recursive_indices fuel d fs = some (l, fs1) →
      (∀ b ∈ l, in_store b) ∧ ∀ i, entry_in_bounds (fs1.files i) := by
  intro fuel
  induction fuel with
  | zero => intro d fs fs1 l _ h; simp [delete_directory_recursive_indices] at h
  | succ fuel ih =>
    intro d fs fs1 l hfs h
    rw [delete_directory_recursive_indices] at h
    split_ifs at h with hdir
    · simp only [Option.some.injEq, Prod.mk.injEq] at h
      obtain ⟨rfl, rfl⟩ := h
      exact ⟨fun b hb => by simp at hb, hfs⟩
    · cases h2 : delete_children_indices (delete_directory_recursive_indices fuel) d
          MAX_FILES 0 fs with
      | none => rw [h2] at h; simp at h
      | some res2 =>
        obtain ⟨l2, fs3⟩ := res2
        rw [h2] at h
        simp only [Option.some.injEq, Prod.mk.injEq] at h
        obtain ⟨rfl, rfl⟩ := h
        obtain ⟨q3, q4⟩ := delete_children_indices_in_store fuel ih d MAX_FILES 0 fs fs3 l2 hfs h2
        refine ⟨q3, ?_⟩
        intro x
        show entry_in_bounds (set_at fs3.files d zero_entry x)
        by_cases hx : x = d
        · subst hx; rw [set_at_same]; exact entry_in_bounds_zero_entry
        · rw [set_at_other _ _ _ _ hx]; exact q4 x

/-- C24 (block indices stay in bounds): in every state reachable from
`init_filesystem`, every live file with `start_block != -1` has `0 <=
start_block` and `start_block + num_blocks <= MAX_BLOCKS`, and an entry
with `start_block == -1` has `num_blocks == 0`; so every block index
computed by `write_file`, `read_file` and `delete_file`, whatever their
arguments, lies in `[0, MAX_BLOCKS)`, and so does every block index computed
by a call of `delete_directory_recursive` that returns. -/
theorem block_indices_in_bounds (fs : FileSystem) (h : Reachable fs) :
    (∀ i, in_table i → live fs i → (fs.files i).is_directory = 0 →
      (fs.files i).start_block ≠ -1 →
      0 ≤ (fs.files i).start_block ∧
        (fs.files i).start_block + (fs.files i).num_blocks ≤ (MAX_BLOCKS : Int)) ∧
    (∀ i, (fs.files i).start_block = -1 → (fs.files i).num_blocks = 0) ∧
    (∀ f c, ∀ b ∈ write_file_indices f c fs, 0 ≤ b ∧ b < (MAX_BLOCKS : Int)) ∧
    (∀ f, ∀ b ∈ read_file_indices f fs, 0 ≤ b ∧ b < (MAX_BLOCKS : Int)) ∧
    (∀ f, ∀ b ∈ delete_file_indices f fs, 0 ≤ b ∧ b < (MAX_BLOCKS : Int)) ∧
    (∀ fuel d r fs1, delete_directory_recursive fuel d fs = some (r, fs1) →
      ∃ l, delete_directory_recursive_indices fuel d fs = some (l, fs1) ∧
        ∀ b ∈ l, 0 ≤ b ∧ b < (MAX_BLOCKS : Int)) := by
  have hb := reachable_entry_in_bounds fs h
  refine ⟨?_, ?_, fun f c => write_file_indices_in_store fs f c (hb f),
    fun f => read_file_indices_in_store fs f (hb f),
    fun f => delete_file_indices_in_store fs f (hb f), ?_⟩
  · intro i _ _ _ hs
    rcases hb i with ⟨h1, _⟩ | ⟨h1, _, h3⟩
    · exact absurd h1 hs
    · exact ⟨h1, h3⟩
  · intro i hs
    rcases hb i with ⟨_, h2⟩ | ⟨h1, _, _⟩
    · exact h2
    · omega
  · intro fuel d r fs1 hrun
    have hst := delete_directory_recursive_indices_state fuel d fs
    rw [hrun] at hst
    cases h1 : delete_directory_recursive_indices fuel d fs with
    | none => rw [h1] at hst; simp at hst
    | some res =>
      obtain ⟨l, fs2⟩ := res
      rw [h1] at hst
      simp only [Option.map_some', Option.some.injEq] at hst
      subst hst
      exact ⟨l, rfl, (delete_directory_recursive_indices_in_store fuel d fs fs2 l hb h1).1⟩

set_option maxRecDepth 100000 in
/-- Witness of `block_indices_in_bounds`: in `docs_tree_fs` file 2 owns
block 0; `read_file(2)` and `delete_file(2)` compute index 0, and so does
`delete_directory_recursive(1)`. -/
theorem block_indices_in_bounds_witness :
    Reachable docs_tree_fs ∧ read_file_indices 2 docs_tree_fs = [0] ∧
    delete_file_indices 2 docs_tree_fs = [0] ∧
    (delete_directory_recursive_indices 2 1 docs_tree_fs).map Prod.fst = some [0] ∧
    (∀ b ∈ write_file_indices 2 ['h', 'i'] docs_tree_fs, 0 ≤ b ∧ b < (MAX_BLOCKS : Int)) ∧
    (∀ b ∈ read_file_indices 2 docs_tree_fs, 0 ≤ b ∧ b < (MAX_BLOCKS : Int)) :=
  ⟨safe_reachable_reachable _ safe_reachable_docs_tree_fs, by decide, by decide, by decide,
    (block_indices_in_bounds docs_tree_fs
      (safe_reachable_reachable _ safe_reachable_docs_tree_fs)).2.2.1 2 ['h', 'i'],
    (block_indices_in_bounds docs_tree_fs
      (safe_reachable_reachable _ safe_reachable_docs_tree_fs)).2.2.2.1 2⟩

/-! ## Writing to one file and reading another -/

/-- The copy loop of `read_file` reads the blocks of the range only. -/
theorem read_blocks_congr (fs fs1 : FileSystem) (e : FileMetadata)
    (h : ∀ j : Nat, (j : Int) < e.num_blocks →
      fs1.blocks (e.start_block + j) = fs.blocks (e.start_block + j)) :
    ∀ (k i : Nat) (buf : List Char), i + k = e.num_blocks.toNat →
      read_blocks fs1 e k i buf = read_blocks fs e k i buf := by
  intro k
  induction k with
  | zero => intro i buf _; rfl
  | succ k ih =>
    intro i buf hik
    simp only [read_blocks]
    rw [h i (by omega)]
    exact ih (i + 1) _ (by omega)

/-- What `write_file` keeps of another file: its entry always, and what
`read_file` returns for it when its blocks are marked used and lie outside
the old range of the file written. -/
theorem write_file_isolation (fs : FileSystem) (f g : Int) (c : List Char) (now v : Int)
    (hgf : g ≠ f) (hok : (write_file f c now fs).1 = Outcome.ok v)
    (hused : ∀ b, (fs.files g).start_block ≤ b →
      b < (fs.files g).start_block + (fs.files g).num_blocks →
      fs.free_blocks b = 0 ∧ ¬ in_old_range fs f b) :
    (write_file f c now fs).2.files g = fs.files g ∧
    read_file g (write_file f c now fs).2 = read_file g fs := by
  have hfiles := write_file_files_other f c now fs g hgf
  refine ⟨hfiles, ?_⟩
  obtain ⟨_, hf, hl, hd, hfound⟩ := write_file_ok_eq fs f c now v hok
  obtain ⟨hn1, _, _, hcast⟩ := blocks_needed_bounds c
  simp only [read_file, hfiles]
  split_ifs
  · rfl
  · rfl
  · rfl
  · congr 1
    apply read_blocks_congr _ _ _ _ _ _ _ (by omega)
    intro j hj
    rcases find_contiguous_spec (release_old_blocks fs f).free_blocks (blocks_needed c) hn1 with
      ⟨_, _, _, hrun, _⟩ | ⟨hlt, _⟩
    · rw [write_file_success fs f c now hf hl hd hfound]
      show (write_blocks c (c.length + 1) _ (blocks_needed c) (blocks_needed c).toNat 0
        (release_old_blocks fs f)).blocks ((fs.files g).start_block + j) = _
      rw [write_blocks_blocks_other, release_old_blocks_blocks]
      intro i _ hi heq
      have hfree := hrun ((fs.files g).start_block + j) (by omega) (by omega)
      obtain ⟨hu1, hu2⟩ := hused ((fs.files g).start_block + j) (by omega) (by omega)
      rw [release_old_blocks_free, if_neg hu2] at hfree
      exact hfree hu1
    · exact absurd hlt hfound

theorem reachable_shared_fs : Reachable shared_fs :=
  Reachable.create _ _ _ _ _ reachable_stale_fs (by decide)

set_option maxRecDepth 100000 in
/-- C25 on the code (write isolation, failing input): `create f`, `write 1
x`, a write of `big_content` to file 1 that fails with `OutOfSpace`, `create
g`. In this reachable state (`shared_fs`) files 1 and 2 are live, file 1 has
content (`start_block == 0`, one block, `read_file(1)` returns `x`) and block
0 is marked free. `write_file(2, "y")` succeeds and takes block 0: the entry
of file 1 is unchanged and `read_file(1)` now returns `y`. -/
theorem write_isolation_broken_by_stale_range :
    Reachable shared_fs ∧
    (in_table 1 ∧ live shared_fs 1 ∧ (shared_fs.files 1).is_directory = 0) ∧
    (in_table 2 ∧ live shared_fs 2 ∧ (shared_fs.files 2).is_directory = 0) ∧
    ((shared_fs.files 1).start_block = 0 ∧ (shared_fs.files 1).num_blocks = 1 ∧
      (shared_fs.files 1).size = 2 ∧ shared_fs.free_blocks 0 = 1) ∧
    read_file 1 shared_fs = Outcome.ok ['x', NUL] ∧
    (write_file 2 ['y'] 0 shared_fs).1 = Outcome.ok 0 ∧
    (((write_file 2 ['y'] 0 shared_fs).2.files 1).start_block = 0 ∧
      ((write_file 2 ['y'] 0 shared_fs).2.files 1).num_blocks = 1 ∧
      ((write_file 2 ['y'] 0 shared_fs).2.files 1).size = 2) ∧
    read_file 1 (write_file 2 ['y'] 0 shared_fs).2 = Outcome.ok ['y', NUL] ∧
    read_file 1 (write_file 2 ['y'] 0 shared_fs).2 ≠ read_file 1 shared_fs :=
  ⟨reachable_shared_fs, ⟨by decide, by decide, by decide⟩, ⟨by decide, by decide, by decide⟩,
    ⟨by decide, by decide, by decide, by decide⟩, by decide, by decide,
    ⟨by decide, by decide, by decide⟩, by decide, by decide⟩

end MiniOs
